import Mathlib

/-!
# Kythe serving pipeline and `common.proto` wire format

A shallow embedding of

* `kythe/proto/common_proto/common.pb.go` (the messages `Fact`, `Point`, `Span` and
  `NodeInfo`, their `Size`, `MarshalTo`, `Marshal` and `Unmarshal` methods,
  `encodeVarintCommon`, `sovCommon`, `skipCommon`), translated from the Go source,
* `kythe/go/extractors/config/runextractor/mavencmd/pom_xml_modifier.go`,
  translated from the Go source, and
* the serving pipeline and query service exercised by
  `kythe/go/serving/pipeline/beam_integration_test.go`.  The pipeline and the
  service are not part of the source tree at hand: they are modelled from the
  specification and compared with the expectations of the integration test.

Conventions.  Bytes are `Fin 256`.  A Go `string` or `[]byte` is a `List Byte`
when it is data and a `String` when it is a name (fact names, edge kinds, VName
components).  Go `int32` values are `Int`; `uint64`, and the bit patterns of `int`
and `int32` accumulators, are `Nat` reduced modulo `2 ^ w`.  Go `int` is 64 bits wide.
-/

namespace Kythe

/-! ## Data model -/

/-- One byte of a file or of a wire message. -/
abbrev Byte := Fin 256

/-- The bytes of an ASCII string literal (used to write inputs readably). -/
def ascii (s : String) : List Byte :=
  s.toList.map fun c => Fin.ofNat c.toNat

/-- The message `Point` of `common.pb.go`: three `int32` fields. -/
structure Point where
  ByteOffset : Int
  LineNumber : Int
  ColumnOffset : Int
deriving DecidableEq, Repr

/-- The message `Span` of `common.pb.go`: two optional (pointer) points. -/
structure Span where
  Start : Option Point
  End : Option Point
deriving DecidableEq, Repr

/-- `(*Point).GetByteOffset`: nil-safe getter. -/
def Point.GetByteOffset (m : Option Point) : Int :=
  match m with
  | some p => p.ByteOffset
  | none => 0

/-- `(*Point).GetLineNumber`: nil-safe getter. -/
def Point.GetLineNumber (m : Option Point) : Int :=
  match m with
  | some p => p.LineNumber
  | none => 0

/-- `(*Point).GetColumnOffset`: nil-safe getter. -/
def Point.GetColumnOffset (m : Option Point) : Int :=
  match m with
  | some p => p.ColumnOffset
  | none => 0

/-- `(*Span).GetStart`: nil-safe getter. -/
def Span.GetStart (m : Option Span) : Option Point :=
  match m with
  | some s => s.Start
  | none => none

/-- `(*Span).GetEnd`: nil-safe getter. -/
def Span.GetEnd (m : Option Span) : Option Point :=
  match m with
  | some s => s.End
  | none => none

/-! ## Span normalizer -/

/-- The newline byte. -/
def newline : Byte := 10

/-- Modelled from the spec: the scan for newline bytes that builds the line-start
table of the span normalizer (§4.1).  `scanNewlines text i` lists, for a suffix
`text` that starts at byte offset `i`, the offset following each newline byte. -/
def scanNewlines : List Byte → Nat → List Nat
  | [], _ => []
  | b :: rest, i =>
    if b = newline then (i + 1) :: scanNewlines rest (i + 1) else scanNewlines rest (i + 1)

/-- Modelled from the spec: the table of line-start byte offsets of a file text
(§4.1): line 1 starts at offset 0 and a new line starts after every newline byte. -/
def lineStarts (text : List Byte) : List Nat :=
  0 :: scanNewlines text 0

/-- Modelled from the spec: the binary search of the span normalizer (§4.1), in the
form of Go's `sort.Search`: the least index in `[i, j)` at which `f` holds, `j` when
there is none.  `f` may fail (an index out of range), in which case the search
fails.  The interval `[i, j)` shrinks at every step, so `fuel ≥ j - i` steps always
suffice and running out of fuel coincides with leaving the loop. -/
def searchLoop (f : Nat → Option Bool) : Nat → Nat → Nat → Option Nat
  | 0, i, _ => some i
  | fuel + 1, i, j =>
    if i < j then
      match f ((i + j) / 2) with
      | none => none
      | some true => searchLoop f fuel i ((i + j) / 2)
      | some false => searchLoop f fuel ((i + j) / 2 + 1) j
    else some i

/-- Modelled from the spec: binary search over the indices `[0, n)`. -/
def search (n : Nat) (f : Nat → Option Bool) : Option Nat :=
  searchLoop f n 0 n

/-- Modelled from the spec: the span normalizer's per-file state (§4.1): the length
of the file text and its table of line-start offsets. -/
structure Normalizer where
  textLen : Nat
  lineStart : List Nat
deriving DecidableEq, Repr

/-- Modelled from the spec: building the normalizer of a file text, once per file. -/
def NewNormalizer (text : List Byte) : Normalizer :=
  { textLen := text.length, lineStart := lineStarts text }

/-- Modelled from the spec: `normalize(byteOffset, lineIndex) -> Point` of the span
normalizer (§4.1).  An offset beyond the file length is clamped to the end of file
and the normalization error is marked in the second component.  The line is found
by binary search for the first line start beyond the offset; `lineNumber` is
`index + 1` and `columnOffset` is `byteOffset - lineStart[index]`.  Every table
access is checked: `none` stands for an index out of range. -/
def Normalizer.normalize (n : Normalizer) (byteOffset : Nat) : Option (Point × Bool) :=
  let clamped : Bool := decide (n.textLen < byteOffset)
  let b : Nat := if n.textLen < byteOffset then n.textLen else byteOffset
  match search n.lineStart.length (fun i => (n.lineStart[i]?).map fun s => decide (b < s)) with
  | none => none
  | some 0 => none
  | some (index + 1) =>
    match n.lineStart[index]? with
    | none => none
    | some s =>
      some ({ ByteOffset := (b : Int), LineNumber := (index : Int) + 1,
              ColumnOffset := (b : Int) - (s : Int) }, clamped)

/-- The lines of a text: the maximal runs of bytes between newline bytes.  A text
with `k` newline bytes has `k + 1` lines; the last one is empty when the text ends
in a newline. -/
def splitLines : List Byte → List (List Byte)
  | [] => [[]]
  | b :: rest =>
    if b = newline then [] :: splitLines rest
    else
      match splitLines rest with
      | [] => [[b]]
      | l :: ls => (b :: l) :: ls

/-- The start offsets of consecutive lines of the given lengths, the first line
starting at `a`: each line is followed by one newline byte. -/
def startsFrom : Nat → List Nat → List Nat
  | _, [] => []
  | a, len :: lens => a :: startsFrom (a + len + 1) lens

/-- Adding `k` already consumed bytes to the first line. -/
def bumpFirst (k : Nat) : List Nat → List Nat
  | [] => []
  | x :: xs => (x + k) :: xs

/-! ## Graph node model -/

/-- Modelled from the spec: the identity of a graph node (§3), a tuple of corpus,
language, root, path and signature.  The field names are those the integration
test uses (`spb.VName`). -/
structure VName where
  Signature : String
  Corpus : String
  Root : String
  Path : String
  Language : String
deriving DecidableEq, Repr

/-- Modelled from the spec: a ticket is the canonical encoding of a VName and is
opaque outside equality and ordering (§3); it is represented by the VName. -/
abbrev Ticket := VName

/-- The type in which tickets are compared: the components in lexicographic order. -/
abbrev TicketKey := List Char ×ₗ (List Char ×ₗ (List Char ×ₗ (List Char ×ₗ List Char)))

/-- Modelled from the spec: the ordering of tickets (§3), lexicographic in the
components of the VName. -/
def VName.key (v : VName) : TicketKey :=
  toLex (v.Corpus.toList, toLex (v.Root.toList, toLex (v.Path.toList,
    toLex (v.Language.toList, v.Signature.toList))))

/-- Modelled from the spec: the file component of a node identity (§4.2): the
identity without signature and language.  It is the ticket of the node's file. -/
def fileOf (v : VName) : VName :=
  { v with Signature := "", Language := "" }

/-- Modelled from the spec: the kind of a graph node (§3),
`enum{FILE, ANCHOR, RECORD, ...}`. -/
inductive NodeKind where
  | FILE
  | ANCHOR
  | RECORD
  | other (name : String)
deriving DecidableEq, Repr

/-- The schema name of a node kind, as served in the `/kythe/node/kind` fact. -/
def NodeKind.name : NodeKind → String
  | .FILE => "file"
  | .ANCHOR => "anchor"
  | .RECORD => "record"
  | .other n => n

/-- Fact name `TEXT`: the contents of a file. -/
def factText : String := "/kythe/text"
/-- Fact name `TEXT_ENCODING`. -/
def factTextEncoding : String := "/kythe/text/encoding"
/-- Fact name `LOC_START`: decimal-ASCII start offset of an anchor. -/
def factLocStart : String := "/kythe/loc/start"
/-- Fact name `LOC_END`: decimal-ASCII end offset of an anchor. -/
def factLocEnd : String := "/kythe/loc/end"
/-- Fact name `CODE`: the serialized display blob. -/
def factCode : String := "/kythe/code"
/-- Fact name under which the kind of a node is served. -/
def factNodeKind : String := "/kythe/node/kind"
/-- Edge kind `REF`. -/
def edgeRef : String := "/kythe/edge/ref"
/-- Edge kind `DEFINES`. -/
def edgeDefines : String := "/kythe/edge/defines"

/-- Modelled from the spec: an outgoing edge of a graph node (§3). -/
structure Edge where
  kind : String
  target : VName
deriving DecidableEq, Repr

/-- Modelled from the spec: one node of the semantic graph (§3): identity, kind,
facts (a mapping from names to bytes) and outgoing edges. -/
structure GraphNode where
  identity : VName
  kind : NodeKind
  facts : List (String × List Byte)
  edges : List Edge
deriving DecidableEq, Repr

/-- The value of the fact of the given name, if the node has one. -/
def GraphNode.fact (n : GraphNode) (name : String) : Option (List Byte) :=
  n.facts.lookup name

/-- Modelled from the spec: the relation buckets of interest (§3, §4.3). -/
inductive Relation where
  | reference
  | definition
deriving DecidableEq, Repr

/-- Whether `kind` is the edge kind `base` or one of its `/`-separated subkinds. -/
def isKindOrSubkind (base kind : String) : Bool :=
  kind == base || (base.toList ++ ['/']).isPrefixOf kind.toList

/-- Modelled from the spec: the closed classification of edge kinds into anchor
relations (§4.2, §9): `defines` edges are definitions, `ref` edges are references,
every other kind is ignored. -/
def relationOf (kind : String) : Option Relation :=
  if isKindOrSubkind edgeDefines kind then some .definition
  else if isKindOrSubkind edgeRef kind then some .reference
  else none

/-- Modelled from the spec: parsing a decimal-ASCII byte offset (§3, §7); `none` is
the `ParseError` of a missing digit string or a non-digit byte. -/
def parseDecimal (bs : List Byte) : Option Nat :=
  if bs.isEmpty then none
  else bs.foldlM (fun acc b =>
    if 48 ≤ b.val ∧ b.val ≤ 57 then some (acc * 10 + (b.val - 48)) else none) 0

/-- Modelled from the spec: the byte range of an anchor from its `LOC_START` and
`LOC_END` facts; `none` when either is missing or not numeric. -/
def anchorLoc (n : GraphNode) : Option (Nat × Nat) :=
  match (n.fact factLocStart).bind parseDecimal, (n.fact factLocEnd).bind parseDecimal with
  | some s, some e => some (s, e)
  | _, _ => none

/-! ## Decoration builder -/

/-- Modelled from the spec: the point for a byte offset (§4.1).  With the file
text available it is the normalized point (a normalization error is not fatal and
is ignored here); without it the point keeps only `byteOffset` and reports
`lineNumber = 0`. -/
def normPoint (norm : Option Normalizer) (b : Nat) : Point :=
  match norm with
  | none => { ByteOffset := (b : Int), LineNumber := 0, ColumnOffset := 0 }
  | some n =>
    match n.normalize b with
    | some (p, _) => p
    | none => { ByteOffset := (b : Int), LineNumber := 0, ColumnOffset := 0 }

/-- Modelled from the spec: the span of the byte range `[s, e)`. -/
def mkSpan (norm : Option Normalizer) (s e : Nat) : Span :=
  { Start := some (normPoint norm s), End := some (normPoint norm e) }

/-- Modelled from the spec: a reference entry of a decoration record (§3). -/
structure Reference where
  span : Span
  edgeKind : String
  targetTicket : Ticket
deriving DecidableEq, Repr

/-- Modelled from the spec: the decoration record of a file (§3).  `sourceText` and
`encoding` are absent when the FILE node has no such fact. -/
structure DecorationRecord where
  sourceText : Option (List Byte)
  encoding : Option (List Byte)
  references : List Reference
deriving DecidableEq, Repr

/-- Modelled from the spec: the reference entries of one ANCHOR node (§4.2): one
per outgoing edge of an anchor-relation kind; an anchor whose `LOC_START` or
`LOC_END` is missing or not numeric is dropped. -/
def anchorReferences (norm : Option Normalizer) (a : GraphNode) : List Reference :=
  match anchorLoc a with
  | none => []
  | some (s, e) =>
    (a.edges.filter fun ed => (relationOf ed.kind).isSome).map fun ed =>
      { span := mkSpan norm s e, edgeKind := ed.kind, targetTicket := ed.target }

/-- The type in which reference entries are compared. -/
abbrev ReferenceKey :=
  Int ×ₗ (Int ×ₗ List Char)

/-- Modelled from the spec: the sort key of a reference entry (§4.2): ascending
`span.start.byteOffset`, ties broken by ascending `span.end.byteOffset`, then by
the edge kind lexicographically. -/
def Reference.key (r : Reference) : ReferenceKey :=
  toLex (Point.GetByteOffset r.span.Start, toLex (Point.GetByteOffset r.span.End,
    r.edgeKind.toList))

/-- Modelled from the spec: ordering the reference entries of a record (§4.2).
The spec gives no order for entries that agree on the three components of the
key; they keep the order in which they are contributed. -/
def sortReferences (l : List Reference) : List Reference :=
  l.insertionSort fun a b => a.key ≤ b.key

/-- Modelled from the spec: the FILE node with the given ticket. -/
def fileNode (nodes : List GraphNode) (file : Ticket) : Option GraphNode :=
  nodes.find? fun n => decide (n.kind = NodeKind.FILE ∧ n.identity = file)

/-- Modelled from the spec: the source text of a file: the `TEXT` fact of its FILE
node, when there is one. -/
def fileText (nodes : List GraphNode) (file : Ticket) : Option (List Byte) :=
  (fileNode nodes file).bind fun f => f.fact factText

/-- Modelled from the spec: the normalizer of a file, when its text is available. -/
def fileNormalizer (nodes : List GraphNode) (file : Ticket) : Option Normalizer :=
  (fileText nodes file).map NewNormalizer

/-- The constraint of `common.pb.go` on a point with `line_number > 0`
("A point with line_number > 0 is said to be normalized if it satisfies the
constraint 0 ≤ column_offset ≤ bytelen(line_number)"), for a point of the file
with the given text: line `line_number` exists and the column offset lies within
it. -/
def Point.normalizedIn (text : List Byte) (p : Point) : Prop :=
  0 < p.LineNumber ∧
    ∃ line, (splitLines text)[(p.LineNumber - 1).toNat]? = some line ∧
      0 ≤ p.ColumnOffset ∧ p.ColumnOffset ≤ (line.length : Int)

/-- The invariant of an emitted point of a file whose text is `text?` (absent when
unavailable): with `line_number > 0` the point is normalized in the text of the
file; otherwise line number and column offset are unset. -/
def pointInvariant (text? : Option (List Byte)) (p : Point) : Prop :=
  (0 < p.LineNumber → ∃ text, text? = some text ∧ p.normalizedIn text) ∧
    (p.LineNumber ≤ 0 → p.LineNumber = 0 ∧ p.ColumnOffset = 0)

/-- The point invariant for both points of a span, when they are set. -/
def spanInvariant (text? : Option (List Byte)) (s : Span) : Prop :=
  (∀ p, s.Start = some p → pointInvariant text? p) ∧
    (∀ p, s.End = some p → pointInvariant text? p)

/-- Modelled from the spec: the decoration builder (§4.2).  For a FILE node it
produces one record: `sourceText` and `encoding` from the `TEXT` and
`TEXT_ENCODING` facts, and the ordered reference entries of every ANCHOR node
whose identity has this file as its file component. -/
def decorationRecord (nodes : List GraphNode) (file : Ticket) : Option DecorationRecord :=
  match fileNode nodes file with
  | none => none
  | some f =>
    some { sourceText := f.fact factText
           encoding := f.fact factTextEncoding
           references := sortReferences
             ((nodes.filter fun n => decide (n.kind = NodeKind.ANCHOR ∧ fileOf n.identity = file)).flatMap
               (anchorReferences ((f.fact factText).map NewNormalizer))) }

/-! ## Cross-reference builder -/

/-- Modelled from the spec: the opaque display blob (§3, glossary).  Decoding the
`CODE` fact is a collaborator's concern; the blob is represented by its encoding. -/
structure MarkedSource where
  encoded : List Byte
deriving DecidableEq, Repr

/-- Modelled from the spec: decoding the `CODE` fact into the display blob. -/
def decodeMarkedSource (code : List Byte) : MarkedSource :=
  { encoded := code }

/-- Modelled from the spec: an anchor of a relation bucket (§3). -/
structure XAnchor where
  anchorTicket : Ticket
  parentFileTicket : Ticket
  span : Span
deriving DecidableEq, Repr

/-- Modelled from the spec: the cross-reference record of a target (§3), with the
two relation buckets of interest. -/
structure CrossReferenceRecord where
  markedSource : Option MarkedSource
  facts : List (String × List Byte)
  definitionTicket : Option Ticket
  reference : List XAnchor
  definition : List XAnchor
deriving DecidableEq, Repr

/-- Modelled from the spec: the span of an anchor node, normalized against the text
of its parent file.  When `LOC_START` or `LOC_END` cannot be parsed the span field
is dropped (§7): both points are unset. -/
def anchorSpan (nodes : List GraphNode) (a : GraphNode) : Span :=
  match anchorLoc a with
  | none => { Start := none, End := none }
  | some (s, e) => mkSpan (fileNormalizer nodes (fileOf a.identity)) s e

/-- The type in which bucket anchors are compared. -/
abbrev XAnchorKey :=
  TicketKey ×ₗ Int

/-- Modelled from the spec: the sort key of a bucket anchor (§4.3): ascending
`(parentFileTicket, span.start.byteOffset)`. -/
def XAnchor.key (a : XAnchor) : XAnchorKey :=
  toLex (a.parentFileTicket.key, Point.GetByteOffset a.span.Start)

/-- Modelled from the spec: ordering the anchors of a relation bucket (§4.3).  The
spec gives no order for anchors that agree on both components of the key; they
keep the order in which they are contributed. -/
def sortAnchors (l : List XAnchor) : List XAnchor :=
  l.insertionSort fun a b => a.key ≤ b.key

/-- Modelled from the spec: the edges of relation `rel` that target `t`, each with
the node it leaves, before ordering: the grouping of edges by target (§4.3). -/
def relationEdges (nodes : List GraphNode) (rel : Relation) (t : Ticket) :
    List (GraphNode × Edge) :=
  nodes.flatMap fun a =>
    (a.edges.filter fun ed => decide (relationOf ed.kind = some rel ∧ ed.target = t)).map
      fun ed => (a, ed)

/-- Modelled from the spec: a relation bucket of a target (§4.3): one anchor per
edge of the relation that targets `t`, ordered. -/
def bucket (nodes : List GraphNode) (rel : Relation) (t : Ticket) : List XAnchor :=
  sortAnchors ((relationEdges nodes rel t).map fun ae =>
    { anchorTicket := ae.1.identity, parentFileTicket := fileOf ae.1.identity,
      span := anchorSpan nodes ae.1 })

/-- Modelled from the spec: the facts of the record of a target node (§4.3): its
kind, under `/kythe/node/kind`, and its fact mapping, "excluding the raw `CODE`
bytes encoding the display blob (it is already decoded into `markedSource`)". -/
def nodeFacts (n : GraphNode) : List (String × List Byte) :=
  (factNodeKind, ascii n.kind.name) :: n.facts.filter fun f => decide (f.1 ≠ factCode)

/-- Modelled from the spec: the cross-reference builder (§4.3).  A record is
produced for a ticket that is the target of an anchor-relation edge or that names a
node of the graph; `definitionTicket` is set when the `definition` bucket has
exactly one entry; `markedSource` is the decoded `CODE` fact of the target node. -/
def crossReferenceRecord (nodes : List GraphNode) (t : Ticket) : Option CrossReferenceRecord :=
  match nodes.find? (fun n => decide (n.identity = t)),
        bucket nodes Relation.reference t, bucket nodes Relation.definition t with
  | none, [], [] => none
  | tnode, refs, defs =>
    some { markedSource := (tnode.bind fun n => n.fact factCode).map decodeMarkedSource
           facts := match tnode with
             | none => []
             | some n => nodeFacts n
           definitionTicket := match defs with
             | [d] => some d.anchorTicket
             | _ => none
           reference := refs
           definition := defs }

/-! ## Columnar store -/

/-- Modelled from the spec: the keys of the columnar store (§3, §6): the table
marker, or a table tag followed by a ticket. -/
inductive StoreKey where
  | marker
  | decorations (t : Ticket)
  | crossReferences (t : Ticket)
deriving DecidableEq, Repr

/-- Modelled from the spec: the values of the columnar store.  The byte encoding of
records is a collaborator's concern (§1); a value is the record it encodes. -/
inductive StoreValue where
  | empty
  | decoration (r : DecorationRecord)
  | crossReference (r : CrossReferenceRecord)
deriving DecidableEq, Repr

/-- Modelled from the spec: a finalized store, as the sequence of its writes. -/
abbrev Store := List (StoreKey × StoreValue)

/-- Modelled from the spec: the reader's `get(key)` (§4.4); the last write observed
for a key wins. -/
def Store.get : Store → StoreKey → Option StoreValue
  | [], _ => none
  | (k', v) :: rest, k =>
    match Store.get rest k with
    | some v' => some v'
    | none => if k' = k then some v else none

/-- Modelled from the spec: the tickets for which the cross-reference builder is
asked for a record: every node and every target of an anchor-relation edge. -/
def crossReferenceTargets (nodes : List GraphNode) : List Ticket :=
  nodes.map (fun n => n.identity) ++
    nodes.flatMap fun n =>
      (n.edges.filter fun ed => (relationOf ed.kind).isSome).map fun ed => ed.target

/-- Modelled from the spec: the records the two builders write (§2): one decoration
record per FILE node and one cross-reference record per target. -/
def pipelineOutput (nodes : List GraphNode) : List (StoreKey × StoreValue) :=
  (nodes.filterMap fun n =>
      (decorationRecord nodes n.identity).map fun r =>
        (StoreKey.decorations n.identity, StoreValue.decoration r)) ++
    ((crossReferenceTargets nodes).filterMap fun t =>
      (crossReferenceRecord nodes t).map fun r =>
        (StoreKey.crossReferences t, StoreValue.crossReference r))

/-- Modelled from the spec: the store the pipeline leaves behind (§6): the table
marker with an empty value is written first, then the records of both builders. -/
def servingStore (nodes : List GraphNode) : Store :=
  (StoreKey.marker, StoreValue.empty) :: pipelineOutput nodes

/-! ## Query service -/

/-- Modelled from the spec: the error taxonomy of the query service (§7). -/
inductive ServiceError where
  | NotFoundError
  | FormatError
  | StorageError
deriving DecidableEq, Repr

deriving instance DecidableEq for Except

/-- Modelled from the spec: the `/`-separated segments of a name or pattern (§4.5). -/
def segments : List Char → List (List Char)
  | [] => [[]]
  | c :: cs =>
    if c = '/' then [] :: segments cs
    else
      match segments cs with
      | [] => [[c]]
      | x :: xs => (c :: x) :: xs

/-- Modelled from the spec: matching a pattern against a name, segment by segment
(§4.5): a `**` segment matches any run of segments, every other segment matches
only itself. -/
def globMatch : List (List Char) → List (List Char) → Bool
  | [], ns => ns.isEmpty
  | p :: ps, ns =>
    if p = ['*', '*'] then (List.range (ns.length + 1)).any fun k => globMatch ps (ns.drop k)
    else
      match ns with
      | [] => false
      | n :: rest => decide (p = n) && globMatch ps rest

/-- Modelled from the spec: a name passes a filter when one of its patterns
matches it (§4.5). -/
def matchesFilter (filter : List String) (name : String) : Bool :=
  filter.any fun p => globMatch (segments p.toList) (segments name.toList)

/-- Modelled from the spec: the fact projection of a reply (§4.5): the facts of a
record whose names pass the filter. -/
def projectFacts (filter : List String) (facts : List (String × List Byte)) :
    List (String × List Byte) :=
  facts.filter fun f => matchesFilter filter f.1

/-- Modelled from the spec: an anchor of a reply (§6), with its snippet. -/
structure Anchor where
  ticket : Option Ticket
  parent : Ticket
  span : Span
  snippet : Option (List Byte)
  snippetSpan : Option Span
deriving DecidableEq, Repr

/-- Modelled from the spec: the snippet of a byte offset in a file text (§4.5):
the full text of the source line that contains the offset, and the span that
covers that line.  The line starts `columnOffset` bytes before the normalized
offset and runs up to the next newline byte or the end of the text. -/
def snippetOf (text : List Byte) (b : Nat) : List Byte × Span :=
  let norm := NewNormalizer text
  let p := normPoint (some norm) b
  let lineStart := (p.ByteOffset - p.ColumnOffset).toNat
  let line := (text.drop lineStart).takeWhile fun c => decide (c ≠ newline)
  (line, mkSpan (some norm) lineStart (lineStart + line.length))

/-- Modelled from the spec: the decoration record stored for a file ticket. -/
def Store.decorationOf (store : Store) (t : Ticket) : Option DecorationRecord :=
  match store.get (StoreKey.decorations t) with
  | some (StoreValue.decoration r) => some r
  | _ => none

/-- Modelled from the spec: the cross-reference record stored for a ticket. -/
def Store.crossReferenceOf (store : Store) (t : Ticket) : Option CrossReferenceRecord :=
  match store.get (StoreKey.crossReferences t) with
  | some (StoreValue.crossReference r) => some r
  | _ => none

/-- Modelled from the spec: the reply anchor of a bucket anchor (§4.5).  The
snippet is looked up through the source text of the decoration record of the
parent file and is taken at the start offset of the anchor's span; without source
text there is no snippet. -/
def mkAnchor (store : Store) (withTicket : Bool) (a : XAnchor) : Anchor :=
  match (store.decorationOf a.parentFileTicket).bind fun r => r.sourceText with
  | none =>
    { ticket := if withTicket then some a.anchorTicket else none
      parent := a.parentFileTicket, span := a.span, snippet := none, snippetSpan := none }
  | some text =>
    { ticket := if withTicket then some a.anchorTicket else none
      parent := a.parentFileTicket, span := a.span
      snippet := some (snippetOf text (Point.GetByteOffset a.span.Start).toNat).1
      snippetSpan := some (snippetOf text (Point.GetByteOffset a.span.Start).toNat).2 }

/-- Modelled from the spec: `DecorationsRequest` (§6). -/
structure DecorationsRequest where
  ticket : Ticket
  sourceText : Bool
  references : Bool
  filter : List String
  targetDefinitions : Bool
deriving DecidableEq, Repr

/-- Modelled from the spec: a reference entry of a `DecorationsReply` (§6). -/
structure ReplyReference where
  span : Span
  kind : String
  targetTicket : Ticket
  targetDefinition : Option Ticket
deriving DecidableEq, Repr

/-- Modelled from the spec: `DecorationsReply` (§6).  The maps `nodes` and
`definitionLocations` are association lists. -/
structure DecorationsReply where
  location : Ticket
  sourceText : Option (List Byte)
  encoding : Option (List Byte)
  reference : List ReplyReference
  nodes : List (Ticket × List (String × List Byte))
  definitionLocations : List (Ticket × Anchor)
deriving DecidableEq, Repr

/-- Modelled from the spec: the reference entries of a record that a request
returns (§4.5): none unless `references` is set; with a filter, those whose kind
passes it; without a filter, the default kind set, which is every anchor-relation
kind (the integration test gets both `ref` entries without a filter). -/
def selectedReferences (req : DecorationsRequest) (r : DecorationRecord) : List Reference :=
  if req.references then
    r.references.filter fun e => req.filter.isEmpty || matchesFilter req.filter e.edgeKind
  else []

/-- Modelled from the spec: the node facts of a reply (§4.5): for every distinct
ticket, the facts of its cross-reference record that pass the filter.  Without a
filter no node facts are returned, and a ticket without a record or without a
passing fact is omitted. -/
def replyNodes (store : Store) (filter : List String) (tickets : List Ticket) :
    List (Ticket × List (String × List Byte)) :=
  if filter.isEmpty then []
  else tickets.dedup.filterMap fun t =>
    match store.crossReferenceOf t with
    | none => none
    | some r =>
      if (projectFacts filter r.facts).isEmpty then none
      else some (t, projectFacts filter r.facts)

/-- Modelled from the spec: the definition of a target (§4.5): the single entry of
the `definition` bucket of its cross-reference record, when `definitionTicket` is
set. -/
def Store.definitionOf (store : Store) (t : Ticket) : Option XAnchor :=
  match store.crossReferenceOf t with
  | none => none
  | some r =>
    match r.definitionTicket with
    | none => none
    | some d => r.definition.find? fun a => decide (a.anchorTicket = d)

/-- Modelled from the spec: `Decorations(request) -> reply` (§4.5).  The store
must carry the table marker; a file ticket without a decoration record is a
`NotFoundError`; failed secondary lookups are "no data". -/
def Decorations (store : Store) (req : DecorationsRequest) :
    Except ServiceError DecorationsReply :=
  match store.get StoreKey.marker with
  | none => Except.error ServiceError.FormatError
  | some _ =>
    match store.decorationOf req.ticket with
    | none => Except.error ServiceError.NotFoundError
    | some r =>
      Except.ok
        { location := req.ticket
          sourceText := if req.sourceText then r.sourceText else none
          encoding := if req.sourceText then r.encoding else none
          reference := (selectedReferences req r).map fun e =>
            { span := e.span, kind := e.edgeKind, targetTicket := e.targetTicket
              targetDefinition :=
                if req.targetDefinitions then
                  (store.crossReferenceOf e.targetTicket).bind fun x => x.definitionTicket
                else none }
          nodes := replyNodes store req.filter ((selectedReferences req r).map fun e => e.targetTicket)
          definitionLocations :=
            if req.targetDefinitions then
              (((selectedReferences req r).map fun e => e.targetTicket).dedup.filterMap fun t =>
                (store.definitionOf t).map fun a => (a.anchorTicket, mkAnchor store true a)).dedup
            else [] }

/-- Modelled from the spec: `referenceKind` of a `CrossReferencesRequest` (§6). -/
inductive ReferenceKind where
  | NONE
  | ALL_REFERENCES
deriving DecidableEq, Repr

/-- Modelled from the spec: `CrossReferencesRequest` (§6). -/
structure CrossReferencesRequest where
  ticket : List Ticket
  filter : List String
  referenceKind : ReferenceKind
  relatedNodeKind : List String
deriving DecidableEq, Repr

/-- Modelled from the spec: the cross-reference set of one ticket in a reply (§6). -/
structure CrossReferenceSet where
  ticket : Ticket
  markedSource : Option MarkedSource
  reference : List Anchor
deriving DecidableEq, Repr

/-- Modelled from the spec: `CrossReferencesReply` (§6), its maps as association
lists. -/
structure CrossReferencesReply where
  crossReferences : List (Ticket × CrossReferenceSet)
  nodes : List (Ticket × List (String × List Byte))
deriving DecidableEq, Repr

/-- Modelled from the spec: `CrossReferences(request) -> reply` (§4.5).  Tickets
without a record are omitted; `referenceKind = NONE` suppresses the reference
bucket; `markedSource` is copied from the record; node facts follow the glob
rule. -/
def CrossReferences (store : Store) (req : CrossReferencesRequest) :
    Except ServiceError CrossReferencesReply :=
  match store.get StoreKey.marker with
  | none => Except.error ServiceError.FormatError
  | some _ =>
    Except.ok
      { crossReferences := req.ticket.dedup.filterMap fun t =>
          (store.crossReferenceOf t).map fun r =>
            (t, { ticket := t, markedSource := r.markedSource
                  reference :=
                    match req.referenceKind with
                    | ReferenceKind.NONE => []
                    | ReferenceKind.ALL_REFERENCES => r.reference.map (mkAnchor store false) })
        nodes := replyNodes store req.filter req.ticket }

/-! ## The inputs of the integration test -/

/-- The VName with only a path. -/
def vnamePath (path : String) : VName :=
  { Signature := "", Corpus := "", Root := "", Path := path, Language := "" }

/-- The VName with a path and a signature. -/
def vnameSig (path signature : String) : VName :=
  { Signature := signature, Corpus := "", Root := "", Path := path, Language := "" }

/-- An ANCHOR node with the given byte range and a single outgoing edge. -/
def anchorNode (v : VName) (s e : String) (kind : String) (target : VName) : GraphNode :=
  { identity := v, kind := NodeKind.ANCHOR
    facts := [(factLocStart, ascii s), (factLocEnd, ascii e)]
    edges := [{ kind := kind, target := target }] }

/-- The nodes of `TestServingSimpleDecorations`. -/
def decorTestNodes : List GraphNode :=
  [ { identity := vnamePath "path", kind := NodeKind.FILE
      facts := [(factText, ascii "some text\n"), (factTextEncoding, ascii "ascii")], edges := [] },
    anchorNode (vnameSig "path" "anchor1") "0" "4" edgeRef (vnameSig "" "simpleDecor"),
    { identity := vnameSig "" "simpleDecor", kind := NodeKind.RECORD, facts := [], edges := [] },
    anchorNode (vnameSig "path" "anchor2") "5" "9" edgeRef (vnameSig "" "decorWithDef"),
    anchorNode (vnameSig "" "def1") "0" "3" edgeDefines (vnameSig "" "decorWithDef"),
    { identity := vnamePath "", kind := NodeKind.FILE
      facts := [(factText, ascii "def\n")], edges := [] } ]

/-- The encoded display blob of `TestServingSimpleCrossReferences` (an opaque byte
string here). -/
def testMarkedSource : List Byte := ascii "identifier"

/-- The nodes of `TestServingSimpleCrossReferences`. -/
def xrefTestNodes : List GraphNode :=
  [ { identity := vnamePath "path", kind := NodeKind.FILE
      facts := [(factText, ascii "blah blah\n"), (factTextEncoding, ascii "ascii")], edges := [] },
    anchorNode (vnameSig "path" "anchor1") "5" "9" edgeRef (vnameSig "path" "signature"),
    { identity := vnameSig "path" "signature", kind := NodeKind.RECORD
      facts := [(factCode, testMarkedSource)], edges := [] } ]

/-- The documented order of reference entries (§4.2) on the triples
`(span.start.byteOffset, span.end.byteOffset, edge kind)`: ascending start offset,
ties broken by ascending end offset, then by edge kind in lexicographic order. -/
def documentedOrder (s₁ e₁ : Int) (k₁ : String) (s₂ e₂ : Int) (k₂ : String) : Prop :=
  s₁ < s₂ ∨ (s₁ = s₂ ∧ (e₁ < e₂ ∨ (e₁ = e₂ ∧ k₁.toList ≤ k₂.toList)))

/-! ## Wire format: `common.pb.go` -/

/-- The errors the generated code returns: the two package variables, the
`io.ErrUnexpectedEOF` of the standard library, and the errors built by
`fmt.Errorf`, kept as their format string. -/
inductive WireError where
  | ErrInvalidLengthCommon
  | ErrIntOverflowCommon
  | ErrUnexpectedEOF
  | Errorf (format : String)
deriving DecidableEq, Repr

/-- The outcome of running a Go function: a value, a returned error, a run-time
panic (an index or slice bound out of range, `panic("unreachable")`), or the
exhaustion of the step budget of a modelled loop. -/
inductive Outcome (α : Type) where
  | ok (a : α)
  | error (e : WireError)
  | goPanic
  | outOfFuel
deriving DecidableEq, Repr

/-- The conversion `uint64(x)` of an `int32` or `int` value: two's complement. -/
def uint64 (x : Int) : Nat :=
  (x % 2 ^ 64).toNat

/-- The `int32` value with the given bit pattern: the conversion `int32(x)`. -/
def int32 (x : Nat) : Int :=
  ((x : Int) + 2 ^ 31) % 2 ^ 32 - 2 ^ 31

/-- The `int` (64-bit) value with the given bit pattern: the conversion `int(x)`. -/
def int64 (x : Nat) : Int :=
  ((x : Int) + 2 ^ 63) % 2 ^ 64 - 2 ^ 63

/-- The result of an `int` addition, which wraps around in two's complement. -/
def wrap64 (x : Int) : Int :=
  (x + 2 ^ 63) % 2 ^ 64 - 2 ^ 63

/-- The loop of `encodeVarintCommon`, as the bytes it writes from `offset` on:
`for v >= 1<<7 { dAtA[offset] = uint8(v&0x7f | 0x80); v >>= 7; offset++ }` and then
`dAtA[offset] = uint8(v)`.  The first argument bounds the number of turns of the
loop. -/
def encodeVarintLoop : Nat → Nat → List Byte
  | 0, v => [Fin.ofNat v]
  | n + 1, v =>
    if v ≥ 1 <<< 7 then Fin.ofNat (v &&& 0x7f ||| 0x80) :: encodeVarintLoop n (v >>> 7)
    else [Fin.ofNat v]

/-- `encodeVarintCommon(dAtA, offset, v)`, as the bytes written from `offset` on (the
returned offset is `offset` plus their number).  `v` is a `uint64`, so the loop
takes at most 9 turns. -/
def encodeVarintCommon (v : Nat) : List Byte :=
  encodeVarintLoop 9 v

/-- The loop of `sovCommon`: `for { n++; x >>= 7; if x == 0 { break } }`.  The first
argument bounds the number of turns after the first. -/
def sovLoop : Nat → Nat → Nat
  | 0, _ => 1
  | n + 1, x => if x >>> 7 = 0 then 1 else 1 + sovLoop n (x >>> 7)

/-- `sovCommon(x)`: the size of the varint of the `uint64` `x`; the loop takes at
most 10 turns. -/
def sovCommon (x : Nat) : Nat :=
  sovLoop 9 x

/-- `(*Point).Size`. -/
def Point.Size (m : Point) : Nat :=
  (if m.ByteOffset ≠ 0 then 1 + sovCommon (uint64 m.ByteOffset) else 0) +
  (if m.LineNumber ≠ 0 then 1 + sovCommon (uint64 m.LineNumber) else 0) +
  (if m.ColumnOffset ≠ 0 then 1 + sovCommon (uint64 m.ColumnOffset) else 0)

/-- `(*Point).MarshalTo`, as the bytes it writes to `dAtA` from index 0 on, in
order; the returned count is their number. -/
def Point.MarshalTo (m : Point) : List Byte :=
  (if m.ByteOffset ≠ 0 then (0x8 : Byte) :: encodeVarintCommon (uint64 m.ByteOffset) else []) ++
  (if m.LineNumber ≠ 0 then (0x10 : Byte) :: encodeVarintCommon (uint64 m.LineNumber) else []) ++
  (if m.ColumnOffset ≠ 0 then (0x18 : Byte) :: encodeVarintCommon (uint64 m.ColumnOffset) else [])

/-- The result of `n, err := m.MarshalTo(dAtA)` followed by `dAtA[:n]` on a buffer of
`size` bytes: the bytes written, or a panic when a write falls outside the
buffer. -/
def marshalInto (size : Nat) (written : List Byte) : Outcome (List Byte) :=
  if written.length ≤ size then Outcome.ok written else Outcome.goPanic

/-- `(*Point).Marshal`: a buffer of `Size()` bytes is filled by `MarshalTo`. -/
def Point.Marshal (m : Point) : Outcome (List Byte) :=
  marshalInto m.Size m.MarshalTo

/-- `(*Span).Size`. -/
def Span.Size (m : Span) : Nat :=
  (match m.Start with
    | some p => 1 + p.Size + sovCommon p.Size
    | none => 0) +
  (match m.End with
    | some p => 1 + p.Size + sovCommon p.Size
    | none => 0)

/-- `(*Span).MarshalTo`, as the bytes it writes, in order. -/
def Span.MarshalTo (m : Span) : List Byte :=
  (match m.Start with
    | some p => (0xa : Byte) :: encodeVarintCommon p.Size ++ p.MarshalTo
    | none => []) ++
  (match m.End with
    | some p => (0x12 : Byte) :: encodeVarintCommon p.Size ++ p.MarshalTo
    | none => [])

/-- `(*Span).Marshal`. -/
def Span.Marshal (m : Span) : Outcome (List Byte) :=
  marshalInto m.Size m.MarshalTo

/-- The varint loop of the generated decoders, from a non-negative index:
`for shift := uint(0); ; shift += 7 { if shift >= 64 { return ErrIntOverflowCommon };
if iNdEx >= l { return io.ErrUnexpectedEOF }; b := dAtA[iNdEx]; iNdEx++;
x |= (T(b) & 0x7F) << shift; if b < 0x80 { break } }`, for an accumulator `x` of
`bits` bits, kept as its bit pattern.  It returns the accumulator and the index.
The first argument counts the turns left: `shift` reaches 64 at the eleventh
turn, so with 11 turns the count is never the reason to stop. -/
def readVarintLoop (bits : Nat) (dAtA : List Byte) : Nat → Nat → Nat → Nat → Outcome (Nat × Nat)
  | 0, _, _, _ => Outcome.error WireError.ErrIntOverflowCommon
  | n + 1, shift, iNdEx, x =>
    if shift ≥ 64 then Outcome.error WireError.ErrIntOverflowCommon
    else
      match dAtA[iNdEx]? with
      | none => Outcome.error WireError.ErrUnexpectedEOF
      | some b =>
        if b.val < 0x80 then
          Outcome.ok ((x ||| ((b.val &&& 0x7F) <<< shift) % 2 ^ bits), iNdEx + 1)
        else
          readVarintLoop bits dAtA n (shift + 7) (iNdEx + 1)
            (x ||| ((b.val &&& 0x7F) <<< shift) % 2 ^ bits)

/-- The varint loop at the `int` index `iNdEx`, with the accumulator starting at 0.
An index `≥ l` is an unexpected end of input; a negative index passes the test
`iNdEx >= l` and reading `dAtA[iNdEx]` is then a panic. -/
def readVarint (bits : Nat) (dAtA : List Byte) (iNdEx : Int) : Outcome (Nat × Int) :=
  if iNdEx < 0 then Outcome.goPanic
  else
    match readVarintLoop bits dAtA 11 0 iNdEx.toNat 0 with
    | .ok (x, i) => Outcome.ok (x, (i : Int))
    | .error e => Outcome.error e
    | .goPanic => Outcome.goPanic
    | .outOfFuel => Outcome.outOfFuel

/-- The loop of case 0 of `skipCommon`, which skips a varint without decoding it:
`for shift := uint(0); ; shift += 7 { if shift >= 64 { return 0, ErrIntOverflowCommon };
if iNdEx >= l { return 0, io.ErrUnexpectedEOF }; iNdEx++;
if dAtA[iNdEx-1] < 0x80 { break } }`. -/
def skipVarintLoop (dAtA : List Byte) : Nat → Nat → Nat → Outcome Nat
  | 0, _, _ => Outcome.error WireError.ErrIntOverflowCommon
  | n + 1, shift, iNdEx =>
    if shift ≥ 64 then Outcome.error WireError.ErrIntOverflowCommon
    else
      match dAtA[iNdEx]? with
      | none => Outcome.error WireError.ErrUnexpectedEOF
      | some b =>
        if b.val < 0x80 then Outcome.ok (iNdEx + 1)
        else skipVarintLoop dAtA n (shift + 7) (iNdEx + 1)

mutual

/-- `skipCommon(dAtA)`: the number of bytes of the field at the start of `dAtA`.
The first argument bounds the depth of nested calls and loop turns. -/
def skipCommon : Nat → List Byte → Outcome Int
  | 0, _ => Outcome.outOfFuel
  | fuel + 1, dAtA =>
    if dAtA.length = 0 then Outcome.goPanic
    else
      match readVarint 64 dAtA 0 with
      | .error e => Outcome.error e
      | .goPanic => Outcome.goPanic
      | .outOfFuel => Outcome.outOfFuel
      | .ok (wire, iNdEx) =>
        if wire &&& 0x7 = 0 then
          (if iNdEx < 0 then Outcome.goPanic
           else
            match skipVarintLoop dAtA 11 0 iNdEx.toNat with
            | .ok i => Outcome.ok (i : Int)
            | .error e => Outcome.error e
            | .goPanic => Outcome.goPanic
            | .outOfFuel => Outcome.outOfFuel)
        else if wire &&& 0x7 = 1 then Outcome.ok (wrap64 (iNdEx + 8))
        else if wire &&& 0x7 = 2 then
          match readVarint 64 dAtA iNdEx with
          | .error e => Outcome.error e
          | .goPanic => Outcome.goPanic
          | .outOfFuel => Outcome.outOfFuel
          | .ok (length, iNdEx) =>
            if int64 length < 0 then Outcome.error WireError.ErrInvalidLengthCommon
            else Outcome.ok (wrap64 (iNdEx + int64 length))
        else if wire &&& 0x7 = 3 then skipGroup fuel dAtA iNdEx
        else if wire &&& 0x7 = 4 then Outcome.ok iNdEx
        else if wire &&& 0x7 = 5 then Outcome.ok (wrap64 (iNdEx + 4))
        else Outcome.error (WireError.Errorf "proto: illegal wireType %d")

/-- The loop of case 3 of `skipCommon`, which skips the fields of a group up to its
end-group tag: `for { start := iNdEx; ...read innerWire...; if innerWireType == 4
{ break }; next, err := skipCommon(dAtA[start:]); if err != nil { return 0, err };
iNdEx = start + next }; return iNdEx, nil`. -/
def skipGroup : Nat → List Byte → Int → Outcome Int
  | 0, _, _ => Outcome.outOfFuel
  | fuel + 1, dAtA, start =>
    match readVarint 64 dAtA start with
    | .error e => Outcome.error e
    | .goPanic => Outcome.goPanic
    | .outOfFuel => Outcome.outOfFuel
    | .ok (innerWire, iNdEx) =>
      if innerWire &&& 0x7 = 4 then Outcome.ok iNdEx
      else
        match skipCommon fuel (dAtA.drop start.toNat) with
        | .error e => Outcome.error e
        | .goPanic => Outcome.goPanic
        | .outOfFuel => Outcome.outOfFuel
        | .ok next => skipGroup fuel dAtA (wrap64 (start + next))

end

/-- The `default` case of the field switch of every `Unmarshal`: the unknown field
that starts at `preIndex` is skipped.  It returns the index after the field. -/
def skipUnknown (dAtA : List Byte) (preIndex : Int) : Outcome Int :=
  if preIndex < 0 then Outcome.goPanic
  else
    match skipCommon (2 * dAtA.length + 2) (dAtA.drop preIndex.toNat) with
    | .error e => Outcome.error e
    | .goPanic => Outcome.goPanic
    | .outOfFuel => Outcome.outOfFuel
    | .ok skippy =>
      if skippy < 0 then Outcome.error WireError.ErrInvalidLengthCommon
      else if wrap64 (preIndex + skippy) > (dAtA.length : Int) then
        Outcome.error WireError.ErrUnexpectedEOF
      else Outcome.ok (wrap64 (preIndex + skippy))

/-- The slice `dAtA[i:j]` for `j ≤ len(dAtA)`; slice bounds out of range are a
panic. -/
def slice (dAtA : List Byte) (i j : Int) : Outcome (List Byte) :=
  if i < 0 ∨ j < i ∨ (dAtA.length : Int) < j then Outcome.goPanic
  else Outcome.ok ((dAtA.drop i.toNat).take (j - i).toNat)

/-- The loop `for iNdEx < l { ... }` of `(*Point).Unmarshal` and what follows it.
Every turn consumes at least one byte or returns, and the first argument bounds
the number of turns. -/
def Point.unmarshalLoop (dAtA : List Byte) : Nat → Int → Point → Outcome Point
  | 0, _, _ => Outcome.outOfFuel
  | fuel + 1, iNdEx, m =>
    if iNdEx < (dAtA.length : Int) then
      match readVarint 64 dAtA iNdEx with
      | .error e => Outcome.error e
      | .goPanic => Outcome.goPanic
      | .outOfFuel => Outcome.outOfFuel
      | .ok (wire, iNdEx₁) =>
        if wire &&& 0x7 = 4 then
          Outcome.error (WireError.Errorf "proto: Point: wiretype end group for non-group")
        else if int32 (wire >>> 3) ≤ 0 then
          Outcome.error (WireError.Errorf "proto: Point: illegal tag %d (wire type %d)")
        else if int32 (wire >>> 3) = 1 then
          (if wire &&& 0x7 ≠ 0 then
            Outcome.error (WireError.Errorf "proto: wrong wireType = %d for field ByteOffset")
           else
            match readVarint 32 dAtA iNdEx₁ with
            | .error e => Outcome.error e
            | .goPanic => Outcome.goPanic
            | .outOfFuel => Outcome.outOfFuel
            | .ok (x, iNdEx₂) => Point.unmarshalLoop dAtA fuel iNdEx₂ { m with ByteOffset := int32 x })
        else if int32 (wire >>> 3) = 2 then
          (if wire &&& 0x7 ≠ 0 then
            Outcome.error (WireError.Errorf "proto: wrong wireType = %d for field LineNumber")
           else
            match readVarint 32 dAtA iNdEx₁ with
            | .error e => Outcome.error e
            | .goPanic => Outcome.goPanic
            | .outOfFuel => Outcome.outOfFuel
            | .ok (x, iNdEx₂) => Point.unmarshalLoop dAtA fuel iNdEx₂ { m with LineNumber := int32 x })
        else if int32 (wire >>> 3) = 3 then
          (if wire &&& 0x7 ≠ 0 then
            Outcome.error (WireError.Errorf "proto: wrong wireType = %d for field ColumnOffset")
           else
            match readVarint 32 dAtA iNdEx₁ with
            | .error e => Outcome.error e
            | .goPanic => Outcome.goPanic
            | .outOfFuel => Outcome.outOfFuel
            | .ok (x, iNdEx₂) =>
              Point.unmarshalLoop dAtA fuel iNdEx₂ { m with ColumnOffset := int32 x })
        else
          match skipUnknown dAtA iNdEx with
          | .error e => Outcome.error e
          | .goPanic => Outcome.goPanic
          | .outOfFuel => Outcome.outOfFuel
          | .ok iNdEx₂ => Point.unmarshalLoop dAtA fuel iNdEx₂ m
    else if iNdEx > (dAtA.length : Int) then Outcome.error WireError.ErrUnexpectedEOF
    else Outcome.ok m

/-- `(*Point).Unmarshal(dAtA)` on the receiver `m`: the error it returns, or the
receiver after the call.  Fields absent from `dAtA` keep their value. -/
def Point.Unmarshal (m : Point) (dAtA : List Byte) : Outcome Point :=
  Point.unmarshalLoop dAtA (dAtA.length + 1) 0 m

/-- A fresh `Point{}`. -/
def Point.zero : Point :=
  { ByteOffset := 0, LineNumber := 0, ColumnOffset := 0 }

/-- The body of the cases 1 and 2 of `(*Span).Unmarshal` after the wire type check:
the length prefix is read as an `int`, the embedded message is
`dAtA[iNdEx:postIndex]`, the field is allocated when nil and unmarshalled into.
It returns the field and `postIndex`. -/
def Span.unmarshalPoint (dAtA : List Byte) (iNdEx : Int) (field : Option Point) :
    Outcome (Point × Int) :=
  match readVarint 64 dAtA iNdEx with
  | .error e => Outcome.error e
  | .goPanic => Outcome.goPanic
  | .outOfFuel => Outcome.outOfFuel
  | .ok (msglen, iNdEx₁) =>
    if int64 msglen < 0 then Outcome.error WireError.ErrInvalidLengthCommon
    else if wrap64 (iNdEx₁ + int64 msglen) > (dAtA.length : Int) then
      Outcome.error WireError.ErrUnexpectedEOF
    else
      match slice dAtA iNdEx₁ (wrap64 (iNdEx₁ + int64 msglen)) with
      | .error e => Outcome.error e
      | .goPanic => Outcome.goPanic
      | .outOfFuel => Outcome.outOfFuel
      | .ok sub =>
        match Point.Unmarshal (field.getD Point.zero) sub with
        | .error e => Outcome.error e
        | .goPanic => Outcome.goPanic
        | .outOfFuel => Outcome.outOfFuel
        | .ok p => Outcome.ok (p, wrap64 (iNdEx₁ + int64 msglen))

/-- The loop `for iNdEx < l { ... }` of `(*Span).Unmarshal` and what follows it. -/
def Span.unmarshalLoop (dAtA : List Byte) : Nat → Int → Span → Outcome Span
  | 0, _, _ => Outcome.outOfFuel
  | fuel + 1, iNdEx, m =>
    if iNdEx < (dAtA.length : Int) then
      match readVarint 64 dAtA iNdEx with
      | .error e => Outcome.error e
      | .goPanic => Outcome.goPanic
      | .outOfFuel => Outcome.outOfFuel
      | .ok (wire, iNdEx₁) =>
        if wire &&& 0x7 = 4 then
          Outcome.error (WireError.Errorf "proto: Span: wiretype end group for non-group")
        else if int32 (wire >>> 3) ≤ 0 then
          Outcome.error (WireError.Errorf "proto: Span: illegal tag %d (wire type %d)")
        else if int32 (wire >>> 3) = 1 then
          (if wire &&& 0x7 ≠ 2 then
            Outcome.error (WireError.Errorf "proto: wrong wireType = %d for field Start")
           else
            match Span.unmarshalPoint dAtA iNdEx₁ m.Start with
            | .error e => Outcome.error e
            | .goPanic => Outcome.goPanic
            | .outOfFuel => Outcome.outOfFuel
            | .ok (p, postIndex) => Span.unmarshalLoop dAtA fuel postIndex { m with Start := some p })
        else if int32 (wire >>> 3) = 2 then
          (if wire &&& 0x7 ≠ 2 then
            Outcome.error (WireError.Errorf "proto: wrong wireType = %d for field End")
           else
            match Span.unmarshalPoint dAtA iNdEx₁ m.End with
            | .error e => Outcome.error e
            | .goPanic => Outcome.goPanic
            | .outOfFuel => Outcome.outOfFuel
            | .ok (p, postIndex) => Span.unmarshalLoop dAtA fuel postIndex { m with End := some p })
        else
          match skipUnknown dAtA iNdEx with
          | .error e => Outcome.error e
          | .goPanic => Outcome.goPanic
          | .outOfFuel => Outcome.outOfFuel
          | .ok iNdEx₂ => Span.unmarshalLoop dAtA fuel iNdEx₂ m
    else if iNdEx > (dAtA.length : Int) then Outcome.error WireError.ErrUnexpectedEOF
    else Outcome.ok m

/-- `(*Span).Unmarshal(dAtA)` on the receiver `m`. -/
def Span.Unmarshal (m : Span) (dAtA : List Byte) : Outcome Span :=
  Span.unmarshalLoop dAtA (dAtA.length + 1) 0 m

/-- A fresh `Span{}`. -/
def Span.zero : Span :=
  { Start := none, End := none }

/-- The values of an `int32`. -/
def fitsInt32 (x : Int) : Prop :=
  -2 ^ 31 ≤ x ∧ x < 2 ^ 31

/-- A point whose three fields are `int32` values. -/
def Point.isInt32 (p : Point) : Prop :=
  fitsInt32 p.ByteOffset ∧ fitsInt32 p.LineNumber ∧ fitsInt32 p.ColumnOffset

/-- A span whose points, where set, have `int32` fields. -/
def Span.isInt32 (s : Span) : Prop :=
  (∀ p, s.Start = some p → p.isInt32) ∧ (∀ p, s.End = some p → p.isInt32)

/-! ## Wire format: the encoding of varint fields, as documented -/

/-- The bytes of a little-endian sequence of base-128 digits: every digit but the
last carries the continuation bit `0x80`. -/
def markContinuation : List Nat → List Byte
  | [] => []
  | [d] => [Fin.ofNat d]
  | d :: e :: ds => Fin.ofNat (d + 128) :: markContinuation (e :: ds)

/-- The base-128 varint of a natural number, as the protocol buffer encoding
defines it: the base-128 digits, least significant first, each in one byte, with
the continuation bit on every byte but the last; the number 0 is the single byte
`0x00`. -/
def varintOf (v : Nat) : List Byte :=
  if v = 0 then [0] else markContinuation (Nat.digits 128 v)

/-- An `int32` sign-extended to 64 bits, as a bit pattern: a non-negative value is
itself, a negative value `x` is `2 ^ 64 + x`. -/
def signExtend64 (x : Int) : Nat :=
  if 0 ≤ x then x.toNat else (2 ^ 64 + x).toNat

/-- The tag byte of a field: the field number shifted left by 3, or-ed with the
wire type. -/
def tagOf (fieldNumber wireType : Nat) : Byte :=
  Fin.ofNat (fieldNumber <<< 3 ||| wireType)

/-- The wire entry of a varint field of `Point`, as its `protobuf:"varint,N,opt"`
tag declares it: nothing for the value 0, else the tag byte of field `N` with wire
type 0 followed by the varint of the sign-extended value. -/
def varintField (fieldNumber : Nat) (x : Int) : List Byte :=
  if x = 0 then [] else tagOf fieldNumber 0 :: varintOf (signExtend64 x)

/-! ## Wire format: the messages `Fact` and `NodeInfo` -/

/-- The message `Fact` of `common.pb.go`.  `Name` is a Go `string`, a sequence of
bytes; `Value` is a `[]byte`, with `none` for the nil slice. -/
structure Fact where
  Name : List Byte
  Value : Option (List Byte)
deriving DecidableEq, Repr

/-- The bytes of a `[]byte`; the nil slice has none. -/
def bytesOf (b : Option (List Byte)) : List Byte :=
  b.getD []

/-- A fresh `Fact{}`. -/
def Fact.zero : Fact :=
  { Name := [], Value := none }

/-- `(*Fact).Size`. -/
def Fact.Size (m : Fact) : Nat :=
  (if m.Name.length > 0 then 1 + m.Name.length + sovCommon (uint64 m.Name.length) else 0) +
  (if (bytesOf m.Value).length > 0 then
    1 + (bytesOf m.Value).length + sovCommon (uint64 (bytesOf m.Value).length) else 0)

/-- `(*Fact).MarshalTo`, as the bytes it writes, in order.  Each `copy` writes the
whole of its source when the buffer has room for it, which `marshalInto` requires
of all the bytes written. -/
def Fact.MarshalTo (m : Fact) : List Byte :=
  (if m.Name.length > 0 then
    (0xa : Byte) :: encodeVarintCommon (uint64 m.Name.length) ++ m.Name else []) ++
  (if (bytesOf m.Value).length > 0 then
    (0x12 : Byte) :: encodeVarintCommon (uint64 (bytesOf m.Value).length) ++ bytesOf m.Value
   else [])

/-- `(*Fact).Marshal`. -/
def Fact.Marshal (m : Fact) : Outcome (List Byte) :=
  marshalInto m.Size m.MarshalTo

/-- The length prefix of a length-delimited field, as every case of the generated
decoders reads it: the varint is accumulated in 64 bits and taken as an `int`; a
negative length is `ErrInvalidLengthCommon`; `postIndex := iNdEx + length` beyond
`l` is `io.ErrUnexpectedEOF`.  It returns the index after the prefix and
`postIndex`. -/
def readLength (dAtA : List Byte) (iNdEx : Int) : Outcome (Int × Int) :=
  match readVarint 64 dAtA iNdEx with
  | .error e => Outcome.error e
  | .goPanic => Outcome.goPanic
  | .outOfFuel => Outcome.outOfFuel
  | .ok (length, iNdEx₁) =>
    if int64 length < 0 then Outcome.error WireError.ErrInvalidLengthCommon
    else if wrap64 (iNdEx₁ + int64 length) > (dAtA.length : Int) then
      Outcome.error WireError.ErrUnexpectedEOF
    else Outcome.ok (iNdEx₁, wrap64 (iNdEx₁ + int64 length))

/-- A length-delimited field of bytes: the length prefix, then the bytes
`dAtA[iNdEx:postIndex]`.  It returns the bytes and `postIndex`. -/
def readField (dAtA : List Byte) (iNdEx : Int) : Outcome (List Byte × Int) :=
  match readLength dAtA iNdEx with
  | .error e => Outcome.error e
  | .goPanic => Outcome.goPanic
  | .outOfFuel => Outcome.outOfFuel
  | .ok (iNdEx₁, postIndex) =>
    match slice dAtA iNdEx₁ postIndex with
    | .error e => Outcome.error e
    | .goPanic => Outcome.goPanic
    | .outOfFuel => Outcome.outOfFuel
    | .ok bytes => Outcome.ok (bytes, postIndex)

/-- The loop `for iNdEx < l { ... }` of `(*Fact).Unmarshal` and what follows it.
In case 2, `append(m.Value[:0], ...)` followed by the replacement of a nil result
by `[]byte{}` leaves a non-nil slice with the bytes of the field. -/
def Fact.unmarshalLoop (dAtA : List Byte) : Nat → Int → Fact → Outcome Fact
  | 0, _, _ => Outcome.outOfFuel
  | fuel + 1, iNdEx, m =>
    if iNdEx < (dAtA.length : Int) then
      match readVarint 64 dAtA iNdEx with
      | .error e => Outcome.error e
      | .goPanic => Outcome.goPanic
      | .outOfFuel => Outcome.outOfFuel
      | .ok (wire, iNdEx₁) =>
        if wire &&& 0x7 = 4 then
          Outcome.error (WireError.Errorf "proto: Fact: wiretype end group for non-group")
        else if int32 (wire >>> 3) ≤ 0 then
          Outcome.error (WireError.Errorf "proto: Fact: illegal tag %d (wire type %d)")
        else if int32 (wire >>> 3) = 1 then
          (if wire &&& 0x7 ≠ 2 then
            Outcome.error (WireError.Errorf "proto: wrong wireType = %d for field Name")
           else
            match readField dAtA iNdEx₁ with
            | .error e => Outcome.error e
            | .goPanic => Outcome.goPanic
            | .outOfFuel => Outcome.outOfFuel
            | .ok (bytes, postIndex) =>
              Fact.unmarshalLoop dAtA fuel postIndex { m with Name := bytes })
        else if int32 (wire >>> 3) = 2 then
          (if wire &&& 0x7 ≠ 2 then
            Outcome.error (WireError.Errorf "proto: wrong wireType = %d for field Value")
           else
            match readField dAtA iNdEx₁ with
            | .error e => Outcome.error e
            | .goPanic => Outcome.goPanic
            | .outOfFuel => Outcome.outOfFuel
            | .ok (bytes, postIndex) =>
              Fact.unmarshalLoop dAtA fuel postIndex { m with Value := some bytes })
        else
          match skipUnknown dAtA iNdEx with
          | .error e => Outcome.error e
          | .goPanic => Outcome.goPanic
          | .outOfFuel => Outcome.outOfFuel
          | .ok iNdEx₂ => Fact.unmarshalLoop dAtA fuel iNdEx₂ m
    else if iNdEx > (dAtA.length : Int) then Outcome.error WireError.ErrUnexpectedEOF
    else Outcome.ok m

/-- `(*Fact).Unmarshal(dAtA)` on the receiver `m`. -/
def Fact.Unmarshal (m : Fact) (dAtA : List Byte) : Outcome Fact :=
  Fact.unmarshalLoop dAtA (dAtA.length + 1) 0 m

/-- A Go `map[string][]byte`, as the list of its entries; the keys of the entries
are distinct. -/
abbrev FactsMap := List (List Byte × Option (List Byte))

/-- The read `m[k]` of a map: the value of the entry of `k`, the nil slice when
there is none. -/
def FactsMap.get (m : FactsMap) (k : List Byte) : Option (List Byte) :=
  match m.find? fun e => decide (e.1 = k) with
  | some e => e.2
  | none => none

/-- The assignment `m[k] = v` of a map: the entry of `k` is replaced, or added. -/
def FactsMap.set (m : FactsMap) (k : List Byte) (v : Option (List Byte)) : FactsMap :=
  if m.any fun e => decide (e.1 = k) then m.map fun e => if e.1 = k then (k, v) else e
  else m ++ [(k, v)]

/-- The message `NodeInfo` of `common.pb.go`.  `Facts` is a map, with `none` for the
nil map; `Definition` is a Go `string`. -/
structure NodeInfo where
  Facts : Option FactsMap
  Definition : List Byte
deriving DecidableEq, Repr

/-- A fresh `NodeInfo{}`. -/
def NodeInfo.zero : NodeInfo :=
  { Facts := none, Definition := [] }

/-- The entries of the map of a `NodeInfo`; the nil map has none. -/
def NodeInfo.entries (m : NodeInfo) : FactsMap :=
  m.Facts.getD []

/-- The `mapEntrySize` of `(*NodeInfo).Size` and the `mapSize` of
`(*NodeInfo).MarshalTo` for the entry of key `k` and value `v`. -/
def mapEntrySize (k : List Byte) (v : Option (List Byte)) : Nat :=
  1 + k.length + sovCommon (uint64 k.length) +
    (if (bytesOf v).length > 0 then
      1 + (bytesOf v).length + sovCommon (uint64 (bytesOf v).length) else 0)

/-- `(*NodeInfo).Size`.  The sum over the entries of the map does not depend on the
order in which `range` visits them; it is taken in the order of the list. -/
def NodeInfo.Size (m : NodeInfo) : Nat :=
  (m.entries.map fun e =>
      mapEntrySize e.1 e.2 + 1 + sovCommon (uint64 (mapEntrySize e.1 e.2))).sum +
  (if m.Definition.length > 0 then
    1 + m.Definition.length + sovCommon (uint64 m.Definition.length) else 0)

/-- The bytes `(*NodeInfo).MarshalTo` writes in one turn of `for k, _ := range
m.Facts`, with `v := m.Facts[k]`. -/
def marshalEntry (k : List Byte) (v : Option (List Byte)) : List Byte :=
  (0x12 : Byte) :: encodeVarintCommon (uint64 (mapEntrySize k v)) ++
    ((0xa : Byte) :: encodeVarintCommon (uint64 k.length) ++ k) ++
    (if (bytesOf v).length > 0 then
      (0x12 : Byte) :: encodeVarintCommon (uint64 (bytesOf v).length) ++ bytesOf v
     else [])

/-- `(*NodeInfo).MarshalTo`, as the bytes it writes, in order.  `order` lists the
keys of the map in the order in which `range m.Facts` visits them. -/
def NodeInfo.MarshalTo (m : NodeInfo) (order : List (List Byte)) : List Byte :=
  (order.flatMap fun k => marshalEntry k (m.entries.get k)) ++
  (if m.Definition.length > 0 then
    (0x2a : Byte) :: encodeVarintCommon (uint64 m.Definition.length) ++ m.Definition else [])

/-- `(*NodeInfo).Marshal`, for the iteration order `order` of the map. -/
def NodeInfo.Marshal (m : NodeInfo) (order : List (List Byte)) : Outcome (List Byte) :=
  marshalInto m.Size (m.MarshalTo order)

/-- The body of case 2 of `(*NodeInfo).Unmarshal` after the wire type check: the
length of the entry gives `postIndex`; the tag of the key is read and not
examined; the key is a length-delimited string; when `iNdEx < postIndex` the tag
of the value is read and not examined and the value is a length-delimited byte
slice, else the value is the nil slice.  It returns the key, the value and
`postIndex`. -/
def NodeInfo.unmarshalEntry (dAtA : List Byte) (iNdEx : Int) :
    Outcome ((List Byte × Option (List Byte)) × Int) :=
  match readLength dAtA iNdEx with
  | .error e => Outcome.error e
  | .goPanic => Outcome.goPanic
  | .outOfFuel => Outcome.outOfFuel
  | .ok (iNdEx₁, postIndex) =>
    match readVarint 64 dAtA iNdEx₁ with
    | .error e => Outcome.error e
    | .goPanic => Outcome.goPanic
    | .outOfFuel => Outcome.outOfFuel
    | .ok (_, iNdEx₂) =>
      match readField dAtA iNdEx₂ with
      | .error e => Outcome.error e
      | .goPanic => Outcome.goPanic
      | .outOfFuel => Outcome.outOfFuel
      | .ok (mapkey, iNdEx₃) =>
        if iNdEx₃ < postIndex then
          match readVarint 64 dAtA iNdEx₃ with
          | .error e => Outcome.error e
          | .goPanic => Outcome.goPanic
          | .outOfFuel => Outcome.outOfFuel
          | .ok (_, iNdEx₄) =>
            match readField dAtA iNdEx₄ with
            | .error e => Outcome.error e
            | .goPanic => Outcome.goPanic
            | .outOfFuel => Outcome.outOfFuel
            | .ok (mapvalue, _) => Outcome.ok ((mapkey, some mapvalue), postIndex)
        else Outcome.ok ((mapkey, none), postIndex)

/-- The loop `for iNdEx < l { ... }` of `(*NodeInfo).Unmarshal` and what follows
it. -/
def NodeInfo.unmarshalLoop (dAtA : List Byte) : Nat → Int → NodeInfo → Outcome NodeInfo
  | 0, _, _ => Outcome.outOfFuel
  | fuel + 1, iNdEx, m =>
    if iNdEx < (dAtA.length : Int) then
      match readVarint 64 dAtA iNdEx with
      | .error e => Outcome.error e
      | .goPanic => Outcome.goPanic
      | .outOfFuel => Outcome.outOfFuel
      | .ok (wire, iNdEx₁) =>
        if wire &&& 0x7 = 4 then
          Outcome.error (WireError.Errorf "proto: NodeInfo: wiretype end group for non-group")
        else if int32 (wire >>> 3) ≤ 0 then
          Outcome.error (WireError.Errorf "proto: NodeInfo: illegal tag %d (wire type %d)")
        else if int32 (wire >>> 3) = 2 then
          (if wire &&& 0x7 ≠ 2 then
            Outcome.error (WireError.Errorf "proto: wrong wireType = %d for field Facts")
           else
            match NodeInfo.unmarshalEntry dAtA iNdEx₁ with
            | .error e => Outcome.error e
            | .goPanic => Outcome.goPanic
            | .outOfFuel => Outcome.outOfFuel
            | .ok (entry, postIndex) =>
              NodeInfo.unmarshalLoop dAtA fuel postIndex
                { m with Facts := some (m.entries.set entry.1 entry.2) })
        else if int32 (wire >>> 3) = 5 then
          (if wire &&& 0x7 ≠ 2 then
            Outcome.error (WireError.Errorf "proto: wrong wireType = %d for field Definition")
           else
            match readField dAtA iNdEx₁ with
            | .error e => Outcome.error e
            | .goPanic => Outcome.goPanic
            | .outOfFuel => Outcome.outOfFuel
            | .ok (bytes, postIndex) =>
              NodeInfo.unmarshalLoop dAtA fuel postIndex { m with Definition := bytes })
        else
          match skipUnknown dAtA iNdEx with
          | .error e => Outcome.error e
          | .goPanic => Outcome.goPanic
          | .outOfFuel => Outcome.outOfFuel
          | .ok iNdEx₂ => NodeInfo.unmarshalLoop dAtA fuel iNdEx₂ m
    else if iNdEx > (dAtA.length : Int) then Outcome.error WireError.ErrUnexpectedEOF
    else Outcome.ok m

/-- `(*NodeInfo).Unmarshal(dAtA)` on the receiver `m`. -/
def NodeInfo.Unmarshal (m : NodeInfo) (dAtA : List Byte) : Outcome NodeInfo :=
  NodeInfo.unmarshalLoop dAtA (dAtA.length + 1) 0 m

/-- The value of a map entry as the decoder stores it: the nil slice when no
bytes were written for it. -/
def storedValue (v : Option (List Byte)) : Option (List Byte) :=
  if (bytesOf v).length > 0 then some (bytesOf v) else none

/-- The map after the decoder has stored the entries `es`, one after the other,
starting from the map `facts`. -/
def storeEntries (facts : Option FactsMap) (es : List (List Byte × Option (List Byte))) :
    Option FactsMap :=
  es.foldl (fun acc e => some (FactsMap.set (acc.getD []) e.1 e.2)) facts

/-- The integer that the bytes of a varint denote: the low seven bits of each byte,
least significant group first. -/
def varintDenotes : List Byte → Nat
  | [] => 0
  | b :: bs => (b.val &&& 0x7F) + 128 * varintDenotes bs

/-! ## The pom.xml modifier

`pom_xml_modifier.go` works on a document of the library `github.com/beevik/etree`,
which the source imports and which is not part of the repository.  The
definitions of this section down to `FindElements` model the part of the library
that the source calls; `hasCompilerPlugin`, `insertCompilerPlugin` and
`preProcessDocument` are translated from the source. -/

/-- A token of an `etree` document: an element with its namespace prefix, its tag
and its child tokens; character data; or another token (comment, directive,
processing instruction).  Attributes play no role in the calls of the source and
are left out. -/
inductive Token where
  | element (space tag : String) (child : List Token)
  | charData (data : String)
  | other (text : String)
deriving Repr

/-- An `etree.Document`: the child tokens of its root, the element of empty tag
that `etree.NewDocument` creates. -/
structure Document where
  Child : List Token
deriving Repr

/-- The root element of a document. -/
def Document.root (doc : Document) : Token :=
  Token.element "" "" doc.Child

/-- The child tokens of an element; other tokens have none. -/
def Token.child : Token → List Token
  | .element _ _ c => c
  | _ => []

/-- Whether a token is an element of the tag `tag`.  A tag given without a
namespace prefix matches an element of any prefix. -/
def Token.isElementNamed (tag : String) : Token → Bool
  | .element _ t _ => decide (t = tag)
  | _ => false

/-- Whether a token is an element. -/
def Token.isElement : Token → Bool
  | .element _ _ _ => true
  | _ => false

/-- `(*Element).SelectElement(tag)` on the child tokens of the element: the first
child element of the tag, `none` for `nil`. -/
def SelectElement (tag : String) (child : List Token) : Option Token :=
  child.find? (Token.isElementNamed tag)

/-- `(*Element).Text()` on the child tokens of the element: the data of the first
child when it is character data, the empty string otherwise. -/
def Text (child : List Token) : String :=
  match child with
  | .charData data :: _ => data
  | _ => ""

/-- `(*Element).SetText(text)` on the child tokens of the element: the data of the
first child is replaced when it is character data, else character data is
inserted before the children. -/
def SetText (text : String) (child : List Token) : List Token :=
  match child with
  | .charData _ :: rest => Token.charData text :: rest
  | _ => Token.charData text :: child

/-- `(*Element).CreateElement(tag)` on the child tokens of the element, followed by
the calls `calls` on the element created: the new element, of empty prefix, is
added after the children; it starts without children. -/
def CreateElement (tag : String) (calls : List Token → List Token) (child : List Token) :
    List Token :=
  child ++ [Token.element "" tag (calls [])]

/-- The calls `calls` made on the element that `SelectElement(tag)` returned: the
first child element of the tag has its children changed, in place. -/
def onSelected (tag : String) (calls : List Token → List Token) : List Token → List Token
  | [] => []
  | .element space t c :: rest =>
    if t = tag then Token.element space t (calls c) :: rest
    else Token.element space t c :: onSelected tag calls rest
  | token :: rest => token :: onSelected tag calls rest

mutual
/-- The height of a token: the number of nested elements. -/
def Token.height : Token → Nat
  | .element _ _ c => 1 + heightOfTokens c
  | _ => 0
/-- The largest height among tokens. -/
def heightOfTokens : List Token → Nat
  | [] => 0
  | token :: rest => max token.height (heightOfTokens rest)
end

/-- The child elements of a token. -/
def Token.childElements (token : Token) : List Token :=
  token.child.filter Token.isElement

/-- The elements of a queue that starts with `level`, in the order in which they
leave it, when every element that leaves it adds its child elements at the end:
level after level, for at most the given number of levels. -/
def levelOrder : Nat → List Token → List Token
  | 0, _ => []
  | n + 1, level => level ++ levelOrder n (level.flatMap Token.childElements)

/-- A segment of a compiled path: the root of the document (a leading `/`), an
element and all its descendants (an empty segment, `//`), or the child elements
of a tag. -/
inductive Segment where
  | selectRoot
  | selectDescendants
  | selectChildrenByTag (tag : String)
deriving DecidableEq, Repr

/-- The pieces of a path between its `/` characters. -/
def splitPath : List Char → List (List Char)
  | [] => [[]]
  | c :: rest =>
    if c = '/' then [] :: splitPath rest
    else
      match splitPath rest with
      | [] => [[c]]
      | piece :: pieces => (c :: piece) :: pieces

/-- The compilation of a path made of tags and `/`: a leading `/` selects the
root; of the pieces of what follows, an empty one selects the descendants and
another one the children of that tag.  The selectors `.`, `..`, `*` and the
filters in brackets are not modelled. -/
def compilePath (path : String) : List Segment :=
  match path.toList with
  | '/' :: rest =>
    Segment.selectRoot ::
      (splitPath rest).map fun piece =>
        if piece = [] then Segment.selectDescendants
        else Segment.selectChildrenByTag (String.mk piece)
  | chars =>
    (splitPath chars).map fun piece =>
      if piece = [] then Segment.selectDescendants
      else Segment.selectChildrenByTag (String.mk piece)

/-- The candidates that a segment selects from the element `e` of the document of
root `root`.  The descendants are visited breadth first; the height of `e` bounds
the number of levels. -/
def Segment.apply (root : Token) (e : Token) : Segment → List Token
  | .selectRoot => [root]
  | .selectDescendants => levelOrder (e.height + 1) [e]
  | .selectChildrenByTag tag => e.child.filter (Token.isElementNamed tag)

/-- `(*Document).FindElements(path)`: the elements that the segments of the path
select, one segment after the other, starting from the root of the document.
The library lists an element once; every element is reached along one route
here, its chain of parents. -/
def FindElements (doc : Document) (path : String) : List Token :=
  (compilePath path).foldl (fun candidates segment =>
    candidates.flatMap fun e => segment.apply doc.root e) [doc.root]

/-- `hasCompilerPlugin` of `pom_xml_modifier.go`. -/
def hasCompilerPlugin (doc : Document) : Bool :=
  (FindElements doc "//project/build/plugins/plugin/artifactId").any fun p =>
    decide (Text p.child = "maven-compiler-plugin")

/-- The calls of `insertCompilerPlugin` on the element `plugins`: the new `plugin`
element with its `groupId`, `artifactId`, `version` and `configuration`. -/
def insertPlugin (plugins : List Token) : List Token :=
  CreateElement "plugin" (fun newPlugin =>
    CreateElement "configuration" (fun configuration =>
        CreateElement "target" (SetText "1.8")
          (CreateElement "source" (SetText "1.8") configuration))
      (CreateElement "version" (SetText "3.7.0")
        (CreateElement "artifactId" (SetText "maven-compiler-plugin")
          (CreateElement "groupId" (SetText "org.apache.maven.plugins") newPlugin)))) plugins

/-- The step `x := e.SelectElement(tag); if x == nil { x = e.CreateElement(tag) }` of
`insertCompilerPlugin`, followed by the calls `calls` on `x`. -/
def selectOrCreate (tag : String) (calls : List Token → List Token) (child : List Token) :
    List Token :=
  match SelectElement tag child with
  | some _ => onSelected tag calls child
  | none => CreateElement tag calls child

/-- `insertCompilerPlugin` of `pom_xml_modifier.go`: the document after the call and
the error, `none` for `nil`. -/
def insertCompilerPlugin (doc : Document) : Document × Option String :=
  match SelectElement "project" doc.Child with
  | none => (doc, some "no top level <project> element")
  | some _ =>
    ({ Child := onSelected "project"
        (selectOrCreate "build" (selectOrCreate "plugins" insertPlugin)) doc.Child }, none)

/-- The part of `preProcessPomXML` between the reading of the file into `doc` and
the writing of the file: the document in memory after it and the error, `none`
when the function goes on (to `return nil`, or to write the file). -/
def preProcessDocument (doc : Document) : Document × Option String :=
  if hasCompilerPlugin doc then (doc, none)
  else insertCompilerPlugin doc

/-- Two FILE nodes of the same ticket with different texts: input that §9 of the
spec calls malformed. -/
def duplicateFileNodes : List GraphNode :=
  [ { identity := vnamePath "path", kind := NodeKind.FILE
      facts := [(factText, ascii "a\n")], edges := [] },
    { identity := vnamePath "path", kind := NodeKind.FILE
      facts := [(factText, ascii "b\n")], edges := [] } ]

/-- A file with two anchors of the same byte range `[0,4)`, each with a `ref` edge,
to different targets: the two reference entries tie in the order of §4.2. -/
def tiedReferenceNodes : List GraphNode :=
  [ { identity := vnamePath "path", kind := NodeKind.FILE
      facts := [(factText, ascii "some text\n")], edges := [] },
    anchorNode (vnameSig "path" "anchor1") "0" "4" edgeRef (vnameSig "" "target1"),
    anchorNode (vnameSig "path" "anchor2") "0" "4" edgeRef (vnameSig "" "target2") ]

/-- A file with two anchors that start at the same offset, `[0,4)` and `[0,9)`, each
with a `ref` edge to the same target: the two anchors of the `reference` bucket of
the target tie in the order of §4.3. -/
def tiedAnchorNodes : List GraphNode :=
  [ { identity := vnamePath "path", kind := NodeKind.FILE
      facts := [(factText, ascii "some text\n")], edges := [] },
    anchorNode (vnameSig "path" "anchor1") "0" "4" edgeRef (vnameSig "" "target"),
    anchorNode (vnameSig "path" "anchor2") "0" "9" edgeRef (vnameSig "" "target") ]

/-! ## Span normalizer: lemmas -/

theorem splitLines_ne_nil (text : List Byte) : splitLines text ≠ [] := by
  cases text with
  | nil => simp [splitLines]
  | cons b rest =>
    simp only [splitLines]
    split
    · simp
    · split <;> simp

theorem scanNewlines_eq_startsFrom (text : List Byte) :
    ∀ i a : Nat, a ≤ i →
      a :: scanNewlines text i = startsFrom a (bumpFirst (i - a) ((splitLines text).map List.length)) := by
  induction text with
  | nil =>
    intro i a _
    simp [scanNewlines, splitLines, bumpFirst, startsFrom]
  | cons b rest ih =>
    intro i a hai
    by_cases hb : b = newline
    · have h1 := ih (i + 1) (i + 1) (le_refl _)
      obtain ⟨l, ls, hls⟩ := List.exists_cons_of_ne_nil (splitLines_ne_nil rest)
      simp only [scanNewlines, hb, if_true, splitLines, List.map_cons, List.length_nil,
        bumpFirst, startsFrom, Nat.zero_add]
      rw [h1, hls]
      simp only [Nat.sub_self, List.map_cons, bumpFirst, Nat.add_zero]
      have : a + (i - a) + 1 = i + 1 := by omega
      rw [this]
    · have h1 := ih (i + 1) a (by omega)
      obtain ⟨l, ls, hls⟩ := List.exists_cons_of_ne_nil (splitLines_ne_nil rest)
      simp only [scanNewlines, hb, if_false, splitLines, hls, List.map_cons,
        List.length_cons, bumpFirst]
      rw [h1, hls]
      simp only [List.map_cons, bumpFirst]
      have : l.length + (i + 1 - a) = l.length + 1 + (i - a) := by omega
      rw [this]

theorem lineStarts_eq_startsFrom (text : List Byte) :
    lineStarts text = startsFrom 0 ((splitLines text).map List.length) := by
  have h := scanNewlines_eq_startsFrom text 0 0 (le_refl _)
  obtain ⟨l, ls, hls⟩ := List.exists_cons_of_ne_nil (splitLines_ne_nil text)
  rw [lineStarts, h, hls]
  simp [bumpFirst]

theorem startsFrom_length (lens : List Nat) : ∀ a, (startsFrom a lens).length = lens.length := by
  induction lens with
  | nil => intro a; rfl
  | cons x xs ih => intro a; simp [startsFrom, ih]

theorem startsFrom_ge (lens : List Nat) : ∀ a x, x ∈ startsFrom a lens → a ≤ x := by
  induction lens with
  | nil => intro a x hx; simp [startsFrom] at hx
  | cons l ls ih =>
    intro a x hx
    simp only [startsFrom, List.mem_cons] at hx
    rcases hx with rfl | hx
    · exact le_refl _
    · have := ih _ _ hx
      omega

theorem startsFrom_pairwise (lens : List Nat) : ∀ a, (startsFrom a lens).Pairwise (· < ·) := by
  induction lens with
  | nil => intro a; simp [startsFrom]
  | cons l ls ih =>
    intro a
    simp only [startsFrom, List.pairwise_cons]
    refine ⟨fun x hx => ?_, ih _⟩
    have := startsFrom_ge ls _ x hx
    omega

theorem lineStarts_pairwise (text : List Byte) : (lineStarts text).Pairwise (· < ·) := by
  rw [lineStarts_eq_startsFrom]
  exact startsFrom_pairwise _ _

/-- In a strictly increasing table, entries at ordered indices are ordered. -/
theorem pairwise_lt_getElem_mono {tbl : List Nat} (h : tbl.Pairwise (· < ·)) {k k' : Nat} {s t : Nat}
    (hk : tbl[k]? = some s) (hk' : tbl[k']? = some t) (hkk : k ≤ k') : s ≤ t := by
  rcases Nat.eq_or_lt_of_le hkk with rfl | hlt
  · rw [hk] at hk'
    exact le_of_eq (Option.some.inj hk')
  · obtain ⟨h1, rfl⟩ := List.getElem?_eq_some.mp hk
    obtain ⟨h2, rfl⟩ := List.getElem?_eq_some.mp hk'
    exact le_of_lt (List.pairwise_iff_getElem.mp h k k' h1 h2 hlt)

/-- The binary search returns the boundary of a monotone predicate. -/
theorem searchLoop_spec (f : Nat → Option Bool) (g : Nat → Bool) (n : Nat)
    (hf : ∀ k, k < n → f k = some (g k))
    (mono : ∀ k k', k ≤ k' → k' < n → g k = true → g k' = true) :
    ∀ fuel i j, i ≤ j → j ≤ n → j - i ≤ fuel →
      (∀ k, k < i → g k = false) → (∀ k, j ≤ k → k < n → g k = true) →
      ∃ r, searchLoop f fuel i j = some r ∧ i ≤ r ∧ r ≤ j ∧
        (∀ k, k < r → g k = false) ∧ (∀ k, r ≤ k → k < n → g k = true) := by
  intro fuel
  induction fuel with
  | zero =>
    intro i j hij hjn hfuel hlo hhi
    have : i = j := by omega
    subst this
    exact ⟨i, rfl, le_refl _, le_refl _, hlo, hhi⟩
  | succ fuel ih =>
    intro i j hij hjn hfuel hlo hhi
    by_cases hlt : i < j
    · have hmid : (i + j) / 2 < n := by omega
      have hmi : i ≤ (i + j) / 2 := by omega
      have hmj : (i + j) / 2 < j := by omega
      simp only [searchLoop, hlt, if_true, hf _ hmid]
      cases hg : g ((i + j) / 2) with
      | true =>
        obtain ⟨r, hr, h1, h2, h3, h4⟩ := ih i ((i + j) / 2) hmi (by omega) (by omega) hlo
          (fun k hk hkn => mono _ _ hk hkn hg)
        exact ⟨r, hr, h1, by omega, h3, h4⟩
      | false =>
        obtain ⟨r, hr, h1, h2, h3, h4⟩ := ih ((i + j) / 2 + 1) j (by omega) hjn (by omega)
          (fun k hk => by
            cases hgk : g k with
            | false => rfl
            | true =>
              have := mono k ((i + j) / 2) (by omega) hmid hgk
              rw [hg] at this
              exact absurd this (by simp))
          hhi
        exact ⟨r, hr, by omega, h2, h3, h4⟩
    · have : i = j := by omega
      subst this
      refine ⟨i, ?_, le_refl _, le_refl _, hlo, hhi⟩
      simp [searchLoop]

/-- The normalizer on a strictly increasing table that starts at 0: the point it
returns, in terms of the last table entry that does not exceed the clamped offset. -/
theorem normalize_spec (n : Normalizer) (hp : n.lineStart.Pairwise (· < ·))
    (h0 : n.lineStart[0]? = some 0) (byteOffset : Nat) :
    ∃ i s : Nat, n.lineStart[i]? = some s ∧ s ≤ min byteOffset n.textLen ∧
      (∀ j t, n.lineStart[j]? = some t → t ≤ min byteOffset n.textLen → j ≤ i) ∧
      n.normalize byteOffset =
        some ({ ByteOffset := (min byteOffset n.textLen : Nat), LineNumber := (i : Int) + 1,
                ColumnOffset := ((min byteOffset n.textLen : Nat) : Int) - (s : Int) },
              decide (n.textLen < byteOffset)) := by
  have hb : (if n.textLen < byteOffset then n.textLen else byteOffset) = min byteOffset n.textLen := by
    split <;> omega
  generalize hbdef : min byteOffset n.textLen = b at hb
  let g : Nat → Bool := fun k => decide (b < (n.lineStart[k]?).getD 0)
  have hf : ∀ k, k < n.lineStart.length →
      (fun i => (n.lineStart[i]?).map fun s => decide (b < s)) k = some (g k) := by
    intro k hk
    simp [g, List.getElem?_eq_getElem hk]
  have mono : ∀ k k', k ≤ k' → k' < n.lineStart.length → g k = true → g k' = true := by
    intro k k' hkk hk' hg
    have hk : k < n.lineStart.length := by omega
    have h1 := pairwise_lt_getElem_mono hp (List.getElem?_eq_getElem hk)
      (List.getElem?_eq_getElem hk') hkk
    simp only [g, List.getElem?_eq_getElem hk, List.getElem?_eq_getElem hk', Option.getD_some,
      decide_eq_true_eq] at hg ⊢
    omega
  obtain ⟨r, hr, -, hrn, hlo, hhi⟩ := searchLoop_spec _ g n.lineStart.length hf mono
    n.lineStart.length 0 n.lineStart.length (Nat.zero_le _) (le_refl _) (by omega)
    (fun k hk => absurd hk (Nat.not_lt_zero _)) (fun k hk hkn => absurd hkn (by omega))
  have hlen : 0 < n.lineStart.length := by
    obtain ⟨h, -⟩ := List.getElem?_eq_some.mp h0
    exact h
  have hg0 : g 0 = false := by simp [g, h0]
  cases r with
  | zero =>
    have := hhi 0 (le_refl _) hlen
    rw [hg0] at this
    exact absurd this (by simp)
  | succ i =>
    have hi : i < n.lineStart.length := by omega
    refine ⟨i, n.lineStart[i], List.getElem?_eq_getElem hi, ?_, ?_, ?_⟩
    · have := hlo i (by omega)
      simpa [g, List.getElem?_eq_getElem hi] using this
    · intro j t hj ht
      by_contra hcon
      obtain ⟨hjn, rfl⟩ := List.getElem?_eq_some.mp hj
      have := hhi j (by omega) hjn
      simp only [g, List.getElem?_eq_getElem hjn, Option.getD_some, decide_eq_true_eq] at this
      omega
    · simp only [Normalizer.normalize, hb, search]
      rw [hr]
      simp [List.getElem?_eq_getElem hi]

theorem lineStarts_zero (text : List Byte) : (lineStarts text)[0]? = some 0 := by
  simp [lineStarts]

theorem startsFrom_getElem? (lens : List Nat) :
    ∀ a i, (startsFrom a lens)[i]? =
      if i < lens.length then some (a + ((lens.map (· + 1)).take i).sum) else none := by
  induction lens with
  | nil => intro a i; simp [startsFrom]
  | cons l ls ih =>
    intro a i
    cases i with
    | zero => simp [startsFrom]
    | succ i =>
      simp only [startsFrom, List.getElem?_cons_succ, ih, List.length_cons, List.map_cons,
        List.take_succ_cons, List.sum_cons, Nat.add_lt_add_iff_right]
      split
      · congr 1
        omega
      · rfl

/-- The first line of a text, and what follows it. -/
theorem splitLines_cons {text : List Byte} {l : List Byte} {ls : List (List Byte)}
    (h : splitLines text = l :: ls) :
    l = text.takeWhile (fun c => decide (c ≠ newline)) ∧
      ((ls = [] ∧ text = l) ∨ ∃ rest, text = l ++ newline :: rest ∧ ls = splitLines rest) := by
  induction text generalizing l ls with
  | nil =>
    simp only [splitLines, List.cons.injEq] at h
    obtain ⟨rfl, rfl⟩ := h
    simp
  | cons b rest ih =>
    by_cases hb : b = newline
    · simp only [splitLines, hb, if_true, List.cons.injEq] at h
      obtain ⟨rfl, rfl⟩ := h
      subst hb
      refine ⟨by simp, Or.inr ⟨rest, by simp, rfl⟩⟩
    · obtain ⟨l', ls', hls⟩ := List.exists_cons_of_ne_nil (splitLines_ne_nil rest)
      simp only [splitLines, hb, if_false, hls, List.cons.injEq] at h
      obtain ⟨rfl, rfl⟩ := h
      obtain ⟨h1, h2⟩ := ih hls
      have htw : List.takeWhile (fun c => decide (c ≠ newline)) (b :: rest) =
          b :: List.takeWhile (fun c => decide (c ≠ newline)) rest := by
        rw [List.takeWhile_cons]
        simp [hb]
      refine ⟨by rw [htw, ← h1], ?_⟩
      rcases h2 with ⟨h3, h4⟩ | ⟨r, h3, h4⟩
      · exact Or.inl ⟨h3, by rw [← h4]⟩
      · exact Or.inr ⟨r, by rw [h3]; simp, h4⟩

theorem splitLines_sum (text : List Byte) :
    (((splitLines text).map List.length).map (· + 1)).sum = text.length + 1 := by
  induction text with
  | nil => simp [splitLines]
  | cons b rest ih =>
    obtain ⟨l', ls', hls⟩ := List.exists_cons_of_ne_nil (splitLines_ne_nil rest)
    by_cases hb : b = newline
    · simp only [splitLines, hb, if_true, List.map_cons, List.sum_cons, ih, List.length_cons,
        List.length_nil]
      omega
    · rw [hls] at ih
      simp only [splitLines, hb, if_false, hls, List.map_cons, List.sum_cons,
        List.length_cons] at ih ⊢
      omega

theorem splitLines_no_newline (text : List Byte) :
    ∀ line ∈ splitLines text, newline ∉ line := by
  induction text with
  | nil => simp [splitLines]
  | cons b rest ih =>
    obtain ⟨l', ls', hls⟩ := List.exists_cons_of_ne_nil (splitLines_ne_nil rest)
    by_cases hb : b = newline
    · intro line hline
      simp only [splitLines, hb, if_true, List.mem_cons] at hline
      rcases hline with rfl | h
      · simp
      · exact ih line h
    · intro line hline
      rw [hls] at ih
      simp only [splitLines, hb, if_false, hls, List.mem_cons] at hline
      rcases hline with rfl | h
      · have := ih l' (List.mem_cons_self _ _)
        simp only [List.mem_cons, not_or]
        exact ⟨fun h => hb h.symm, this⟩
      · exact ih line (List.mem_cons_of_mem _ h)

/-! ## Agreement of the model with the integration test

The replies the model computes for the requests of `beam_integration_test.go` are
the replies the test expects, but for the raw `/kythe/code` fact of the
`requested_node` case, which the specification excludes. -/

theorem test_source_text :
    Decorations (servingStore decorTestNodes)
      { ticket := vnamePath "path", sourceText := true, references := false, filter := [],
        targetDefinitions := false } =
    Except.ok
      { location := vnamePath "path", sourceText := some (ascii "some text\n")
        encoding := some (ascii "ascii"), reference := [], nodes := []
        definitionLocations := [] } := by
  decide

theorem test_references :
    Decorations (servingStore decorTestNodes)
      { ticket := vnamePath "path", sourceText := false, references := true, filter := [],
        targetDefinitions := false } =
    Except.ok
      { location := vnamePath "path", sourceText := none, encoding := none
        reference :=
          [ { span := { Start := some ⟨0, 1, 0⟩, End := some ⟨4, 1, 4⟩ }
              kind := "/kythe/edge/ref", targetTicket := vnameSig "" "simpleDecor"
              targetDefinition := none },
            { span := { Start := some ⟨5, 1, 5⟩, End := some ⟨9, 1, 9⟩ }
              kind := "/kythe/edge/ref", targetTicket := vnameSig "" "decorWithDef"
              targetDefinition := none } ]
        nodes := [], definitionLocations := [] } := by
  decide

theorem test_referenced_nodes :
    Decorations (servingStore decorTestNodes)
      { ticket := vnamePath "path", sourceText := false, references := true, filter := ["**"],
        targetDefinitions := false } =
    Except.ok
      { location := vnamePath "path", sourceText := none, encoding := none
        reference :=
          [ { span := { Start := some ⟨0, 1, 0⟩, End := some ⟨4, 1, 4⟩ }
              kind := "/kythe/edge/ref", targetTicket := vnameSig "" "simpleDecor"
              targetDefinition := none },
            { span := { Start := some ⟨5, 1, 5⟩, End := some ⟨9, 1, 9⟩ }
              kind := "/kythe/edge/ref", targetTicket := vnameSig "" "decorWithDef"
              targetDefinition := none } ]
        nodes := [(vnameSig "" "simpleDecor", [("/kythe/node/kind", ascii "record")])]
        definitionLocations := [] } := by
  decide

theorem test_target_definitions :
    Decorations (servingStore decorTestNodes)
      { ticket := vnamePath "path", sourceText := false, references := true, filter := [],
        targetDefinitions := true } =
    Except.ok
      { location := vnamePath "path", sourceText := none, encoding := none
        reference :=
          [ { span := { Start := some ⟨0, 1, 0⟩, End := some ⟨4, 1, 4⟩ }
              kind := "/kythe/edge/ref", targetTicket := vnameSig "" "simpleDecor"
              targetDefinition := none },
            { span := { Start := some ⟨5, 1, 5⟩, End := some ⟨9, 1, 9⟩ }
              kind := "/kythe/edge/ref", targetTicket := vnameSig "" "decorWithDef"
              targetDefinition := some (vnameSig "" "def1") } ]
        nodes := []
        definitionLocations :=
          [ (vnameSig "" "def1",
              { ticket := some (vnameSig "" "def1"), parent := vnamePath ""
                span := { Start := some ⟨0, 1, 0⟩, End := some ⟨3, 1, 3⟩ }
                snippet := some (ascii "def")
                snippetSpan := some { Start := some ⟨0, 1, 0⟩, End := some ⟨3, 1, 3⟩ } }) ] } := by
  decide

/-- The `requested_node` case of `TestServingSimpleCrossReferences` on the model.
The reply has the `MarkedSource` and the fact `/kythe/node/kind` that the test
expects.  The test expects the raw `/kythe/code` fact among the node facts as
well, under the note `TODO(schroederc): ellide; MarkedSource already included`;
§4.3 of the spec excludes it from the facts of the record, and so does the
model. -/
theorem test_requested_node :
    CrossReferences (servingStore xrefTestNodes)
      { ticket := [vnameSig "path" "signature"], filter := ["**"],
        referenceKind := ReferenceKind.NONE, relatedNodeKind := ["NONE"] } =
    Except.ok
      { crossReferences :=
          [ (vnameSig "path" "signature",
              { ticket := vnameSig "path" "signature"
                markedSource := some (decodeMarkedSource testMarkedSource), reference := [] }) ]
        nodes := [ (vnameSig "path" "signature", [("/kythe/node/kind", ascii "record")]) ] } := by
  decide

theorem test_refs :
    CrossReferences (servingStore xrefTestNodes)
      { ticket := [vnameSig "path" "signature"], filter := [],
        referenceKind := ReferenceKind.ALL_REFERENCES, relatedNodeKind := [] } =
    Except.ok
      { crossReferences :=
          [ (vnameSig "path" "signature",
              { ticket := vnameSig "path" "signature"
                markedSource := some (decodeMarkedSource testMarkedSource)
                reference :=
                  [ { ticket := none, parent := vnamePath "path"
                      span := { Start := some ⟨5, 1, 5⟩, End := some ⟨9, 1, 9⟩ }
                      snippet := some (ascii "blah blah")
                      snippetSpan := some { Start := some ⟨0, 1, 0⟩, End := some ⟨9, 1, 9⟩ } } ] }) ]
        nodes := [] } := by
  decide

/-- The text of line `i` is what lies between its start and the next newline byte. -/
theorem line_eq_takeWhile :
    ∀ (i : Nat) (text line : List Byte) (s : Nat),
      (splitLines text)[i]? = some line → (lineStarts text)[i]? = some s →
      (text.drop s).takeWhile (fun c => decide (c ≠ newline)) = line := by
  intro i
  induction i with
  | zero =>
    intro text line s hl hs
    rw [lineStarts_zero] at hs
    obtain ⟨l, ls, hls⟩ := List.exists_cons_of_ne_nil (splitLines_ne_nil text)
    rw [hls] at hl
    simp only [List.getElem?_cons_zero, Option.some.injEq] at hl hs
    subst hl hs
    exact (splitLines_cons hls).1.symm
  | succ i ih =>
    intro text line s hl hs
    obtain ⟨l, ls, hls⟩ := List.exists_cons_of_ne_nil (splitLines_ne_nil text)
    rw [lineStarts_eq_startsFrom, hls] at hs
    rw [hls] at hl
    simp only [List.getElem?_cons_succ, List.map_cons, startsFrom] at hl hs
    rcases (splitLines_cons hls).2 with ⟨h1, -⟩ | ⟨rest, h1, h2⟩
    · subst h1
      simp at hl
    · subst h2
      rw [startsFrom_getElem?] at hs
      have hs' : (lineStarts rest)[i]? =
          if i < ((splitLines rest).map List.length).length then
            some (0 + ((((splitLines rest).map List.length).map (· + 1)).take i).sum) else none := by
        rw [lineStarts_eq_startsFrom, startsFrom_getElem?]
      split at hs
      · rename_i hlt
        rw [if_pos hlt] at hs'
        simp only [Option.some.injEq] at hs
        have hdrop : text.drop s =
            rest.drop (0 + ((((splitLines rest).map List.length).map (· + 1)).take i).sum) := by
          rw [h1, ← hs]
          have : 0 + l.length + 1 + (List.take i (List.map (fun x => x + 1)
              (List.map List.length (splitLines rest)))).sum =
              (l ++ [newline]).length + (0 + (List.take i (List.map (fun x => x + 1)
              (List.map List.length (splitLines rest)))).sum) := by
            simp only [List.length_append, List.length_singleton]
            omega
          rw [this]
          have h2 : l ++ newline :: rest = (l ++ [newline]) ++ rest := by simp
          rw [h2, List.drop_append]
        rw [hdrop]
        exact ih rest line _ hl hs'
      · simp at hs

/-- The normalizer in terms of the lines of the text: the point of the clamped
offset lies on the line that contains it. -/
theorem normalize_lines (text : List Byte) (b : Nat) :
    ∃ (i s : Nat) (line : List Byte),
      (splitLines text)[i]? = some line ∧ (lineStarts text)[i]? = some s ∧
      s ≤ min b text.length ∧ min b text.length ≤ s + line.length ∧
      s + line.length ≤ text.length ∧
      (i + 1 = (splitLines text).length → s + line.length = text.length) ∧
      (∀ j t, (lineStarts text)[j]? = some t → t ≤ min b text.length → j ≤ i) ∧
      (NewNormalizer text).normalize b =
        some ({ ByteOffset := (min b text.length : Nat), LineNumber := (i : Int) + 1,
                ColumnOffset := ((min b text.length : Nat) : Int) - (s : Int) },
              decide (text.length < b)) := by
  obtain ⟨i, s, h1, h2, h3, h4⟩ :=
    normalize_spec (NewNormalizer text) (lineStarts_pairwise text) (lineStarts_zero text) b
  simp only [NewNormalizer] at h1 h2 h3 h4
  have hs := h1
  rw [lineStarts_eq_startsFrom, startsFrom_getElem?] at hs
  split at hs
  swap
  · simp at hs
  rename_i hi
  simp only [List.length_map] at hi
  simp only [Option.some.injEq, Nat.zero_add] at hs
  have hline : (splitLines text)[i]? = some (splitLines text)[i] := List.getElem?_eq_getElem hi
  have hi1 : i < (((splitLines text).map List.length).map (· + 1)).length := by simpa using hi
  have hsucc := List.sum_take_succ (((splitLines text).map List.length).map (· + 1)) i hi1
  simp only [List.getElem_map] at hsucc
  have htot := splitLines_sum text
  have hle : (((splitLines text).map List.length).map (· + 1)).take (i + 1) <+:
      ((splitLines text).map List.length).map (· + 1) := List.take_prefix _ _
  have hsumle : ((((splitLines text).map List.length).map (· + 1)).take (i + 1)).sum ≤
      (((splitLines text).map List.length).map (· + 1)).sum :=
    List.Sublist.sum_le_sum hle.sublist (fun _ _ => Nat.zero_le _)
  refine ⟨i, s, (splitLines text)[i], hline, h1, h2, ?_, ?_, ?_, h3, h4⟩
  · by_cases hlast : i + 1 < (splitLines text).length
    · have hnext : (lineStarts text)[i + 1]? =
          some ((((splitLines text).map List.length).map (· + 1)).take (i + 1)).sum := by
        rw [lineStarts_eq_startsFrom, startsFrom_getElem?]
        simp [hlast]
      by_contra hcon
      have := h3 (i + 1) _ hnext (by omega)
      omega
    · have : i + 1 = (((splitLines text).map List.length).map (· + 1)).length := by
        simp
        omega
      rw [this, List.take_length] at hsucc
      omega
  · omega
  · intro hlast
    have : i + 1 = (((splitLines text).map List.length).map (· + 1)).length := by
      simp
      omega
    rw [this, List.take_length] at hsucc
    omega

theorem scanNewlines_le (text : List Byte) :
    ∀ i x, x ∈ scanNewlines text i → x ≤ i + text.length := by
  induction text with
  | nil => intro i x hx; simp [scanNewlines] at hx
  | cons b rest ih =>
    intro i x hx
    simp only [scanNewlines] at hx
    split at hx
    · simp only [List.mem_cons] at hx
      rcases hx with rfl | hx
      · simp
      · have := ih _ _ hx
        simp only [List.length_cons]
        omega
    · have := ih _ _ hx
      simp only [List.length_cons]
      omega

theorem lineStarts_le (text : List Byte) : ∀ x ∈ lineStarts text, x ≤ text.length := by
  intro x hx
  simp only [lineStarts, List.mem_cons] at hx
  rcases hx with rfl | hx
  · exact Nat.zero_le _
  · simpa using scanNewlines_le text 0 x hx

theorem lineStarts_length (text : List Byte) :
    (lineStarts text).length = (splitLines text).length := by
  rw [lineStarts_eq_startsFrom, startsFrom_length, List.length_map]

/-- Normalizing an offset is normalizing the clamped offset, up to the error mark. -/
theorem normalize_clamp (n : Normalizer) (b : Nat) :
    n.normalize (min b n.textLen) = (n.normalize b).map fun r => (r.1, false) := by
  have h1 : (if n.textLen < b then n.textLen else b) = min b n.textLen := by
    split <;> omega
  have h2 : (if n.textLen < min b n.textLen then n.textLen else min b n.textLen) =
      min b n.textLen := by
    split <;> omega
  have h3 : decide (n.textLen < min b n.textLen) = false := by
    simp
  simp only [Normalizer.normalize, h1, h2, h3]
  cases search n.lineStart.length
      (fun i => (n.lineStart[i]?).map fun s => decide (min b n.textLen < s)) with
  | none => rfl
  | some r =>
    cases r with
    | zero => rfl
    | succ index =>
      simp only
      cases n.lineStart[index]? <;> rfl

/-! ## Columnar store: lemmas -/

theorem Store.get_eq_none (s : Store) (k : StoreKey) (h : ∀ v, (k, v) ∉ s) :
    s.get k = none := by
  induction s with
  | nil => rfl
  | cons kv rest ih =>
    obtain ⟨k', v'⟩ := kv
    have hrest : ∀ v, (k, v) ∉ rest := fun v hv => h v (List.mem_cons_of_mem _ hv)
    have hk : k' ≠ k := by
      intro hk
      subst hk
      exact h v' (List.mem_cons_self _ _)
    simp [Store.get, ih hrest, hk]

theorem Store.get_eq_some (s : Store) (k : StoreKey) (v0 : StoreValue)
    (hall : ∀ v, (k, v) ∈ s → v = v0) (hex : ∃ v, (k, v) ∈ s) : s.get k = some v0 := by
  induction s with
  | nil =>
    obtain ⟨v, hv⟩ := hex
    simp at hv
  | cons kv rest ih =>
    obtain ⟨k', v'⟩ := kv
    have hallrest : ∀ v, (k, v) ∈ rest → v = v0 := fun v hv => hall v (List.mem_cons_of_mem _ hv)
    by_cases hrest : ∃ v, (k, v) ∈ rest
    · simp [Store.get, ih hallrest hrest]
    · have hnone : Store.get rest k = none :=
        Store.get_eq_none rest k (fun v hv => hrest ⟨v, hv⟩)
      obtain ⟨v, hv⟩ := hex
      simp only [List.mem_cons, Prod.mk.injEq] at hv
      rcases hv with ⟨rfl, rfl⟩ | hv
      · have := hall v (List.mem_cons_self _ _)
        simp [Store.get, hnone, this]
      · exact absurd ⟨v, hv⟩ hrest

theorem mem_pipelineOutput {nodes : List GraphNode} {k : StoreKey} {v : StoreValue}
    (h : (k, v) ∈ pipelineOutput nodes) :
    (∃ n r, n ∈ nodes ∧ decorationRecord nodes n.identity = some r ∧
        k = StoreKey.decorations n.identity ∧ v = StoreValue.decoration r) ∨
    (∃ t r, t ∈ crossReferenceTargets nodes ∧ crossReferenceRecord nodes t = some r ∧
        k = StoreKey.crossReferences t ∧ v = StoreValue.crossReference r) := by
  simp only [pipelineOutput, List.mem_append, List.mem_filterMap, Option.map_eq_some'] at h
  rcases h with ⟨n, hn, r, hr, heq⟩ | ⟨t, ht, r, hr, heq⟩
  · simp only [Prod.mk.injEq] at heq
    exact Or.inl ⟨n, r, hn, hr, heq.1.symm, heq.2.symm⟩
  · simp only [Prod.mk.injEq] at heq
    exact Or.inr ⟨t, r, ht, hr, heq.1.symm, heq.2.symm⟩

theorem servingStore_marker (nodes : List GraphNode) :
    (servingStore nodes).get StoreKey.marker = some StoreValue.empty := by
  have hnone : Store.get (pipelineOutput nodes) StoreKey.marker = none := by
    apply Store.get_eq_none
    intro v hv
    rcases mem_pipelineOutput hv with ⟨n, r, -, -, hk, -⟩ | ⟨t, r, -, -, hk, -⟩ <;> cases hk
  simp [servingStore, Store.get, hnone]

theorem fileNode_some {nodes : List GraphNode} {file : Ticket} {f : GraphNode}
    (h : fileNode nodes file = some f) : f ∈ nodes ∧ f.kind = NodeKind.FILE ∧ f.identity = file := by
  have h1 := List.find?_some h
  have h2 := List.mem_of_find?_eq_some h
  simp only [decide_eq_true_eq] at h1
  exact ⟨h2, h1.1, h1.2⟩

theorem decorationRecord_some {nodes : List GraphNode} {file : Ticket} {r : DecorationRecord}
    (h : decorationRecord nodes file = some r) : ∃ f, fileNode nodes file = some f := by
  unfold decorationRecord at h
  cases hf : fileNode nodes file with
  | none => rw [hf] at h; cases h
  | some f => exact ⟨f, rfl⟩

/-- The store the pipeline writes holds, under the ticket of a file, the decoration
record of that file, and nothing under any other ticket. -/
theorem servingStore_decorationOf (nodes : List GraphNode) (t : Ticket) :
    (servingStore nodes).decorationOf t = decorationRecord nodes t := by
  have hstep : (servingStore nodes).get (StoreKey.decorations t) =
      Store.get (pipelineOutput nodes) (StoreKey.decorations t) := by
    simp only [servingStore, Store.get]
    cases Store.get (pipelineOutput nodes) (StoreKey.decorations t) <;> simp
  unfold Store.decorationOf
  rw [hstep]
  cases hrec : decorationRecord nodes t with
  | none =>
    rw [Store.get_eq_none]
    intro v hv
    rcases mem_pipelineOutput hv with ⟨n, r, -, hr, hk, -⟩ | ⟨t', r, -, -, hk, -⟩
    · cases hk
      rw [hrec] at hr
      cases hr
    · cases hk
  | some r =>
    rw [Store.get_eq_some _ _ (StoreValue.decoration r)]
    · intro v hv
      rcases mem_pipelineOutput hv with ⟨n, r', -, hr, hk, hv'⟩ | ⟨t', r', -, -, hk, -⟩
      · cases hk
        rw [hrec] at hr
        cases hr
        exact hv'
      · cases hk
    · obtain ⟨f, hf⟩ := decorationRecord_some hrec
      obtain ⟨hmem, -, hid⟩ := fileNode_some hf
      refine ⟨StoreValue.decoration r, ?_⟩
      simp only [pipelineOutput, List.mem_append, List.mem_filterMap, Option.map_eq_some']
      exact Or.inl ⟨f, hmem, r, by rw [hid]; exact hrec, by rw [hid]⟩
theorem mem_relationEdges {nodes : List GraphNode} {rel : Relation} {t : Ticket}
    {a : GraphNode} {ed : Edge} :
    (a, ed) ∈ relationEdges nodes rel t ↔
      a ∈ nodes ∧ ed ∈ a.edges ∧ relationOf ed.kind = some rel ∧ ed.target = t := by
  simp only [relationEdges, List.mem_flatMap, List.mem_map, List.mem_filter, decide_eq_true_eq,
    Prod.mk.injEq]
  constructor
  · rintro ⟨a', ha', ed', ⟨hed', hrel, htgt⟩, rfl, rfl⟩
    exact ⟨ha', hed', hrel, htgt⟩
  · rintro ⟨ha, hed, hrel, htgt⟩
    exact ⟨a, ha, ed, ⟨hed, hrel, htgt⟩, rfl, rfl⟩

theorem sortAnchors_perm (l : List XAnchor) : (sortAnchors l).Perm l :=
  List.perm_insertionSort _ l

theorem sortReferences_perm (l : List Reference) : (sortReferences l).Perm l :=
  List.perm_insertionSort _ l

theorem bucket_length (nodes : List GraphNode) (rel : Relation) (t : Ticket) :
    (bucket nodes rel t).length = (relationEdges nodes rel t).length := by
  simp only [bucket]
  rw [(sortAnchors_perm _).length_eq, List.length_map]

theorem bucket_singleton {nodes : List GraphNode} {rel : Relation} {t : Ticket}
    {a : GraphNode} {ed : Edge} (h : relationEdges nodes rel t = [(a, ed)]) :
    bucket nodes rel t =
      [{ anchorTicket := a.identity, parentFileTicket := fileOf a.identity,
         span := anchorSpan nodes a }] := by
  simp [bucket, h, sortAnchors]

/-- The cross-reference record of a ticket, once it exists. -/
theorem crossReferenceRecord_some {nodes : List GraphNode} {t : Ticket}
    {r : CrossReferenceRecord} (h : crossReferenceRecord nodes t = some r) :
    r = { markedSource :=
            ((nodes.find? fun n => decide (n.identity = t)).bind fun n => n.fact factCode).map
              decodeMarkedSource
          facts := match nodes.find? fun n => decide (n.identity = t) with
            | none => []
            | some n => nodeFacts n
          definitionTicket := match bucket nodes Relation.definition t with
            | [d] => some d.anchorTicket
            | _ => none
          reference := bucket nodes Relation.reference t
          definition := bucket nodes Relation.definition t } ∧
      ((nodes.find? fun n => decide (n.identity = t)) ≠ none ∨
        bucket nodes Relation.reference t ≠ [] ∨ bucket nodes Relation.definition t ≠ []) := by
  unfold crossReferenceRecord at h
  split at h
  · cases h
  · rename_i hne
    simp only [Option.some.injEq] at h
    refine ⟨h.symm, ?_⟩
    by_contra hcon
    simp only [not_or, not_not] at hcon
    exact hne hcon.1 hcon.2.1 hcon.2.2

/-- A cross-reference record exists as soon as the ticket names a node or is the
target of an edge of one of the two relations. -/
theorem crossReferenceRecord_isSome (nodes : List GraphNode) (t : Ticket)
    (h : (nodes.find? fun n => decide (n.identity = t)) ≠ none ∨
        bucket nodes Relation.reference t ≠ [] ∨ bucket nodes Relation.definition t ≠ []) :
    ∃ r, crossReferenceRecord nodes t = some r := by
  unfold crossReferenceRecord
  split
  · rename_i h1 h2 h3
    rcases h with h | h | h
    · exact absurd h1 h
    · exact absurd h2 h
    · exact absurd h3 h
  · exact ⟨_, rfl⟩

theorem bucket_ne_nil_target {nodes : List GraphNode} {rel : Relation} {t : Ticket}
    (h : bucket nodes rel t ≠ []) : t ∈ crossReferenceTargets nodes := by
  have hlen : (relationEdges nodes rel t).length ≠ 0 := by
    rw [← bucket_length]
    exact fun h0 => h (List.length_eq_zero.mp h0)
  obtain ⟨⟨a, ed⟩, rest, hcons⟩ := List.exists_cons_of_ne_nil
    (fun hnil : relationEdges nodes rel t = [] => hlen (by rw [hnil]; rfl))
  have hmem : (a, ed) ∈ relationEdges nodes rel t := by
    rw [hcons]
    exact List.mem_cons_self _ _
  obtain ⟨ha, hed, hrel, htgt⟩ := mem_relationEdges.mp hmem
  simp only [crossReferenceTargets, List.mem_append, List.mem_map, List.mem_flatMap,
    List.mem_filter]
  exact Or.inr ⟨a, ha, ed, ⟨hed, by rw [hrel]; rfl⟩, htgt⟩

/-- The store the pipeline writes holds, under a ticket, the cross-reference record
of that ticket. -/
theorem servingStore_crossReferenceOf (nodes : List GraphNode) (t : Ticket) :
    (servingStore nodes).crossReferenceOf t = crossReferenceRecord nodes t := by
  have hstep : (servingStore nodes).get (StoreKey.crossReferences t) =
      Store.get (pipelineOutput nodes) (StoreKey.crossReferences t) := by
    simp only [servingStore, Store.get]
    cases Store.get (pipelineOutput nodes) (StoreKey.crossReferences t) <;> simp
  unfold Store.crossReferenceOf
  rw [hstep]
  cases hrec : crossReferenceRecord nodes t with
  | none =>
    rw [Store.get_eq_none]
    intro v hv
    rcases mem_pipelineOutput hv with ⟨n, r, -, -, hk, -⟩ | ⟨t', r, -, hr, hk, -⟩
    · cases hk
    · cases hk
      rw [hrec] at hr
      cases hr
  | some r =>
    rw [Store.get_eq_some _ _ (StoreValue.crossReference r)]
    · intro v hv
      rcases mem_pipelineOutput hv with ⟨n, r', -, -, hk, -⟩ | ⟨t', r', -, hr, hk, hv'⟩
      · cases hk
      · cases hk
        rw [hrec] at hr
        cases hr
        exact hv'
    · refine ⟨StoreValue.crossReference r, ?_⟩
      have ht : t ∈ crossReferenceTargets nodes := by
        rcases (crossReferenceRecord_some hrec).2 with h | h | h
        · obtain ⟨n, hn⟩ := Option.ne_none_iff_exists'.mp h
          have h1 := List.find?_some hn
          have h2 := List.mem_of_find?_eq_some hn
          simp only [decide_eq_true_eq] at h1
          simp only [crossReferenceTargets, List.mem_append, List.mem_map]
          exact Or.inl ⟨n, h2, h1⟩
        · exact bucket_ne_nil_target h
        · exact bucket_ne_nil_target h
      simp only [pipelineOutput, List.mem_append, List.mem_filterMap, Option.map_eq_some']
      exact Or.inr ⟨t, ht, r, hrec, rfl⟩

/-! ## Ordering: lemmas -/

theorem Reference.key_le_documentedOrder {a b : Reference} (h : a.key ≤ b.key) :
    documentedOrder (Point.GetByteOffset a.span.Start) (Point.GetByteOffset a.span.End) a.edgeKind
      (Point.GetByteOffset b.span.Start) (Point.GetByteOffset b.span.End) b.edgeKind := by
  simp only [Reference.key, Prod.Lex.le_iff, ofLex_toLex] at h
  unfold documentedOrder
  rcases h with h | ⟨h1, h | ⟨h2, h3⟩⟩
  · exact Or.inl h
  · exact Or.inr ⟨h1, Or.inl h⟩
  · exact Or.inr ⟨h1, Or.inr ⟨h2, h3⟩⟩

theorem sortReferences_sorted (l : List Reference) :
    (sortReferences l).Pairwise fun a b => a.key ≤ b.key := by
  have htot : IsTotal Reference (fun a b => a.key ≤ b.key) := ⟨fun a b => le_total _ _⟩
  have htrans : IsTrans Reference (fun a b => a.key ≤ b.key) := ⟨fun a b c => le_trans⟩
  exact List.sorted_insertionSort (fun a b : Reference => a.key ≤ b.key) l

theorem sortAnchors_sorted (l : List XAnchor) :
    (sortAnchors l).Pairwise fun a b => a.key ≤ b.key := by
  have htot : IsTotal XAnchor (fun a b => a.key ≤ b.key) := ⟨fun a b => le_total _ _⟩
  have htrans : IsTrans XAnchor (fun a b => a.key ≤ b.key) := ⟨fun a b c => le_trans⟩
  exact List.sorted_insertionSort (fun a b : XAnchor => a.key ≤ b.key) l

theorem decorationRecord_references_sorted {nodes : List GraphNode} {file : Ticket}
    {r : DecorationRecord} (h : decorationRecord nodes file = some r) :
    r.references.Pairwise fun a b => a.key ≤ b.key := by
  unfold decorationRecord at h
  split at h
  · cases h
  · simp only [Option.some.injEq] at h
    subst h
    exact sortReferences_sorted _

/-! ## Lines and snippets: lemmas -/

/-- A line ends within the text, and every later line starts beyond its end. -/
theorem line_bounds {text : List Byte} {i s : Nat} {line : List Byte}
    (hline : (splitLines text)[i]? = some line) (hs : (lineStarts text)[i]? = some s) :
    s + line.length ≤ text.length ∧
      ∀ j t, (lineStarts text)[j]? = some t → i < j → s + line.length < t := by
  have hi : i < (splitLines text).length := (List.getElem?_eq_some.mp hline).1
  have hl : line = (splitLines text)[i] := (List.getElem?_eq_some.mp hline).2.symm
  rw [lineStarts_eq_startsFrom, startsFrom_getElem?] at hs
  simp only [List.length_map, hi, if_true, Option.some.injEq, Nat.zero_add] at hs
  have hi1 : i < (((splitLines text).map List.length).map (· + 1)).length := by simpa using hi
  have hsucc := List.sum_take_succ (((splitLines text).map List.length).map (· + 1)) i hi1
  simp only [List.getElem_map] at hsucc
  rw [← hl] at hsucc
  have htot := splitLines_sum text
  have hsub : ∀ k, ((((splitLines text).map List.length).map (· + 1)).take k).sum ≤
      (((splitLines text).map List.length).map (· + 1)).sum := fun k =>
    List.Sublist.sum_le_sum (List.take_sublist _ _) (fun _ _ => Nat.zero_le _)
  constructor
  · have := hsub (i + 1)
    omega
  · intro j t ht hij
    have hnext : (lineStarts text)[i + 1]? =
        some ((((splitLines text).map List.length).map (· + 1)).take (i + 1)).sum := by
      have hj : j < (lineStarts text).length := (List.getElem?_eq_some.mp ht).1
      rw [lineStarts_length] at hj
      rw [lineStarts_eq_startsFrom, startsFrom_getElem?]
      have : i + 1 < (splitLines text).length := by omega
      simp [this]
    have := pairwise_lt_getElem_mono (lineStarts_pairwise text) hnext ht (by omega)
    omega

/-- The point of an offset that lies on line `i`. -/
theorem normalize_on_line {text : List Byte} {i s : Nat} {line : List Byte}
    (hline : (splitLines text)[i]? = some line) (hs : (lineStarts text)[i]? = some s)
    {b : Nat} (h1 : s ≤ b) (h2 : b ≤ s + line.length) :
    (NewNormalizer text).normalize b =
      some ({ ByteOffset := (b : Int), LineNumber := (i : Int) + 1,
              ColumnOffset := (b : Int) - (s : Int) }, false) := by
  obtain ⟨hlen, hnext⟩ := line_bounds hline hs
  obtain ⟨i', s', line', -, hs', hle', -, -, -, hmax, hnorm⟩ := normalize_lines text b
  have hmin : min b text.length = b := by omega
  rw [hmin] at hle' hmax hnorm
  have hii : i ≤ i' := hmax i s hs h1
  have : i' = i := by
    by_contra hne
    have := hnext i' s' hs' (by omega)
    omega
  subst this
  rw [hs] at hs'
  simp only [Option.some.injEq] at hs'
  subst hs'
  rw [hnorm]
  simp
  omega

/-- The point the builders emit for an offset in a file with text. -/
theorem normPoint_lines (text : List Byte) (b : Nat) :
    ∃ (i s : Nat) (line : List Byte),
      (splitLines text)[i]? = some line ∧ (lineStarts text)[i]? = some s ∧
      s ≤ min b text.length ∧ min b text.length ≤ s + line.length ∧
      normPoint (some (NewNormalizer text)) b =
        { ByteOffset := (min b text.length : Nat), LineNumber := (i : Int) + 1,
          ColumnOffset := ((min b text.length : Nat) : Int) - (s : Int) } := by
  obtain ⟨i, s, line, h1, h2, h3, h4, -, -, -, hnorm⟩ := normalize_lines text b
  refine ⟨i, s, line, h1, h2, h3, h4, ?_⟩
  simp only [normPoint, hnorm]

/-- The snippet of an offset: the line that contains the clamped offset, and the
span from the start of that line to its end. -/
theorem snippetOf_spec (text : List Byte) (b : Nat) :
    ∃ (i s : Nat) (line : List Byte),
      (splitLines text)[i]? = some line ∧ (lineStarts text)[i]? = some s ∧
      s ≤ min b text.length ∧ min b text.length ≤ s + line.length ∧
      snippetOf text b =
        (line, { Start := some { ByteOffset := (s : Int), LineNumber := (i : Int) + 1,
                                 ColumnOffset := 0 },
                 End := some { ByteOffset := ((s + line.length : Nat) : Int),
                               LineNumber := (i : Int) + 1,
                               ColumnOffset := (line.length : Int) } }) := by
  obtain ⟨i, s, line, h1, h2, h3, h4, hp⟩ := normPoint_lines text b
  refine ⟨i, s, line, h1, h2, h3, h4, ?_⟩
  have hstart : ((min b text.length : Nat) : Int) - (((min b text.length : Nat) : Int) - (s : Int)) =
      (s : Int) := by omega
  have hn1 := normalize_on_line h1 h2 (b := s) (le_refl _) (by omega)
  have hn2 := normalize_on_line h1 h2 (b := s + line.length) (by omega) (le_refl _)
  have htw := line_eq_takeWhile i text line s h1 h2
  have hls : ((normPoint (some (NewNormalizer text)) b).ByteOffset -
      (normPoint (some (NewNormalizer text)) b).ColumnOffset).toNat = s := by
    rw [hp]
    simp only
    rw [hstart]
    exact Int.toNat_ofNat s
  have hp1 : normPoint (some (NewNormalizer text)) s =
      { ByteOffset := (s : Int), LineNumber := (i : Int) + 1, ColumnOffset := 0 } := by
    simp only [normPoint, hn1]
    simp
  have hp2 : normPoint (some (NewNormalizer text)) (s + line.length) =
      { ByteOffset := ((s + line.length : Nat) : Int), LineNumber := (i : Int) + 1,
        ColumnOffset := (line.length : Int) } := by
    simp only [normPoint, hn2]
    simp
  unfold snippetOf
  simp only
  rw [hls, htw]
  simp only [mkSpan, hp1, hp2]

/-! ## Emitted spans: lemmas -/

theorem mem_bucket {nodes : List GraphNode} {rel : Relation} {t : Ticket} {x : XAnchor}
    (h : x ∈ bucket nodes rel t) :
    ∃ a ed, (a, ed) ∈ relationEdges nodes rel t ∧
      x = { anchorTicket := a.identity, parentFileTicket := fileOf a.identity,
            span := anchorSpan nodes a } := by
  simp only [bucket] at h
  have h' := (sortAnchors_perm _).mem_iff.mp h
  simp only [List.mem_map] at h'
  obtain ⟨⟨a, ed⟩, hmem, rfl⟩ := h'
  exact ⟨a, ed, hmem, rfl⟩

theorem anchorSpan_cases (nodes : List GraphNode) (a : GraphNode) :
    anchorSpan nodes a = { Start := none, End := none } ∨
      ∃ s e, anchorSpan nodes a = mkSpan (fileNormalizer nodes (fileOf a.identity)) s e := by
  unfold anchorSpan
  cases anchorLoc a with
  | none => exact Or.inl rfl
  | some se => exact Or.inr ⟨se.1, se.2, rfl⟩

/-- The source text the store serves for a file is the `TEXT` fact of its node. -/
theorem servingStore_sourceText (nodes : List GraphNode) (file : Ticket) :
    ((servingStore nodes).decorationOf file).bind (fun r => r.sourceText) = fileText nodes file := by
  rw [servingStore_decorationOf]
  unfold decorationRecord fileText
  cases fileNode nodes file <;> rfl

theorem normPoint_invariant (text? : Option (List Byte)) (b : Nat) :
    pointInvariant text? (normPoint (text?.map NewNormalizer) b) := by
  cases text? with
  | none =>
    simp [pointInvariant, normPoint]
  | some text =>
    obtain ⟨i, s, line, h1, h2, h3, h4, hp⟩ := normPoint_lines text b
    simp only [Option.map_some']
    rw [hp]
    constructor
    · intro _
      refine ⟨text, rfl, ?_, line, ?_, ?_, ?_⟩
      · simp only
        omega
      · simp only
        have : ((i : Int) + 1 - 1).toNat = i := by omega
        rw [this]
        exact h1
      · simp only
        omega
      · simp only
        omega
    · intro h
      simp only at h
      omega

theorem mkSpan_invariant (text? : Option (List Byte)) (s e : Nat) :
    spanInvariant text? (mkSpan (text?.map NewNormalizer) s e) := by
  constructor
  · intro p hp
    simp only [mkSpan, Option.some.injEq] at hp
    subst hp
    exact normPoint_invariant _ _
  · intro p hp
    simp only [mkSpan, Option.some.injEq] at hp
    subst hp
    exact normPoint_invariant _ _

theorem anchorSpan_invariant (nodes : List GraphNode) (a : GraphNode) :
    spanInvariant (fileText nodes (fileOf a.identity)) (anchorSpan nodes a) := by
  rcases anchorSpan_cases nodes a with h | ⟨s, e, h⟩
  · rw [h]
    constructor <;> intro p hp <;> cases hp
  · rw [h]
    exact mkSpan_invariant _ _ _

/-- The start offset of an anchor's span lies within the text of its parent file. -/
theorem anchorSpan_start_le (nodes : List GraphNode) (a : GraphNode) (text : List Byte)
    (ht : fileText nodes (fileOf a.identity) = some text) :
    ∃ b : Nat, Point.GetByteOffset (anchorSpan nodes a).Start = (b : Int) ∧ b ≤ text.length := by
  rcases anchorSpan_cases nodes a with h | ⟨s, e, h⟩
  · rw [h]
    exact ⟨0, rfl, Nat.zero_le _⟩
  · rw [h]
    obtain ⟨i, s', line, -, -, -, -, hp⟩ := normPoint_lines text s
    refine ⟨min s text.length, ?_, by omega⟩
    simp only [mkSpan, fileNormalizer, ht, Option.map_some', hp, Point.GetByteOffset]

theorem snippetOf_invariant (text : List Byte) (b : Nat) :
    spanInvariant (some text) (snippetOf text b).2 := by
  obtain ⟨i, s, line, h1, -, -, -, hsn⟩ := snippetOf_spec text b
  rw [hsn]
  have hidx : ((i : Int) + 1 - 1).toNat = i := by omega
  constructor
  · intro p hp
    simp only [Option.some.injEq] at hp
    subst hp
    refine ⟨fun _ => ⟨text, rfl, by simp only; omega, line, ?_, by simp, by simp⟩, ?_⟩
    · simp only
      rw [hidx]
      exact h1
    · intro h
      simp only at h
      omega
  · intro p hp
    simp only [Option.some.injEq] at hp
    subst hp
    refine ⟨fun _ => ⟨text, rfl, by simp only; omega, line, ?_, by simp, by simp⟩, ?_⟩
    · simp only
      rw [hidx]
      exact h1
    · intro h
      simp only at h
      omega

/-- The anchors of a stored record come from the nodes of the graph. -/
theorem mem_record_reference {nodes : List GraphNode} {t : Ticket} {r : CrossReferenceRecord}
    (h : crossReferenceRecord nodes t = some r) {x : XAnchor}
    (hx : x ∈ r.reference ∨ x ∈ r.definition) :
    ∃ a, a ∈ nodes ∧ x = { anchorTicket := a.identity, parentFileTicket := fileOf a.identity,
                           span := anchorSpan nodes a } := by
  obtain ⟨hr, -⟩ := crossReferenceRecord_some h
  rw [hr] at hx
  simp only at hx
  rcases hx with hx | hx
  · obtain ⟨a, ed, hmem, rfl⟩ := mem_bucket hx
    exact ⟨a, (mem_relationEdges.mp hmem).1, rfl⟩
  · obtain ⟨a, ed, hmem, rfl⟩ := mem_bucket hx
    exact ⟨a, (mem_relationEdges.mp hmem).1, rfl⟩

/-- The reply anchor of a bucket anchor whose parent file has source text. -/
theorem mkAnchor_with_text (nodes : List GraphNode) (w : Bool) (x : XAnchor) (text : List Byte)
    (ht : fileText nodes x.parentFileTicket = some text) :
    mkAnchor (servingStore nodes) w x =
      { ticket := if w then some x.anchorTicket else none
        parent := x.parentFileTicket, span := x.span
        snippet := some (snippetOf text (Point.GetByteOffset x.span.Start).toNat).1
        snippetSpan := some (snippetOf text (Point.GetByteOffset x.span.Start).toNat).2 } := by
  unfold mkAnchor
  rw [servingStore_sourceText, ht]

/-- The reply anchor of a bucket anchor whose parent file has no source text. -/
theorem mkAnchor_without_text (nodes : List GraphNode) (w : Bool) (x : XAnchor)
    (ht : fileText nodes x.parentFileTicket = none) :
    mkAnchor (servingStore nodes) w x =
      { ticket := if w then some x.anchorTicket else none
        parent := x.parentFileTicket, span := x.span, snippet := none, snippetSpan := none } := by
  unfold mkAnchor
  rw [servingStore_sourceText, ht]

/-- The reply anchors of `CrossReferences` are the reply anchors of bucket anchors
of nodes of the graph. -/
theorem mem_crossReferences_reply {nodes : List GraphNode} {req : CrossReferencesRequest}
    {reply : CrossReferencesReply}
    (h : CrossReferences (servingStore nodes) req = Except.ok reply)
    {e : Ticket × CrossReferenceSet} (he : e ∈ reply.crossReferences)
    {anchor : Anchor} (ha : anchor ∈ e.2.reference) :
    ∃ a, a ∈ nodes ∧ anchor = mkAnchor (servingStore nodes) false
      { anchorTicket := a.identity, parentFileTicket := fileOf a.identity,
        span := anchorSpan nodes a } := by
  unfold CrossReferences at h
  rw [servingStore_marker] at h
  simp only [Except.ok.injEq] at h
  subst h
  simp only [List.mem_filterMap, Option.map_eq_some'] at he
  obtain ⟨t, -, r, hr, rfl⟩ := he
  rw [servingStore_crossReferenceOf] at hr
  simp only at ha
  cases hk : req.referenceKind with
  | NONE =>
    rw [hk] at ha
    simp at ha
  | ALL_REFERENCES =>
    rw [hk] at ha
    simp only [List.mem_map] at ha
    obtain ⟨x, hx, rfl⟩ := ha
    obtain ⟨a, hmem, rfl⟩ := mem_record_reference hr (Or.inl hx)
    exact ⟨a, hmem, rfl⟩

/-! ## Order independence: lemmas -/

theorem vname_key_injective {a b : VName} (h : a.key = b.key) : a = b := by
  simp only [VName.key, toLex_inj, Prod.mk.injEq] at h
  obtain ⟨h1, h2, h3, h4, h5⟩ := h
  cases a
  cases b
  simp only [VName.mk.injEq]
  exact ⟨String.ext h5, String.ext h1, String.ext h2, String.ext h3, String.ext h4⟩

/-- Two orderings of the same entries by a key are the same list when no two
entries have the same key. -/
theorem eq_of_perm_of_sorted_of_distinct {α κ : Type} [LinearOrder κ] (key : α → κ)
    {l₁ l₂ : List α} (h : l₁.Perm l₂)
    (h₁ : l₁.Pairwise fun a b => key a ≤ key b) (h₂ : l₂.Pairwise fun a b => key a ≤ key b)
    (hd : l₂.Pairwise fun a b => key a ≠ key b) : l₁ = l₂ := by
  have hd₁ : l₁.Pairwise fun a b => key a ≠ key b :=
    (h.pairwise_iff (fun {a b} (hab : key a ≠ key b) => hab.symm)).mpr hd
  have hlt₁ : l₁.Pairwise fun a b => key a < key b :=
    (h₁.and hd₁).imp fun hab => lt_of_le_of_ne hab.1 hab.2
  have hlt₂ : l₂.Pairwise fun a b => key a < key b :=
    (h₂.and hd).imp fun hab => lt_of_le_of_ne hab.1 hab.2
  have hanti : IsAntisymm α (fun a b => key a < key b) :=
    ⟨fun a b hab hba => absurd hab (not_lt_of_gt hba)⟩
  exact List.eq_of_perm_of_sorted h hlt₁ hlt₂

/-- The orderings of two arrangements of the same reference entries have the same
entries, and are the same when no two entries tie in the documented order. -/
theorem sortReferences_perm_perm {l₁ l₂ : List Reference} (h : l₁.Perm l₂) :
    (sortReferences l₁).Perm (sortReferences l₂) ∧
      ((sortReferences l₂).Pairwise (fun a b => a.key ≠ b.key) →
        sortReferences l₁ = sortReferences l₂) := by
  have hp := ((sortReferences_perm l₁).trans h).trans (sortReferences_perm l₂).symm
  exact ⟨hp, fun hd => eq_of_perm_of_sorted_of_distinct Reference.key hp
    (sortReferences_sorted l₁) (sortReferences_sorted l₂) hd⟩

/-- The orderings of two arrangements of the same bucket anchors have the same
anchors, and are the same when no two anchors tie in the documented order. -/
theorem sortAnchors_perm_perm {l₁ l₂ : List XAnchor} (h : l₁.Perm l₂) :
    (sortAnchors l₁).Perm (sortAnchors l₂) ∧
      ((sortAnchors l₂).Pairwise (fun a b => a.key ≠ b.key) →
        sortAnchors l₁ = sortAnchors l₂) := by
  have hp := ((sortAnchors_perm l₁).trans h).trans (sortAnchors_perm l₂).symm
  exact ⟨hp, fun hd => eq_of_perm_of_sorted_of_distinct XAnchor.key hp
    (sortAnchors_sorted l₁) (sortAnchors_sorted l₂) hd⟩

/-- Looking up the element that satisfies a predicate does not depend on the order
of the list when at most one element satisfies it. -/
theorem find?_perm_of_unique {α : Type} {p : α → Bool} {l₁ l₂ : List α} (h : l₁.Perm l₂)
    (huniq : ∀ a ∈ l₂, ∀ b ∈ l₂, p a = true → p b = true → a = b) :
    l₁.find? p = l₂.find? p := by
  cases h2 : l₂.find? p with
  | none =>
    rw [List.find?_eq_none] at h2 ⊢
    intro x hx
    exact h2 x (h.mem_iff.mp hx)
  | some b =>
    have hb := List.find?_some h2
    have hbm := List.mem_of_find?_eq_some h2
    cases h1 : l₁.find? p with
    | none =>
      rw [List.find?_eq_none] at h1
      exact absurd hb (h1 b (h.mem_iff.mpr hbm))
    | some a =>
      have ha := List.find?_some h1
      have ham := List.mem_of_find?_eq_some h1
      rw [huniq a (h.mem_iff.mp ham) b hbm ha hb]

theorem fileNode_perm {nodes nodes' : List GraphNode} (h : nodes'.Perm nodes)
    (huniq : ∀ a ∈ nodes, ∀ b ∈ nodes, a.identity = b.identity → a = b) (file : Ticket) :
    fileNode nodes' file = fileNode nodes file := by
  unfold fileNode
  apply find?_perm_of_unique h
  intro a ha b hb hpa hpb
  simp only [decide_eq_true_eq] at hpa hpb
  exact huniq a ha b hb (hpa.2.trans hpb.2.symm)

theorem anchorSpan_perm {nodes nodes' : List GraphNode} (h : nodes'.Perm nodes)
    (huniq : ∀ a ∈ nodes, ∀ b ∈ nodes, a.identity = b.identity → a = b) (a : GraphNode) :
    anchorSpan nodes' a = anchorSpan nodes a := by
  unfold anchorSpan fileNormalizer fileText
  rw [fileNode_perm h huniq]

theorem relationEdges_perm {nodes nodes' : List GraphNode} (h : nodes'.Perm nodes)
    (rel : Relation) (t : Ticket) :
    (relationEdges nodes' rel t).Perm (relationEdges nodes rel t) := by
  unfold relationEdges
  exact h.flatMap_right _

theorem bucket_perm {nodes nodes' : List GraphNode} (h : nodes'.Perm nodes)
    (huniq : ∀ a ∈ nodes, ∀ b ∈ nodes, a.identity = b.identity → a = b) (rel : Relation) (t : Ticket) :
    (bucket nodes' rel t).Perm (bucket nodes rel t) ∧
      ((bucket nodes rel t).Pairwise (fun a b => a.key ≠ b.key) →
        bucket nodes' rel t = bucket nodes rel t) := by
  unfold bucket
  apply sortAnchors_perm_perm
  have hfun : (fun ae : GraphNode × Edge =>
        ({ anchorTicket := ae.1.identity, parentFileTicket := fileOf ae.1.identity,
           span := anchorSpan nodes' ae.1 } : XAnchor)) =
      fun ae => { anchorTicket := ae.1.identity, parentFileTicket := fileOf ae.1.identity,
                  span := anchorSpan nodes ae.1 } := by
    funext ae
    rw [anchorSpan_perm h huniq]
  rw [hfun]
  exact (relationEdges_perm h rel t).map _

theorem decorationRecord_span_invariant {nodes : List GraphNode} {file : Ticket}
    {rec : DecorationRecord} (h : decorationRecord nodes file = some rec) :
    ∀ e ∈ rec.references, spanInvariant (fileText nodes file) e.span := by
  unfold decorationRecord at h
  cases hf : fileNode nodes file with
  | none => rw [hf] at h; cases h
  | some f =>
    rw [hf] at h
    simp only [Option.some.injEq] at h
    subst h
    intro e he
    simp only at he
    have he' := (sortReferences_perm _).mem_iff.mp he
    simp only [List.mem_flatMap, List.mem_filter] at he'
    obtain ⟨a, -, hea⟩ := he'
    unfold anchorReferences at hea
    cases hloc : anchorLoc a with
    | none => rw [hloc] at hea; simp at hea
    | some se =>
      rw [hloc] at hea
      simp only [List.mem_map, List.mem_filter] at hea
      obtain ⟨ed, -, rfl⟩ := hea
      have : fileText nodes file = f.fact factText := by
        unfold fileText
        rw [hf]
        rfl
      rw [this]
      exact mkSpan_invariant _ _ _

theorem mkAnchor_invariant (nodes : List GraphNode) (w : Bool) (a : GraphNode) :
    spanInvariant (fileText nodes (fileOf a.identity))
        (mkAnchor (servingStore nodes) w
          { anchorTicket := a.identity, parentFileTicket := fileOf a.identity,
            span := anchorSpan nodes a }).span ∧
      ∀ ss, (mkAnchor (servingStore nodes) w
          { anchorTicket := a.identity, parentFileTicket := fileOf a.identity,
            span := anchorSpan nodes a }).snippetSpan = some ss →
        spanInvariant (fileText nodes (fileOf a.identity)) ss := by
  cases ht : fileText nodes (fileOf a.identity) with
  | none =>
    rw [mkAnchor_without_text nodes w _ ht]
    refine ⟨?_, fun ss hss => by cases hss⟩
    have := anchorSpan_invariant nodes a
    rw [ht] at this
    exact this
  | some text =>
    rw [mkAnchor_with_text nodes w _ text ht]
    refine ⟨?_, fun ss hss => ?_⟩
    · have := anchorSpan_invariant nodes a
      rw [ht] at this
      exact this
    · simp only [Option.some.injEq] at hss
      subst hss
      exact snippetOf_invariant _ _

theorem mkAnchor_parent (store : Store) (w : Bool) (x : XAnchor) :
    (mkAnchor store w x).parent = x.parentFileTicket := by
  unfold mkAnchor
  split <;> rfl

/-! ## Wire format: lemmas -/

theorem or_mod_two_pow (a b k : Nat) : (a ||| b) % 2 ^ k = a % 2 ^ k ||| b % 2 ^ k := by
  apply Nat.eq_of_testBit_eq
  intro i
  simp only [Nat.testBit_mod_two_pow, Nat.testBit_or]
  cases decide (i < k) <;> simp

/-- Adding a group of bits above the bits accumulated so far is a bitwise or, also
after truncation to `bits` bits. -/
theorem accumulate_eq (bits shift A x : Nat) (hA : A < 2 ^ shift) :
    (A % 2 ^ bits ||| (x <<< shift) % 2 ^ bits) % 2 ^ bits = (A + x * 2 ^ shift) % 2 ^ bits := by
  rw [← or_mod_two_pow, Nat.mod_mod, Nat.shiftLeft_eq, Nat.lor_comm]
  have := Nat.mul_add_lt_is_or hA x
  rw [Nat.mul_comm] at this
  rw [← this, Nat.add_comm]

theorem accumulate_eq' (bits shift A x : Nat) (hA : A < 2 ^ shift) :
    A % 2 ^ bits ||| (x <<< shift) % 2 ^ bits = (A + x * 2 ^ shift) % 2 ^ bits := by
  rw [← accumulate_eq bits shift A x hA, or_mod_two_pow, Nat.mod_mod, Nat.mod_mod]

theorem byte_val_ofNat (v : Nat) : ((Fin.ofNat v : Byte)).val = v % 256 := rfl

theorem and_0x7f (v : Nat) : v &&& 0x7f = v % 128 := by
  have := Nat.and_pow_two_sub_one_eq_mod v 7
  simpa using this

theorem continuation_byte (v : Nat) : v &&& 0x7f ||| 0x80 = v % 128 + 128 := by
  rw [and_0x7f]
  have h := Nat.mul_add_lt_is_or (i := 7) (b := v % 128) (by omega) 1
  simp only [Nat.reducePow, Nat.mul_one] at h
  rw [Nat.lor_comm, ← h, Nat.add_comm]

theorem encodeVarintLoop_succ (n v : Nat) :
    encodeVarintLoop (n + 1) v =
      if 128 ≤ v then Fin.ofNat (v % 128 + 128) :: encodeVarintLoop n (v / 128)
      else [Fin.ofNat v] := by
  rw [encodeVarintLoop, continuation_byte, Nat.shiftRight_eq_div_pow]
  rfl

theorem sovLoop_succ (n x : Nat) :
    sovLoop (n + 1) x = if x / 128 = 0 then 1 else 1 + sovLoop n (x / 128) := by
  rw [sovLoop, Nat.shiftRight_eq_div_pow]

theorem encodeVarintLoop_length (n : Nat) : ∀ v, (encodeVarintLoop n v).length = sovLoop n v := by
  induction n with
  | zero => intro v; rfl
  | succ n ih =>
    intro v
    rw [encodeVarintLoop_succ, sovLoop_succ]
    by_cases h : 128 ≤ v
    · have h' : ¬ v / 128 = 0 := by omega
      rw [if_pos h, if_neg h', List.length_cons, ih]
      omega
    · have h' : v / 128 = 0 := by omega
      rw [if_neg h, if_pos h']
      rfl

theorem sovLoop_le (n : Nat) : ∀ x, sovLoop n x ≤ n + 1 := by
  induction n with
  | zero => intro x; simp [sovLoop]
  | succ n ih =>
    intro x
    rw [sovLoop_succ]
    split
    · omega
    · have := ih (x / 128)
      omega

theorem sovLoop_pos (n x : Nat) : 1 ≤ sovLoop n x := by
  cases n with
  | zero => simp [sovLoop]
  | succ n =>
    rw [sovLoop_succ]
    split <;> omega

theorem encodeVarintCommon_length (v : Nat) : (encodeVarintCommon v).length = sovCommon v :=
  encodeVarintLoop_length 9 v

theorem sovCommon_le (x : Nat) : sovCommon x ≤ 10 := sovLoop_le 9 x

theorem sovCommon_pos (x : Nat) : 1 ≤ sovCommon x := sovLoop_pos 9 x

theorem encodeVarintCommon_small (v : Nat) (h : v < 128) :
    encodeVarintCommon v = [Fin.ofNat v] := by
  unfold encodeVarintCommon
  rw [encodeVarintLoop_succ, if_neg (by omega)]

theorem sovCommon_small (v : Nat) (h : v < 128) : sovCommon v = 1 := by
  rw [← encodeVarintCommon_length, encodeVarintCommon_small v h]
  rfl

theorem Point_MarshalTo_length (p : Point) : p.MarshalTo.length = p.Size := by
  unfold Point.MarshalTo Point.Size
  simp only [List.length_append]
  congr 1
  · congr 1
    · split <;> simp [encodeVarintCommon_length, Nat.add_comm]
    · split <;> simp [encodeVarintCommon_length, Nat.add_comm]
  · split <;> simp [encodeVarintCommon_length, Nat.add_comm]

theorem Point_Size_le (p : Point) : p.Size ≤ 33 := by
  unfold Point.Size
  have h1 := sovCommon_le (uint64 p.ByteOffset)
  have h2 := sovCommon_le (uint64 p.LineNumber)
  have h3 := sovCommon_le (uint64 p.ColumnOffset)
  split <;> split <;> split <;> omega

theorem getElem?_append_middle (pre post : List Byte) (b : Byte) (rest : List Byte) :
    (pre ++ (b :: rest) ++ post)[pre.length]? = some b := by
  rw [List.append_assoc, List.getElem?_append_right (le_refl _)]
  simp

/-- One turn of the varint loop on a byte without continuation bit. -/
theorem readVarintLoop_last (bits : Nat) (dAtA : List Byte) (n shift i x : Nat) (b : Byte)
    (hs : shift ≤ 63) (hb : dAtA[i]? = some b) (hlt : b.val < 128) :
    readVarintLoop bits dAtA (n + 1) shift i x =
      Outcome.ok ((x ||| ((b.val % 128) <<< shift) % 2 ^ bits), i + 1) := by
  rw [readVarintLoop, if_neg (by omega), hb]
  simp only
  rw [if_pos (by simpa using hlt), and_0x7f]

/-- One turn of the varint loop on a byte with continuation bit. -/
theorem readVarintLoop_more (bits : Nat) (dAtA : List Byte) (n shift i x : Nat) (b : Byte)
    (hs : shift ≤ 63) (hb : dAtA[i]? = some b) (hge : 128 ≤ b.val) :
    readVarintLoop bits dAtA (n + 1) shift i x =
      readVarintLoop bits dAtA n (shift + 7) (i + 1)
        (x ||| ((b.val % 128) <<< shift) % 2 ^ bits) := by
  rw [readVarintLoop, if_neg (by omega), hb]
  simp only
  rw [if_neg (by simpa using hge), and_0x7f]

/-- Decoding what `encodeVarintLoop` wrote gives back the value, truncated to the
width of the accumulator. -/
theorem readVarintLoop_encode (bits : Nat) :
    ∀ (n v shift A k : Nat) (pre post : List Byte),
      v < 2 ^ (7 * (n + 1)) → shift + 7 * n ≤ 63 → n < k → A < 2 ^ shift →
      readVarintLoop bits (pre ++ encodeVarintLoop n v ++ post) k shift pre.length
          (A % 2 ^ bits) =
        Outcome.ok ((A + v * 2 ^ shift) % 2 ^ bits,
          pre.length + (encodeVarintLoop n v).length) := by
  intro n
  induction n with
  | zero =>
    intro v shift A k pre post hv hs hk hA
    obtain ⟨k', rfl⟩ : ∃ k', k = k' + 1 := ⟨k - 1, by omega⟩
    have hv' : v < 128 := by simpa using hv
    have hval : ((Fin.ofNat v : Byte)).val = v := by
      rw [byte_val_ofNat]
      omega
    rw [encodeVarintLoop,
      readVarintLoop_last bits _ k' shift pre.length _ (Fin.ofNat v) (by omega)
        (getElem?_append_middle pre post _ []) (by omega)]
    rw [hval, Nat.mod_eq_of_lt hv', accumulate_eq' bits shift A v hA]
    rfl
  | succ n ih =>
    intro v shift A k pre post hv hs hk hA
    obtain ⟨k', rfl⟩ : ∃ k', k = k' + 1 := ⟨k - 1, by omega⟩
    rw [encodeVarintLoop_succ]
    by_cases h : 128 ≤ v
    · rw [if_pos h]
      have hval : ((Fin.ofNat (v % 128 + 128) : Byte)).val = v % 128 + 128 := by
        rw [byte_val_ofNat]
        omega
      rw [readVarintLoop_more bits _ k' shift pre.length _ (Fin.ofNat (v % 128 + 128)) (by omega)
        (getElem?_append_middle pre post _ _) (by omega)]
      rw [hval]
      have hmod : (v % 128 + 128) % 128 = v % 128 := by omega
      rw [hmod, accumulate_eq' bits shift A (v % 128) hA]
      have hA' : A + v % 128 * 2 ^ shift < 2 ^ (shift + 7) := by
        have h1 : v % 128 * 2 ^ shift ≤ 127 * 2 ^ shift := Nat.mul_le_mul_right _ (by omega)
        have h2 : (2 : Nat) ^ (shift + 7) = 128 * 2 ^ shift := by
          rw [Nat.pow_add]
          omega
        omega
      have hv2 : v / 128 < 2 ^ (7 * (n + 1)) := by
        apply Nat.div_lt_of_lt_mul
        have : (2 : Nat) ^ (7 * (n + 1 + 1)) = 128 * 2 ^ (7 * (n + 1)) := by
          rw [show 7 * (n + 1 + 1) = 7 + 7 * (n + 1) by omega, Nat.pow_add]
        omega
      have hlist : pre ++ Fin.ofNat (v % 128 + 128) :: encodeVarintLoop n (v / 128) ++ post =
          (pre ++ [Fin.ofNat (v % 128 + 128)]) ++ encodeVarintLoop n (v / 128) ++ post := by
        simp
      have hlen : pre.length + 1 = (pre ++ [(Fin.ofNat (v % 128 + 128) : Byte)]).length := by
        simp
      rw [hlist, hlen, ih (v / 128) (shift + 7) _ k' _ post hv2 (by omega) (by omega) hA']
      have harith : A + v % 128 * 2 ^ shift + v / 128 * 2 ^ (shift + 7) = A + v * 2 ^ shift := by
        have h2 : (2 : Nat) ^ (shift + 7) = 2 ^ shift * 128 := by
          rw [Nat.pow_add]
        rw [h2]
        have h3 := Nat.mod_add_div v 128
        calc A + v % 128 * 2 ^ shift + v / 128 * (2 ^ shift * 128)
            = A + (v % 128 + 128 * (v / 128)) * 2 ^ shift := by ring
          _ = A + v * 2 ^ shift := by rw [h3]
      rw [harith]
      simp only [List.length_append, List.length_singleton, List.length_cons, List.length_nil]
      have hassoc : pre.length + 0 + 1 + (encodeVarintLoop n (v / 128)).length =
          pre.length + ((encodeVarintLoop n (v / 128)).length + 1) := by omega
      rw [hassoc]
    · rw [if_neg h]
      have hv' : v < 128 := by omega
      have hval : ((Fin.ofNat v : Byte)).val = v := by
        rw [byte_val_ofNat]
        omega
      rw [readVarintLoop_last bits _ k' shift pre.length _ (Fin.ofNat v) (by omega)
          (getElem?_append_middle pre post _ []) (by omega)]
      rw [hval, Nat.mod_eq_of_lt hv', accumulate_eq' bits shift A v hA]
      rfl

/-- Reading, at the end of `pre`, the varint that `encodeVarintCommon` wrote for a
`uint64`. -/
theorem readVarint_encode (bits v : Nat) (pre post : List Byte) (hv : v < 2 ^ 64) :
    readVarint bits (pre ++ encodeVarintCommon v ++ post) (pre.length : Int) =
      Outcome.ok (v % 2 ^ bits, ((pre.length + sovCommon v : Nat) : Int)) := by
  unfold readVarint
  rw [if_neg (by omega), Int.toNat_ofNat]
  have h := readVarintLoop_encode bits 9 v 0 0 11 pre post
    (lt_of_lt_of_le hv (Nat.pow_le_pow_right (by omega) (by omega))) (by omega) (by omega)
    (by omega)
  simp only [Nat.zero_mod, Nat.pow_zero, Nat.mul_one, Nat.zero_add] at h
  unfold encodeVarintCommon
  rw [h, encodeVarintLoop_length]
  rfl

theorem uint64_lt (x : Int) : uint64 x < 2 ^ 64 := by
  unfold uint64
  have h1 : (0 : Int) ≤ x % 2 ^ 64 := Int.emod_nonneg _ (by norm_num)
  have h2 : x % 2 ^ 64 < 2 ^ 64 := Int.emod_lt_of_pos _ (by norm_num)
  omega

/-- An `int32` survives the conversion to `uint64` on the wire and the 32-bit
accumulator of the decoder. -/
theorem int32_uint64 (x : Int) (hx : fitsInt32 x) : int32 (uint64 x % 2 ^ 32) = x := by
  unfold fitsInt32 at hx
  unfold int32 uint64
  have h1 : (0 : Int) ≤ x % 2 ^ 64 := Int.emod_nonneg _ (by norm_num)
  norm_num at hx h1 ⊢
  omega

/-- Reading a single-byte varint, such as a tag. -/
theorem readVarint_byte (bits t : Nat) (pre rest : List Byte) (ht : t < 128) :
    readVarint bits (pre ++ (Fin.ofNat t : Byte) :: rest) (pre.length : Int) =
      Outcome.ok (t % 2 ^ bits, ((pre.length + 1 : Nat) : Int)) := by
  have h := readVarint_encode bits t pre rest (by omega)
  rw [encodeVarintCommon_small t ht, sovCommon_small t ht] at h
  simpa using h

theorem Point_unmarshalLoop_end (dAtA : List Byte) (f : Nat) (m : Point) :
    Point.unmarshalLoop dAtA (f + 1) (dAtA.length : Int) m = Outcome.ok m := by
  rw [Point.unmarshalLoop, if_neg (lt_irrefl _), if_neg (lt_irrefl _)]

/-- One turn of the loop of `Point.Unmarshal` on the field `ByteOffset`. -/
theorem Point_unmarshalLoop_field1 (pre post : List Byte) (x : Int) (hx : fitsInt32 x)
    (m : Point) (f : Nat) :
    Point.unmarshalLoop (pre ++ ((0x8 : Byte) :: encodeVarintCommon (uint64 x)) ++ post) (f + 1)
        (pre.length : Int) m =
      Point.unmarshalLoop (pre ++ ((0x8 : Byte) :: encodeVarintCommon (uint64 x)) ++ post) f
        ((pre.length + 1 + sovCommon (uint64 x) : Nat) : Int) { m with ByteOffset := x } := by
  have hlt : (pre.length : Int) <
      ((pre ++ ((0x8 : Byte) :: encodeVarintCommon (uint64 x)) ++ post).length : Int) := by
    simp only [List.length_append, List.length_cons]
    omega
  have htag : readVarint 64 (pre ++ ((0x8 : Byte) :: encodeVarintCommon (uint64 x)) ++ post)
      (pre.length : Int) = Outcome.ok (8, ((pre.length + 1 : Nat) : Int)) := by
    have := readVarint_byte 64 8 pre (encodeVarintCommon (uint64 x) ++ post) (by omega)
    simpa using this
  have hval : readVarint 32 (pre ++ ((0x8 : Byte) :: encodeVarintCommon (uint64 x)) ++ post)
      ((pre.length + 1 : Nat) : Int) =
      Outcome.ok (uint64 x % 2 ^ 32, ((pre.length + 1 + sovCommon (uint64 x) : Nat) : Int)) := by
    have := readVarint_encode 32 (uint64 x) (pre ++ [(0x8 : Byte)]) post (uint64_lt x)
    simpa using this
  rw [Point.unmarshalLoop, if_pos hlt, htag]
  simp only
  rw [if_neg (by decide), if_neg (by decide), if_pos (by decide), if_neg (by decide), hval]
  simp only
  rw [int32_uint64 x hx]

/-- One turn of the loop of `Point.Unmarshal` on the field `LineNumber`. -/
theorem Point_unmarshalLoop_field2 (pre post : List Byte) (x : Int) (hx : fitsInt32 x)
    (m : Point) (f : Nat) :
    Point.unmarshalLoop (pre ++ ((0x10 : Byte) :: encodeVarintCommon (uint64 x)) ++ post) (f + 1)
        (pre.length : Int) m =
      Point.unmarshalLoop (pre ++ ((0x10 : Byte) :: encodeVarintCommon (uint64 x)) ++ post) f
        ((pre.length + 1 + sovCommon (uint64 x) : Nat) : Int) { m with LineNumber := x } := by
  have hlt : (pre.length : Int) <
      ((pre ++ ((0x10 : Byte) :: encodeVarintCommon (uint64 x)) ++ post).length : Int) := by
    simp only [List.length_append, List.length_cons]
    omega
  have htag : readVarint 64 (pre ++ ((0x10 : Byte) :: encodeVarintCommon (uint64 x)) ++ post)
      (pre.length : Int) = Outcome.ok (16, ((pre.length + 1 : Nat) : Int)) := by
    have := readVarint_byte 64 16 pre (encodeVarintCommon (uint64 x) ++ post) (by omega)
    simpa using this
  have hval : readVarint 32 (pre ++ ((0x10 : Byte) :: encodeVarintCommon (uint64 x)) ++ post)
      ((pre.length + 1 : Nat) : Int) =
      Outcome.ok (uint64 x % 2 ^ 32, ((pre.length + 1 + sovCommon (uint64 x) : Nat) : Int)) := by
    have := readVarint_encode 32 (uint64 x) (pre ++ [(0x10 : Byte)]) post (uint64_lt x)
    simpa using this
  rw [Point.unmarshalLoop, if_pos hlt, htag]
  simp only
  rw [if_neg (by decide), if_neg (by decide), if_neg (by decide), if_pos (by decide),
    if_neg (by decide), hval]
  simp only
  rw [int32_uint64 x hx]

/-- One turn of the loop of `Point.Unmarshal` on the field `ColumnOffset`. -/
theorem Point_unmarshalLoop_field3 (pre post : List Byte) (x : Int) (hx : fitsInt32 x)
    (m : Point) (f : Nat) :
    Point.unmarshalLoop (pre ++ ((0x18 : Byte) :: encodeVarintCommon (uint64 x)) ++ post) (f + 1)
        (pre.length : Int) m =
      Point.unmarshalLoop (pre ++ ((0x18 : Byte) :: encodeVarintCommon (uint64 x)) ++ post) f
        ((pre.length + 1 + sovCommon (uint64 x) : Nat) : Int) { m with ColumnOffset := x } := by
  have hlt : (pre.length : Int) <
      ((pre ++ ((0x18 : Byte) :: encodeVarintCommon (uint64 x)) ++ post).length : Int) := by
    simp only [List.length_append, List.length_cons]
    omega
  have htag : readVarint 64 (pre ++ ((0x18 : Byte) :: encodeVarintCommon (uint64 x)) ++ post)
      (pre.length : Int) = Outcome.ok (24, ((pre.length + 1 : Nat) : Int)) := by
    have := readVarint_byte 64 24 pre (encodeVarintCommon (uint64 x) ++ post) (by omega)
    simpa using this
  have hval : readVarint 32 (pre ++ ((0x18 : Byte) :: encodeVarintCommon (uint64 x)) ++ post)
      ((pre.length + 1 : Nat) : Int) =
      Outcome.ok (uint64 x % 2 ^ 32, ((pre.length + 1 + sovCommon (uint64 x) : Nat) : Int)) := by
    have := readVarint_encode 32 (uint64 x) (pre ++ [(0x18 : Byte)]) post (uint64_lt x)
    simpa using this
  rw [Point.unmarshalLoop, if_pos hlt, htag]
  simp only
  rw [if_neg (by decide), if_neg (by decide), if_neg (by decide), if_neg (by decide),
    if_pos (by decide), if_neg (by decide), hval]
  simp only
  rw [int32_uint64 x hx]

/-- The field `ColumnOffset` as `Point.MarshalTo` writes it. -/
theorem Point_unmarshalLoop_from3 (pre : List Byte) (x : Int) (hx : fitsInt32 x) (m : Point)
    (hm : m.ColumnOffset = 0) (f : Nat)
    (hf : (if x ≠ 0 then (0x18 : Byte) :: encodeVarintCommon (uint64 x) else []).length < f) :
    Point.unmarshalLoop
        (pre ++ (if x ≠ 0 then (0x18 : Byte) :: encodeVarintCommon (uint64 x) else []))
        f (pre.length : Int) m =
      Outcome.ok { m with ColumnOffset := x } := by
  by_cases h0 : x = 0
  · subst h0
    obtain ⟨f', rfl⟩ : ∃ f', f = f' + 1 := ⟨f - 1, by omega⟩
    simp only [ne_eq, not_true_eq_false, if_false, List.append_nil]
    rw [Point_unmarshalLoop_end, ← hm]
  · simp only [ne_eq, h0, not_false_eq_true, if_true, List.length_cons] at hf ⊢
    have hpos := encodeVarintCommon_length (uint64 x)
    have hsov := sovCommon_pos (uint64 x)
    obtain ⟨f', rfl⟩ : ∃ f', f = f' + 1 + 1 := ⟨f - 2, by omega⟩
    have hstep := Point_unmarshalLoop_field3 pre [] x hx m (f' + 1)
    simp only [List.append_nil] at hstep
    rw [hstep]
    have hlen : ((pre.length + 1 + sovCommon (uint64 x) : Nat) : Int) =
        ((pre ++ (0x18 : Byte) :: encodeVarintCommon (uint64 x)).length : Int) := by
      simp only [List.length_append, List.length_cons, hpos]
      omega
    rw [hlen, Point_unmarshalLoop_end]

/-- The fields `LineNumber` and `ColumnOffset` as `Point.MarshalTo` writes them. -/
theorem Point_unmarshalLoop_from2 (pre : List Byte) (x y : Int) (hx : fitsInt32 x)
    (hy : fitsInt32 y) (m : Point) (hm2 : m.LineNumber = 0) (hm3 : m.ColumnOffset = 0) (f : Nat)
    (hf : (if x ≠ 0 then (0x10 : Byte) :: encodeVarintCommon (uint64 x) else []).length +
      (if y ≠ 0 then (0x18 : Byte) :: encodeVarintCommon (uint64 y) else []).length < f) :
    Point.unmarshalLoop
        (pre ++ (if x ≠ 0 then (0x10 : Byte) :: encodeVarintCommon (uint64 x) else []) ++
          (if y ≠ 0 then (0x18 : Byte) :: encodeVarintCommon (uint64 y) else []))
        f (pre.length : Int) m =
      Outcome.ok { m with LineNumber := x, ColumnOffset := y } := by
  by_cases h0 : x = 0
  · subst h0
    simp only [ne_eq, not_true_eq_false, if_false, List.append_nil, List.length_nil,
      Nat.zero_add] at hf ⊢
    rw [Point_unmarshalLoop_from3 pre y hy m hm3 f hf, ← hm2]
  · simp only [ne_eq, h0, not_false_eq_true, if_true, List.length_cons] at hf ⊢
    have hpos := encodeVarintCommon_length (uint64 x)
    obtain ⟨f', rfl⟩ : ∃ f', f = f' + 1 := ⟨f - 1, by omega⟩
    rw [Point_unmarshalLoop_field2 pre _ x hx m f']
    have hlen : ((pre.length + 1 + sovCommon (uint64 x) : Nat) : Int) =
        ((pre ++ (0x10 : Byte) :: encodeVarintCommon (uint64 x)).length : Int) := by
      simp only [List.length_append, List.length_cons, hpos]
      omega
    rw [hlen]
    exact Point_unmarshalLoop_from3 _ y hy { m with LineNumber := x } hm3 f'
      (by simp only [ne_eq]; omega)

/-- What `Point.MarshalTo` writes, read back into a point whose fields are 0. -/
theorem Point_unmarshalLoop_from1 (pre : List Byte) (p : Point) (hp : p.isInt32) (f : Nat)
    (hf : p.MarshalTo.length < f) :
    Point.unmarshalLoop (pre ++ p.MarshalTo) f (pre.length : Int) Point.zero = Outcome.ok p := by
  obtain ⟨x, y, z⟩ := p
  obtain ⟨hx, hy, hz⟩ := hp
  simp only at hx hy hz
  unfold Point.MarshalTo at hf ⊢
  simp only [List.length_append] at hf
  simp only
  by_cases h0 : x = 0
  · subst h0
    simp only [ne_eq, not_true_eq_false, if_false, List.nil_append, List.length_nil,
      Nat.zero_add] at hf ⊢
    rw [← List.append_assoc]
    exact Point_unmarshalLoop_from2 pre y z hy hz Point.zero rfl rfl f hf
  · simp only [ne_eq, h0, not_false_eq_true, if_true, List.length_cons] at hf ⊢
    have hpos := encodeVarintCommon_length (uint64 x)
    obtain ⟨f', rfl⟩ : ∃ f', f = f' + 1 := ⟨f - 1, by omega⟩
    have hshape : pre ++ ((0x8 : Byte) :: encodeVarintCommon (uint64 x) ++
          (if y ≠ 0 then (0x10 : Byte) :: encodeVarintCommon (uint64 y) else []) ++
          (if z ≠ 0 then (0x18 : Byte) :: encodeVarintCommon (uint64 z) else [])) =
        pre ++ ((0x8 : Byte) :: encodeVarintCommon (uint64 x)) ++
          ((if y ≠ 0 then (0x10 : Byte) :: encodeVarintCommon (uint64 y) else []) ++
          (if z ≠ 0 then (0x18 : Byte) :: encodeVarintCommon (uint64 z) else [])) := by
      simp
    simp only [ne_eq] at hshape
    rw [hshape, Point_unmarshalLoop_field1 pre _ x hx Point.zero f']
    have hlen : ((pre.length + 1 + sovCommon (uint64 x) : Nat) : Int) =
        ((pre ++ (0x8 : Byte) :: encodeVarintCommon (uint64 x)).length : Int) := by
      simp only [List.length_append, List.length_cons, hpos]
      omega
    rw [hlen, ← List.append_assoc]
    exact Point_unmarshalLoop_from2 _ y z hy hz { Point.zero with ByteOffset := x } rfl rfl f'
      (by simp only [ne_eq]; omega)

/-- The round trip of a point: `Unmarshal` on a fresh point reads back what
`MarshalTo` wrote. -/
theorem Point_Unmarshal_MarshalTo (p : Point) (hp : p.isInt32) :
    Point.Unmarshal Point.zero p.MarshalTo = Outcome.ok p := by
  have h := Point_unmarshalLoop_from1 [] p hp (p.MarshalTo.length + 1) (by omega)
  simpa [Point.Unmarshal] using h

theorem int64_small (n : Nat) (h : n < 2 ^ 63) : int64 n = (n : Int) := by
  unfold int64
  norm_num at h ⊢
  omega

theorem wrap64_small (x : Int) (h0 : 0 ≤ x) (h : x < 2 ^ 63) : wrap64 x = x := by
  unfold wrap64
  norm_num at h ⊢
  omega

/-- The length-delimited point of a `Span` field, as `Span.MarshalTo` writes it
after the tag, read into an unset field. -/
theorem Span_unmarshalPoint_marshal (pre post : List Byte) (p : Point) (hp : p.isInt32)
    (hpre : pre.length < 2 ^ 62) :
    Span.unmarshalPoint (pre ++ (encodeVarintCommon p.Size ++ p.MarshalTo) ++ post)
        (pre.length : Int) none =
      Outcome.ok (p, ((pre.length + 1 + p.Size : Nat) : Int)) := by
  have hsize := Point_Size_le p
  have hlenp := Point_MarshalTo_length p
  have hread : readVarint 64 (pre ++ (encodeVarintCommon p.Size ++ p.MarshalTo) ++ post)
      (pre.length : Int) = Outcome.ok (p.Size, ((pre.length + 1 : Nat) : Int)) := by
    have := readVarint_encode 64 p.Size pre (p.MarshalTo ++ post) (by omega)
    rw [sovCommon_small p.Size (by omega), Nat.mod_eq_of_lt (by omega)] at this
    simpa using this
  have hint : int64 p.Size = (p.Size : Int) := int64_small _ (by omega)
  have hpost : wrap64 (((pre.length + 1 : Nat) : Int) + (p.Size : Int)) =
      ((pre.length + 1 + p.Size : Nat) : Int) := by
    rw [wrap64_small _ (by omega) (by norm_num at hpre ⊢; omega)]
    omega
  have hslice : slice (pre ++ (encodeVarintCommon p.Size ++ p.MarshalTo) ++ post)
      ((pre.length + 1 : Nat) : Int) ((pre.length + 1 + p.Size : Nat) : Int) =
      Outcome.ok p.MarshalTo := by
    unfold slice
    have hl : (pre ++ (encodeVarintCommon p.Size ++ p.MarshalTo) ++ post).length =
        pre.length + 1 + p.Size + post.length := by
      simp only [List.length_append, encodeVarintCommon_length, sovCommon_small p.Size (by omega),
        hlenp]
      omega
    rw [if_neg (by rw [hl]; omega)]
    have h1 : (((pre.length + 1 : Nat) : Int)).toNat = pre.length + 1 := Int.toNat_ofNat _
    have h2 : (((pre.length + 1 + p.Size : Nat) : Int) - ((pre.length + 1 : Nat) : Int)).toNat =
        p.Size := by omega
    rw [h1, h2]
    have hshape : pre ++ (encodeVarintCommon p.Size ++ p.MarshalTo) ++ post =
        (pre ++ encodeVarintCommon p.Size) ++ (p.MarshalTo ++ post) := by simp
    have hdrop : (pre ++ encodeVarintCommon p.Size).length = pre.length + 1 := by
      simp only [List.length_append, encodeVarintCommon_length, sovCommon_small p.Size (by omega)]
    rw [hshape, ← hdrop, List.drop_left, ← hlenp, List.take_left]
  unfold Span.unmarshalPoint
  rw [hread]
  simp only
  rw [hint, if_neg (by omega), hpost]
  rw [if_neg (by
    simp only [List.length_append, encodeVarintCommon_length, sovCommon_small p.Size (by omega),
      hlenp]
    omega)]
  rw [hslice]
  simp only [Option.getD_none]
  rw [Point_Unmarshal_MarshalTo p hp]

theorem Span_unmarshalLoop_end (dAtA : List Byte) (f : Nat) (m : Span) :
    Span.unmarshalLoop dAtA (f + 1) (dAtA.length : Int) m = Outcome.ok m := by
  rw [Span.unmarshalLoop, if_neg (lt_irrefl _), if_neg (lt_irrefl _)]

/-- One turn of the loop of `Span.Unmarshal` on the field `Start`. -/
theorem Span_unmarshalLoop_field1 (pre post : List Byte) (p : Point) (hp : p.isInt32)
    (hpre : pre.length < 2 ^ 61) (m : Span) (hm : m.Start = none) (f : Nat) :
    Span.unmarshalLoop (pre ++ ((0xa : Byte) :: encodeVarintCommon p.Size ++ p.MarshalTo) ++ post)
        (f + 1) (pre.length : Int) m =
      Span.unmarshalLoop (pre ++ ((0xa : Byte) :: encodeVarintCommon p.Size ++ p.MarshalTo) ++ post)
        f ((pre.length + 2 + p.Size : Nat) : Int) { Start := some p, End := m.End } := by
  have hlt : (pre.length : Int) <
      ((pre ++ ((0xa : Byte) :: encodeVarintCommon p.Size ++ p.MarshalTo) ++ post).length : Int) := by
    simp only [List.length_append, List.length_cons]
    omega
  have htag : readVarint 64
      (pre ++ ((0xa : Byte) :: encodeVarintCommon p.Size ++ p.MarshalTo) ++ post)
      (pre.length : Int) = Outcome.ok (10, ((pre.length + 1 : Nat) : Int)) := by
    have := readVarint_byte 64 10 pre (encodeVarintCommon p.Size ++ p.MarshalTo ++ post) (by omega)
    simpa using this
  have hpoint : Span.unmarshalPoint
      (pre ++ ((0xa : Byte) :: encodeVarintCommon p.Size ++ p.MarshalTo) ++ post)
      ((pre.length + 1 : Nat) : Int) none =
      Outcome.ok (p, ((pre.length + 2 + p.Size : Nat) : Int)) := by
    have := Span_unmarshalPoint_marshal (pre ++ [(0xa : Byte)]) post p hp
      (by simp only [List.length_append, List.length_singleton]; norm_num at hpre ⊢; omega)
    simp only [List.length_append, List.length_singleton, List.append_assoc,
      List.singleton_append] at this
    have hidx : ((pre.length + 1 + 1 + p.Size : Nat) : Int) =
        ((pre.length + 2 + p.Size : Nat) : Int) := by omega
    rw [hidx] at this
    simpa using this
  rw [Span.unmarshalLoop, if_pos hlt, htag]
  simp only
  rw [if_neg (by decide), if_neg (by decide), if_pos (by decide), if_neg (by decide), hm, hpoint]

/-- One turn of the loop of `Span.Unmarshal` on the field `End`. -/
theorem Span_unmarshalLoop_field2 (pre post : List Byte) (p : Point) (hp : p.isInt32)
    (hpre : pre.length < 2 ^ 61) (m : Span) (hm : m.End = none) (f : Nat) :
    Span.unmarshalLoop (pre ++ ((0x12 : Byte) :: encodeVarintCommon p.Size ++ p.MarshalTo) ++ post)
        (f + 1) (pre.length : Int) m =
      Span.unmarshalLoop (pre ++ ((0x12 : Byte) :: encodeVarintCommon p.Size ++ p.MarshalTo) ++ post)
        f ((pre.length + 2 + p.Size : Nat) : Int) { Start := m.Start, End := some p } := by
  have hlt : (pre.length : Int) <
      ((pre ++ ((0x12 : Byte) :: encodeVarintCommon p.Size ++ p.MarshalTo) ++ post).length : Int) := by
    simp only [List.length_append, List.length_cons]
    omega
  have htag : readVarint 64
      (pre ++ ((0x12 : Byte) :: encodeVarintCommon p.Size ++ p.MarshalTo) ++ post)
      (pre.length : Int) = Outcome.ok (18, ((pre.length + 1 : Nat) : Int)) := by
    have := readVarint_byte 64 18 pre (encodeVarintCommon p.Size ++ p.MarshalTo ++ post) (by omega)
    simpa using this
  have hpoint : Span.unmarshalPoint
      (pre ++ ((0x12 : Byte) :: encodeVarintCommon p.Size ++ p.MarshalTo) ++ post)
      ((pre.length + 1 : Nat) : Int) none =
      Outcome.ok (p, ((pre.length + 2 + p.Size : Nat) : Int)) := by
    have := Span_unmarshalPoint_marshal (pre ++ [(0x12 : Byte)]) post p hp
      (by simp only [List.length_append, List.length_singleton]; norm_num at hpre ⊢; omega)
    simp only [List.length_append, List.length_singleton, List.append_assoc,
      List.singleton_append] at this
    have hidx : ((pre.length + 1 + 1 + p.Size : Nat) : Int) =
        ((pre.length + 2 + p.Size : Nat) : Int) := by omega
    rw [hidx] at this
    simpa using this
  rw [Span.unmarshalLoop, if_pos hlt, htag]
  simp only
  rw [if_neg (by decide), if_neg (by decide), if_neg (by decide), if_pos (by decide),
    if_neg (by decide), hm, hpoint]

theorem Span_MarshalTo_length (s : Span) : s.MarshalTo.length = s.Size := by
  unfold Span.MarshalTo Span.Size
  simp only [List.length_append]
  congr 1
  · cases s.Start with
    | none => rfl
    | some p =>
      simp only [List.length_cons, List.length_append, encodeVarintCommon_length,
        Point_MarshalTo_length]
      omega
  · cases s.End with
    | none => rfl
    | some p =>
      simp only [List.length_cons, List.length_append, encodeVarintCommon_length,
        Point_MarshalTo_length]
      omega

theorem Span_Marshal_eq (s : Span) : s.Marshal = Outcome.ok s.MarshalTo := by
  unfold Span.Marshal marshalInto
  rw [if_pos (le_of_eq (Span_MarshalTo_length s))]

theorem Point_Marshal_eq (p : Point) : p.Marshal = Outcome.ok p.MarshalTo := by
  unfold Point.Marshal marshalInto
  rw [if_pos (le_of_eq (Point_MarshalTo_length p))]

/-- What `Span.MarshalTo` writes, read back into a fresh span. -/
theorem Span_Unmarshal_MarshalTo (s : Span) (hs : s.isInt32) :
    Span.Unmarshal Span.zero s.MarshalTo = Outcome.ok s := by
  obtain ⟨start, stop⟩ := s
  obtain ⟨h1, h2⟩ := hs
  simp only at h1 h2
  unfold Span.Unmarshal Span.MarshalTo
  cases start with
  | none =>
    cases stop with
    | none =>
      exact Span_unmarshalLoop_end [] 0 Span.zero
    | some q =>
      have hq := h2 q rfl
      have hstep := Span_unmarshalLoop_field2 [] [] q hq (by norm_num) { Start := none, End := none } rfl
        ((0x12 : Byte) :: encodeVarintCommon q.Size ++ q.MarshalTo).length
      simp only [List.nil_append, List.append_nil, List.length_nil, Nat.zero_add] at hstep ⊢
      have hlen : ((2 + q.Size : Nat) : Int) =
          (((0x12 : Byte) :: (encodeVarintCommon q.Size ++ q.MarshalTo)).length : Int) := by
        simp only [List.length_cons, List.length_append, encodeVarintCommon_length,
          sovCommon_small q.Size (by have := Point_Size_le q; omega), Point_MarshalTo_length]
        omega
      rw [hlen] at hstep
      simp only [List.cons_append] at hstep
      erw [hstep]
      exact Span_unmarshalLoop_end _ _ _
  | some p =>
    have hp := h1 p rfl
    have hsp := Point_Size_le p
    cases stop with
    | none =>
      have hstep := Span_unmarshalLoop_field1 [] [] p hp (by norm_num) { Start := none, End := none } rfl
        ((0xa : Byte) :: encodeVarintCommon p.Size ++ p.MarshalTo).length
      simp only [List.nil_append, List.append_nil, List.length_nil, Nat.zero_add] at hstep ⊢
      have hlen : ((2 + p.Size : Nat) : Int) =
          (((0xa : Byte) :: (encodeVarintCommon p.Size ++ p.MarshalTo)).length : Int) := by
        simp only [List.length_cons, List.length_append, encodeVarintCommon_length,
          sovCommon_small p.Size (by omega), Point_MarshalTo_length]
        omega
      rw [hlen] at hstep
      simp only [List.cons_append] at hstep
      erw [hstep]
      exact Span_unmarshalLoop_end _ _ _
    | some q =>
      have hq := h2 q rfl
      have hsq := Point_Size_le q
      have hlen1 : ((0xa : Byte) :: encodeVarintCommon p.Size ++ p.MarshalTo).length =
          2 + p.Size := by
        simp only [List.cons_append, List.length_cons, List.length_append,
          encodeVarintCommon_length, sovCommon_small p.Size (by omega), Point_MarshalTo_length]
        omega
      have hlen2 : ((0x12 : Byte) :: encodeVarintCommon q.Size ++ q.MarshalTo).length =
          2 + q.Size := by
        simp only [List.cons_append, List.length_cons, List.length_append,
          encodeVarintCommon_length, sovCommon_small q.Size (by omega), Point_MarshalTo_length]
        omega
      obtain ⟨f, hf⟩ : ∃ f, (((0xa : Byte) :: encodeVarintCommon p.Size ++ p.MarshalTo) ++
          ((0x12 : Byte) :: encodeVarintCommon q.Size ++ q.MarshalTo)).length + 1 =
          f + 1 + 1 + 1 := by
        rw [List.length_append, hlen1, hlen2]
        exact ⟨p.Size + q.Size + 2, by omega⟩
      have hstep1 := Span_unmarshalLoop_field1 []
        ((0x12 : Byte) :: encodeVarintCommon q.Size ++ q.MarshalTo) p hp (by norm_num)
        { Start := none, End := none } rfl (f + 1 + 1)
      have hstep2 := Span_unmarshalLoop_field2
        ((0xa : Byte) :: encodeVarintCommon p.Size ++ p.MarshalTo) [] q hq
        (by rw [hlen1]; norm_num; omega) { Start := some p, End := none } rfl (f + 1)
      rw [List.append_nil, hlen1] at hstep2
      rw [List.nil_append, List.length_nil, Nat.zero_add, Nat.cast_zero] at hstep1
      have hend := Span_unmarshalLoop_end
        (((0xa : Byte) :: encodeVarintCommon p.Size ++ p.MarshalTo) ++
          ((0x12 : Byte) :: encodeVarintCommon q.Size ++ q.MarshalTo)) f
        { Start := some p, End := some q }
      rw [List.length_append, hlen1, hlen2] at hend
      have hidx : ((2 + p.Size + 2 + q.Size : Nat) : Int) =
          ((2 + p.Size + (2 + q.Size) : Nat) : Int) := by omega
      rw [hidx] at hstep2
      simp only at hstep1 hstep2
      simp only [Span.zero]
      rw [hf, hstep1, hstep2, hend]

theorem markContinuation_cons (d : Nat) (ds : List Nat) (h : ds ≠ []) :
    markContinuation (d :: ds) = Fin.ofNat (d + 128) :: markContinuation ds := by
  cases ds with
  | nil => exact absurd rfl h
  | cons e es => rfl

/-- The loop of `encodeVarintCommon` writes the base-128 varint of its argument. -/
theorem encodeVarintLoop_eq_varintOf (n : Nat) :
    ∀ v, v < 2 ^ (7 * (n + 1)) → encodeVarintLoop n v = varintOf v := by
  induction n with
  | zero =>
    intro v hv
    have hv' : v < 128 := by simpa using hv
    rw [encodeVarintLoop]
    unfold varintOf
    by_cases h0 : v = 0
    · subst h0
      rfl
    · rw [if_neg h0, Nat.digits_def' (by omega) (by omega)]
      have h1 : v / 128 = 0 := by omega
      have h2 : v % 128 = v := by omega
      rw [h1, h2, Nat.digits_zero]
      rfl
  | succ n ih =>
    intro v hv
    rw [encodeVarintLoop_succ]
    by_cases h : 128 ≤ v
    · rw [if_pos h]
      have hv2 : v / 128 < 2 ^ (7 * (n + 1)) := by
        apply Nat.div_lt_of_lt_mul
        have : (2 : Nat) ^ (7 * (n + 1 + 1)) = 128 * 2 ^ (7 * (n + 1)) := by
          rw [show 7 * (n + 1 + 1) = 7 + 7 * (n + 1) by omega, Nat.pow_add]
        omega
      have hpos : 0 < v / 128 := by omega
      rw [ih (v / 128) hv2]
      unfold varintOf
      rw [if_neg (by omega), if_neg (by omega), Nat.digits_def' (by omega) (by omega : 0 < v)]
      rw [markContinuation_cons]
      rw [Nat.digits_def' (by omega) hpos]
      simp
    · rw [if_neg h]
      unfold varintOf
      by_cases h0 : v = 0
      · subst h0
        rfl
      · rw [if_neg h0, Nat.digits_def' (by omega) (by omega)]
        have h1 : v / 128 = 0 := by omega
        have h2 : v % 128 = v := by omega
        rw [h1, h2, Nat.digits_zero]
        rfl

theorem encodeVarintCommon_eq_varintOf (v : Nat) (hv : v < 2 ^ 64) :
    encodeVarintCommon v = varintOf v :=
  encodeVarintLoop_eq_varintOf 9 v
    (lt_of_lt_of_le hv (Nat.pow_le_pow_right (by omega) (by omega)))

theorem uint64_eq_signExtend64 (x : Int) (hx : fitsInt32 x) : uint64 x = signExtend64 x := by
  unfold fitsInt32 at hx
  unfold uint64 signExtend64
  norm_num at hx ⊢
  split <;> omega

theorem uint64_natCast (n : Nat) (h : n < 2 ^ 64) : uint64 (n : Int) = n := by
  unfold uint64
  norm_num at h ⊢
  omega

/-- Reading a length prefix written by `encodeVarintCommon`, when the announced
bytes are there. -/
theorem readLength_encode (dAtA pre post : List Byte) (n : Nat)
    (hd : dAtA = pre ++ encodeVarintCommon n ++ post) (hn : n ≤ post.length)
    (hl : dAtA.length < 2 ^ 63) :
    readLength dAtA (pre.length : Int) =
      Outcome.ok (((pre.length + sovCommon n : Nat) : Int),
        ((pre.length + sovCommon n + n : Nat) : Int)) := by
  have hlen : dAtA.length = pre.length + sovCommon n + post.length := by
    rw [hd]
    simp only [List.length_append, encodeVarintCommon_length]
  have hn63 : n < 2 ^ 63 := by omega
  have hread : readVarint 64 dAtA (pre.length : Int) =
      Outcome.ok (n, ((pre.length + sovCommon n : Nat) : Int)) := by
    have := readVarint_encode 64 n pre post (by norm_num at hn63 ⊢; omega)
    rw [Nat.mod_eq_of_lt (by norm_num at hn63 ⊢; omega)] at this
    rw [hd]
    exact this
  have hint : int64 n = (n : Int) := int64_small _ hn63
  have hpost : wrap64 (((pre.length + sovCommon n : Nat) : Int) + (n : Int)) =
      ((pre.length + sovCommon n + n : Nat) : Int) := by
    rw [wrap64_small _ (by omega) (by norm_num at hl ⊢; omega)]
    omega
  unfold readLength
  rw [hread]
  simp only
  rw [hint, if_neg (by omega), hpost, if_neg (by omega)]

/-- Reading a length-delimited field of bytes written by `encodeVarintCommon` and
`copy`. -/
theorem readField_encode (dAtA pre body post : List Byte)
    (hd : dAtA = pre ++ encodeVarintCommon body.length ++ body ++ post)
    (hl : dAtA.length < 2 ^ 63) :
    readField dAtA (pre.length : Int) =
      Outcome.ok (body, ((pre.length + sovCommon body.length + body.length : Nat) : Int)) := by
  have hlen : dAtA.length = pre.length + sovCommon body.length + body.length + post.length := by
    rw [hd]
    simp only [List.length_append, encodeVarintCommon_length]
  have hrl := readLength_encode dAtA pre (body ++ post) body.length
    (by rw [hd]; simp) (by simp) hl
  have hslice : slice dAtA ((pre.length + sovCommon body.length : Nat) : Int)
      ((pre.length + sovCommon body.length + body.length : Nat) : Int) = Outcome.ok body := by
    unfold slice
    rw [if_neg (by omega)]
    have h1 : (((pre.length + sovCommon body.length : Nat) : Int)).toNat =
        pre.length + sovCommon body.length := Int.toNat_ofNat _
    have h2 : (((pre.length + sovCommon body.length + body.length : Nat) : Int) -
        ((pre.length + sovCommon body.length : Nat) : Int)).toNat = body.length := by omega
    rw [h1, h2]
    have hshape : dAtA = (pre ++ encodeVarintCommon body.length) ++ (body ++ post) := by
      rw [hd]; simp
    have hdrop : (pre ++ encodeVarintCommon body.length).length =
        pre.length + sovCommon body.length := by
      simp only [List.length_append, encodeVarintCommon_length]
    rw [hshape, ← hdrop, List.drop_left, List.take_left]
  unfold readField
  rw [hrl]
  simp only
  rw [hslice]

theorem Fact_unmarshalLoop_end (dAtA : List Byte) (f : Nat) (m : Fact) :
    Fact.unmarshalLoop dAtA (f + 1) (dAtA.length : Int) m = Outcome.ok m := by
  rw [Fact.unmarshalLoop, if_neg (lt_irrefl _), if_neg (lt_irrefl _)]

/-- One turn of the loop of `Fact.Unmarshal` on the field `Name`. -/
theorem Fact_unmarshalLoop_field1 (dAtA pre body post : List Byte)
    (hd : dAtA = pre ++ ((0xa : Byte) :: encodeVarintCommon body.length ++ body) ++ post)
    (hl : dAtA.length < 2 ^ 63) (m : Fact) (f : Nat) :
    Fact.unmarshalLoop dAtA (f + 1) (pre.length : Int) m =
      Fact.unmarshalLoop dAtA f
        ((pre.length + 1 + sovCommon body.length + body.length : Nat) : Int)
        { Name := body, Value := m.Value } := by
  have hlt : (pre.length : Int) < (dAtA.length : Int) := by
    rw [hd]
    simp only [List.length_append, List.length_cons]
    omega
  have htag : readVarint 64 dAtA (pre.length : Int) =
      Outcome.ok (10, ((pre.length + 1 : Nat) : Int)) := by
    have := readVarint_byte 64 10 pre (encodeVarintCommon body.length ++ body ++ post)
      (by omega)
    rw [hd]
    simpa using this
  have hfield := readField_encode dAtA (pre ++ [(0xa : Byte)]) body post (by rw [hd]; simp) hl
  rw [List.length_append, List.length_singleton] at hfield
  rw [Fact.unmarshalLoop, if_pos hlt, htag]
  simp only
  rw [if_neg (by decide), if_neg (by decide), if_pos (by decide), if_neg (by decide), hfield]

/-- One turn of the loop of `Fact.Unmarshal` on the field `Value`. -/
theorem Fact_unmarshalLoop_field2 (dAtA pre body post : List Byte)
    (hd : dAtA = pre ++ ((0x12 : Byte) :: encodeVarintCommon body.length ++ body) ++ post)
    (hl : dAtA.length < 2 ^ 63) (m : Fact) (f : Nat) :
    Fact.unmarshalLoop dAtA (f + 1) (pre.length : Int) m =
      Fact.unmarshalLoop dAtA f
        ((pre.length + 1 + sovCommon body.length + body.length : Nat) : Int)
        { Name := m.Name, Value := some body } := by
  have hlt : (pre.length : Int) < (dAtA.length : Int) := by
    rw [hd]
    simp only [List.length_append, List.length_cons]
    omega
  have htag : readVarint 64 dAtA (pre.length : Int) =
      Outcome.ok (18, ((pre.length + 1 : Nat) : Int)) := by
    have := readVarint_byte 64 18 pre (encodeVarintCommon body.length ++ body ++ post)
      (by omega)
    rw [hd]
    simpa using this
  have hfield := readField_encode dAtA (pre ++ [(0x12 : Byte)]) body post (by rw [hd]; simp) hl
  rw [List.length_append, List.length_singleton] at hfield
  rw [Fact.unmarshalLoop, if_pos hlt, htag]
  simp only
  rw [if_neg (by decide), if_neg (by decide), if_neg (by decide), if_pos (by decide),
    if_neg (by decide), hfield]

theorem Fact_MarshalTo_length (m : Fact) : m.MarshalTo.length = m.Size := by
  unfold Fact.MarshalTo Fact.Size
  split_ifs <;>
    simp only [List.length_append, List.length_cons, List.length_nil, encodeVarintCommon_length] <;>
    omega

theorem Fact_Marshal_eq (m : Fact) : m.Marshal = Outcome.ok m.MarshalTo := by
  unfold Fact.Marshal marshalInto
  rw [if_pos (le_of_eq (Fact_MarshalTo_length m))]

/-- Decoding what `Fact.MarshalTo` wrote, into any receiver: the name is the name
written when there was one; the value is the non-nil slice of the bytes written
when there were any; a field that was not written is left alone. -/
theorem Fact_Unmarshal_MarshalTo (m r : Fact) (hm : m.Size < 2 ^ 63) :
    Fact.Unmarshal r m.MarshalTo =
      Outcome.ok { Name := if m.Name.length > 0 then m.Name else r.Name,
                   Value := if (bytesOf m.Value).length > 0 then some (bytesOf m.Value)
                            else r.Value } := by
  have hlen := Fact_MarshalTo_length m
  have hl : m.MarshalTo.length < 2 ^ 63 := by rw [hlen]; exact hm
  have hN : uint64 (m.Name.length : Int) = m.Name.length := by
    apply uint64_natCast
    unfold Fact.Size at hm
    split_ifs at hm <;> norm_num at hm ⊢ <;> omega
  have hV : uint64 ((bytesOf m.Value).length : Int) = (bytesOf m.Value).length := by
    apply uint64_natCast
    unfold Fact.Size at hm
    split_ifs at hm <;> norm_num at hm ⊢ <;> omega
  have hsN := sovCommon_pos m.Name.length
  have hsV := sovCommon_pos (bytesOf m.Value).length
  unfold Fact.Unmarshal
  generalize hd : m.MarshalTo = dAtA at hlen hl ⊢
  unfold Fact.MarshalTo at hd
  unfold Fact.Size at hlen
  rw [hN, hV] at hd hlen
  by_cases hn : m.Name.length > 0 <;> by_cases hv : (bytesOf m.Value).length > 0
  · rw [if_pos hn, if_pos hv] at hd hlen ⊢
    obtain ⟨f, hf⟩ : ∃ f, dAtA.length + 1 = f + 1 + 1 + 1 := ⟨dAtA.length - 2, by omega⟩
    rw [hf]
    have s1 := Fact_unmarshalLoop_field1 dAtA [] m.Name
      ((0x12 : Byte) :: encodeVarintCommon (bytesOf m.Value).length ++ bytesOf m.Value)
      (by rw [← hd]; simp) hl r (f + 1 + 1)
    have s2 := Fact_unmarshalLoop_field2 dAtA
      ((0xa : Byte) :: encodeVarintCommon m.Name.length ++ m.Name) (bytesOf m.Value) []
      (by rw [← hd]; simp) hl { Name := m.Name, Value := r.Value } (f + 1)
    have e1 : ((([] : List Byte).length + 1 + sovCommon m.Name.length + m.Name.length : Nat) : Int)
        = ((((0xa : Byte) :: encodeVarintCommon m.Name.length ++ m.Name).length : Nat) : Int) := by
      simp only [List.length_append, List.length_cons, List.length_nil,
        encodeVarintCommon_length]
      omega
    have e2 : (((((0xa : Byte) :: encodeVarintCommon m.Name.length ++ m.Name).length + 1 +
        sovCommon (bytesOf m.Value).length + (bytesOf m.Value).length : Nat) : Nat) : Int) =
        (dAtA.length : Int) := by
      simp only [List.length_append, List.length_cons, List.length_nil,
        encodeVarintCommon_length]
      omega
    rw [e1] at s1
    rw [e2] at s2
    have s0 : Fact.unmarshalLoop dAtA (f + 1 + 1 + 1) ((([] : List Byte).length : Nat) : Int) r =
        Fact.unmarshalLoop dAtA (f + 1 + 1 + 1) 0 r := by simp
    rw [← s0, s1, s2, Fact_unmarshalLoop_end]
  · rw [if_pos hn, if_neg hv] at hd hlen ⊢
    obtain ⟨f, hf⟩ : ∃ f, dAtA.length + 1 = f + 1 + 1 := ⟨dAtA.length - 1, by omega⟩
    rw [hf]
    have s1 := Fact_unmarshalLoop_field1 dAtA [] m.Name []
      (by rw [← hd]; simp) hl r (f + 1)
    have e1 : ((([] : List Byte).length + 1 + sovCommon m.Name.length + m.Name.length : Nat) : Int)
        = (dAtA.length : Int) := by
      simp only [List.length_nil]
      omega
    rw [e1] at s1
    have s0 : Fact.unmarshalLoop dAtA (f + 1 + 1) ((([] : List Byte).length : Nat) : Int) r =
        Fact.unmarshalLoop dAtA (f + 1 + 1) 0 r := by simp
    rw [← s0, s1, Fact_unmarshalLoop_end]
  · rw [if_neg hn, if_pos hv] at hd hlen ⊢
    obtain ⟨f, hf⟩ : ∃ f, dAtA.length + 1 = f + 1 + 1 := ⟨dAtA.length - 1, by omega⟩
    rw [hf]
    have s1 := Fact_unmarshalLoop_field2 dAtA [] (bytesOf m.Value) []
      (by rw [← hd]; simp) hl r (f + 1)
    have e1 : ((([] : List Byte).length + 1 + sovCommon (bytesOf m.Value).length +
        (bytesOf m.Value).length : Nat) : Int) = (dAtA.length : Int) := by
      simp only [List.length_nil]
      omega
    rw [e1] at s1
    have s0 : Fact.unmarshalLoop dAtA (f + 1 + 1) ((([] : List Byte).length : Nat) : Int) r =
        Fact.unmarshalLoop dAtA (f + 1 + 1) 0 r := by simp
    rw [← s0, s1, Fact_unmarshalLoop_end]
  · rw [if_neg hn, if_neg hv] at hd hlen ⊢
    have h0 : dAtA = [] := by rw [← hd]; rfl
    subst h0
    rfl

/-- `readVarint_byte`, with the index given as an integer. -/
theorem readVarint_byte_at (bits t : Nat) (dAtA pre rest : List Byte) (i : Int)
    (hd : dAtA = pre ++ (Fin.ofNat t : Byte) :: rest) (hi : i = (pre.length : Int))
    (ht : t < 128) :
    readVarint bits dAtA i = Outcome.ok (t % 2 ^ bits, i + 1) := by
  rw [hd, hi, readVarint_byte bits t pre rest ht]
  simp

/-- `readLength_encode`, with the index given as an integer. -/
theorem readLength_at (dAtA pre post : List Byte) (n : Nat) (i : Int)
    (hd : dAtA = pre ++ encodeVarintCommon n ++ post) (hi : i = (pre.length : Int))
    (hn : n ≤ post.length) (hl : dAtA.length < 2 ^ 63) :
    readLength dAtA i =
      Outcome.ok (i + (sovCommon n : Int), i + (sovCommon n : Int) + (n : Int)) := by
  rw [hi, readLength_encode dAtA pre post n hd hn hl]
  simp

/-- `readField_encode`, with the index given as an integer. -/
theorem readField_at (dAtA pre body post : List Byte) (i : Int)
    (hd : dAtA = pre ++ encodeVarintCommon body.length ++ body ++ post)
    (hi : i = (pre.length : Int)) (hl : dAtA.length < 2 ^ 63) :
    readField dAtA i =
      Outcome.ok (body, i + (sovCommon body.length : Int) + (body.length : Int)) := by
  rw [hi, readField_encode dAtA pre body post hd hl]
  simp

theorem bytesOf_storedValue (v : Option (List Byte)) : bytesOf (storedValue v) = bytesOf v := by
  unfold storedValue
  split_ifs with h
  · rfl
  · exact (List.length_eq_zero.mp (by omega)).symm

theorem marshalEntry_length (k : List Byte) (v : Option (List Byte)) :
    (marshalEntry k v).length =
      mapEntrySize k v + 1 + sovCommon (uint64 (mapEntrySize k v)) := by
  unfold marshalEntry mapEntrySize
  split_ifs <;>
    simp only [List.length_append, List.length_cons, List.length_nil, encodeVarintCommon_length] <;>
    omega

/-- The entry that `marshalEntry` wrote after the tag of the field `Facts`, read
back by the body of case 2 of `NodeInfo.Unmarshal`. -/
theorem NodeInfo_unmarshalEntry_marshal (dAtA pre post : List Byte) (k : List Byte)
    (v : Option (List Byte)) (i : Int)
    (hd : dAtA = pre ++ marshalEntry k v ++ post) (hi : i = (pre.length : Int) + 1)
    (hl : dAtA.length < 2 ^ 63) :
    NodeInfo.unmarshalEntry dAtA i =
      Outcome.ok ((k, storedValue v), i + ((marshalEntry k v).length : Int) - 1) := by
  have hlen : dAtA.length = pre.length + (marshalEntry k v).length + post.length := by
    rw [hd]; simp only [List.length_append]
  have hel := marshalEntry_length k v
  have hK : uint64 (k.length : Int) = k.length := by
    apply uint64_natCast
    unfold mapEntrySize at hel
    norm_num at hl ⊢
    omega
  have hV : uint64 ((bytesOf v).length : Int) = (bytesOf v).length := by
    apply uint64_natCast
    unfold mapEntrySize at hel
    split_ifs at hel <;> norm_num at hl ⊢ <;> omega
  have hS : uint64 (mapEntrySize k v : Int) = mapEntrySize k v := by
    apply uint64_natCast
    norm_num at hl ⊢
    omega
  rw [hS] at hel
  have hsz : mapEntrySize k v = 1 + k.length + sovCommon k.length +
      (if (bytesOf v).length > 0 then 1 + (bytesOf v).length + sovCommon (bytesOf v).length
       else 0) := by
    unfold mapEntrySize
    rw [hK, hV]
  have hme : marshalEntry k v = (0x12 : Byte) :: encodeVarintCommon (mapEntrySize k v) ++
      ((0xa : Byte) :: encodeVarintCommon k.length ++ k) ++
      (if (bytesOf v).length > 0 then
        (0x12 : Byte) :: encodeVarintCommon (bytesOf v).length ++ bytesOf v else []) := by
    unfold marshalEntry
    rw [hS, hK, hV]
  generalize hsize : mapEntrySize k v = size at hel hsz hme
  generalize hvp : (if (bytesOf v).length > 0 then
        (0x12 : Byte) :: encodeVarintCommon (bytesOf v).length ++ bytesOf v else []) = valpart
    at hme
  have hvl : valpart.length = (if (bytesOf v).length > 0 then
      1 + (bytesOf v).length + sovCommon (bytesOf v).length else 0) := by
    rw [← hvp]
    split_ifs
    · simp only [List.length_append, List.length_cons, encodeVarintCommon_length]
      omega
    · rfl
  rw [hme] at hd
  have r1 := readLength_at dAtA (pre ++ [(0x12 : Byte)])
    (((0xa : Byte) :: encodeVarintCommon k.length ++ k) ++ valpart ++ post) size i
    (by rw [hd]; simp) (by rw [hi]; simp only [List.length_append, List.length_cons, List.length_nil, encodeVarintCommon_length]; push_cast; ring)
    (by simp only [List.length_append, List.length_cons, encodeVarintCommon_length]; omega) hl
  have r2 := readVarint_byte_at 64 10 dAtA (pre ++ [(0x12 : Byte)] ++ encodeVarintCommon size)
    (encodeVarintCommon k.length ++ k ++ valpart ++ post) (i + (sovCommon size : Int))
    (by rw [hd]; simp; rfl) (by rw [hi]; simp only [List.length_append, List.length_cons, List.length_nil, encodeVarintCommon_length]; push_cast; ring) (by omega)
  have r3 := readField_at dAtA
    (pre ++ [(0x12 : Byte)] ++ encodeVarintCommon size ++ [(0xa : Byte)]) k (valpart ++ post)
    (i + (sovCommon size : Int) + 1)
    (by rw [hd]; simp) (by rw [hi]; simp only [List.length_append, List.length_cons, List.length_nil, encodeVarintCommon_length]; push_cast; ring) hl
  unfold NodeInfo.unmarshalEntry
  rw [r1]
  simp only
  rw [r2]
  simp only
  rw [r3]
  simp only
  by_cases hv : (bytesOf v).length > 0
  · rw [if_pos hv] at hsz hvl
    rw [if_pos hv] at hvp
    rw [if_pos (by omega)]
    have r4 := readVarint_byte_at 64 18 dAtA
      (pre ++ [(0x12 : Byte)] ++ encodeVarintCommon size ++ [(0xa : Byte)] ++
        encodeVarintCommon k.length ++ k)
      (encodeVarintCommon (bytesOf v).length ++ bytesOf v ++ post)
      (i + (sovCommon size : Int) + 1 + (sovCommon k.length : Int) + (k.length : Int))
      (by rw [hd, ← hvp]; simp; rfl) (by rw [hi]; simp only [List.length_append, List.length_cons, List.length_nil, encodeVarintCommon_length]; push_cast; ring) (by omega)
    have r5 := readField_at dAtA
      (pre ++ [(0x12 : Byte)] ++ encodeVarintCommon size ++ [(0xa : Byte)] ++
        encodeVarintCommon k.length ++ k ++ [(0x12 : Byte)]) (bytesOf v) post
      (i + (sovCommon size : Int) + 1 + (sovCommon k.length : Int) + (k.length : Int) + 1)
      (by rw [hd, ← hvp]; simp) (by rw [hi]; simp only [List.length_append, List.length_cons, List.length_nil, encodeVarintCommon_length]; push_cast; ring) hl
    rw [r4]
    simp only
    rw [r5]
    simp only
    unfold storedValue
    rw [if_pos hv]
    congr 2
    omega
  · rw [if_neg hv] at hsz hvl
    rw [if_neg (by omega)]
    unfold storedValue
    rw [if_neg hv]
    congr 2
    omega

theorem NodeInfo_unmarshalLoop_end (dAtA : List Byte) (f : Nat) (m : NodeInfo) :
    NodeInfo.unmarshalLoop dAtA (f + 1) (dAtA.length : Int) m = Outcome.ok m := by
  rw [NodeInfo.unmarshalLoop, if_neg (lt_irrefl _), if_neg (lt_irrefl _)]

/-- One turn of the loop of `NodeInfo.Unmarshal` on an entry of the field
`Facts`. -/
theorem NodeInfo_unmarshalLoop_entry (dAtA pre post : List Byte) (k : List Byte)
    (v : Option (List Byte)) (i : Int)
    (hd : dAtA = pre ++ marshalEntry k v ++ post) (hi : i = (pre.length : Int))
    (hl : dAtA.length < 2 ^ 63) (m : NodeInfo) (f : Nat) :
    NodeInfo.unmarshalLoop dAtA (f + 1) i m =
      NodeInfo.unmarshalLoop dAtA f (i + ((marshalEntry k v).length : Int))
        { Facts := storeEntries m.Facts [(k, storedValue v)], Definition := m.Definition } := by
  have hpos : 1 ≤ (marshalEntry k v).length := by rw [marshalEntry_length]; omega
  have hlt : i < (dAtA.length : Int) := by
    rw [hd, hi]
    simp only [List.length_append]
    omega
  have htag : readVarint 64 dAtA i = Outcome.ok (18, i + 1) := by
    have := readVarint_byte_at 64 18 dAtA pre
      (encodeVarintCommon (uint64 (mapEntrySize k v)) ++
        ((0xa : Byte) :: encodeVarintCommon (uint64 k.length) ++ k) ++
        (if (bytesOf v).length > 0 then
          (0x12 : Byte) :: encodeVarintCommon (uint64 (bytesOf v).length) ++ bytesOf v
         else []) ++ post) i
      (by rw [hd]; unfold marshalEntry; simp; rfl) hi (by omega)
    simpa using this
  have hentry := NodeInfo_unmarshalEntry_marshal dAtA pre post k v (i + 1) hd (by rw [hi]) hl
  rw [NodeInfo.unmarshalLoop, if_pos hlt, htag]
  simp only
  rw [if_neg (by decide), if_neg (by decide), if_pos (by decide), if_neg (by decide), hentry]
  simp only
  have e : i + 1 + ((marshalEntry k v).length : Int) - 1 =
      i + ((marshalEntry k v).length : Int) := by ring
  rw [e]
  rfl

/-- One turn of the loop of `NodeInfo.Unmarshal` on the field `Definition`. -/
theorem NodeInfo_unmarshalLoop_field5 (dAtA pre body post : List Byte) (i : Int)
    (hd : dAtA = pre ++ ((0x2a : Byte) :: encodeVarintCommon body.length ++ body) ++ post)
    (hi : i = (pre.length : Int))
    (hl : dAtA.length < 2 ^ 63) (m : NodeInfo) (f : Nat) :
    NodeInfo.unmarshalLoop dAtA (f + 1) i m =
      NodeInfo.unmarshalLoop dAtA f
        (i + 1 + (sovCommon body.length : Int) + (body.length : Int))
        { Facts := m.Facts, Definition := body } := by
  have hlt : i < (dAtA.length : Int) := by
    rw [hd, hi]
    simp only [List.length_append, List.length_cons]
    omega
  have htag : readVarint 64 dAtA i = Outcome.ok (42, i + 1) := by
    have := readVarint_byte_at 64 42 dAtA pre (encodeVarintCommon body.length ++ body ++ post) i
      (by rw [hd]; simp; rfl) hi (by omega)
    simpa using this
  have hfield := readField_at dAtA (pre ++ [(0x2a : Byte)]) body post (i + 1)
    (by rw [hd]; simp) (by rw [hi]; simp) hl
  rw [NodeInfo.unmarshalLoop, if_pos hlt, htag]
  simp only
  rw [if_neg (by decide), if_neg (by decide), if_neg (by decide), if_pos (by decide),
    if_neg (by decide), hfield]

/-- The turns of the loop of `NodeInfo.Unmarshal` on the entries that
`NodeInfo.MarshalTo` wrote for the keys `order`. -/
theorem NodeInfo_unmarshalLoop_entries (dAtA : List Byte)
    (g : List Byte → Option (List Byte)) (hl : dAtA.length < 2 ^ 63) :
    ∀ (order : List (List Byte)) (pre post : List Byte) (i : Int) (m : NodeInfo) (f : Nat),
      dAtA = pre ++ (order.flatMap fun k => marshalEntry k (g k)) ++ post →
      i = (pre.length : Int) →
      NodeInfo.unmarshalLoop dAtA (f + order.length) i m =
        NodeInfo.unmarshalLoop dAtA f
          (i + (((order.flatMap fun k => marshalEntry k (g k)).length : Nat) : Int))
          { Facts := storeEntries m.Facts (order.map fun k => (k, storedValue (g k))),
            Definition := m.Definition } := by
  intro order
  induction order with
  | nil =>
    intro pre post i m f _ _
    simp [storeEntries]
  | cons k ks ih =>
    intro pre post i m f hd hi
    have hstep := NodeInfo_unmarshalLoop_entry dAtA pre
      ((ks.flatMap fun k => marshalEntry k (g k)) ++ post) k (g k) i
      (by rw [hd]; simp) hi hl m (f + ks.length)
    have hrest := ih (pre ++ marshalEntry k (g k)) post (i + ((marshalEntry k (g k)).length : Int))
      { Facts := storeEntries m.Facts [(k, storedValue (g k))], Definition := m.Definition } f
      (by rw [hd]; simp) (by rw [hi]; simp)
    rw [List.length_cons, ← Nat.add_assoc, hstep, hrest]
    congr 1
    · simp only [List.flatMap_cons, List.length_append]
      push_cast
      ring

theorem FactsMap_set_absent (m : FactsMap) (k : List Byte) (v : Option (List Byte))
    (hk : k ∉ m.map Prod.fst) : FactsMap.set m k v = m ++ [(k, v)] := by
  unfold FactsMap.set
  rw [if_neg]
  intro h
  rw [List.any_eq_true] at h
  obtain ⟨e, he, hek⟩ := h
  exact hk (List.mem_map.mpr ⟨e, he, of_decide_eq_true hek⟩)

/-- Storing entries of distinct keys, none of them in the map, appends them. -/
theorem storeEntries_fresh (es : List (List Byte × Option (List Byte))) :
    ∀ facts : Option FactsMap, ((facts.getD []).map Prod.fst ++ es.map Prod.fst).Nodup →
      (storeEntries facts es).getD [] = facts.getD [] ++ es := by
  induction es with
  | nil =>
    intro facts _
    simp [storeEntries]
  | cons e es ih =>
    intro facts hnd
    have hk : e.1 ∉ (facts.getD []).map Prod.fst := by
      intro h
      have := List.disjoint_of_nodup_append hnd
      exact this h (by simp)
    have hstep : storeEntries facts (e :: es) =
        storeEntries (some (FactsMap.set (facts.getD []) e.1 e.2)) es := rfl
    rw [hstep, ih, FactsMap_set_absent _ _ _ hk]
    · simp
    · rw [FactsMap_set_absent _ _ _ hk]
      simp only [Option.getD_some, List.map_append, List.map_cons, List.map_nil,
        List.append_assoc, List.singleton_append]
      simpa using hnd

theorem FactsMap_get_map (h : List Byte → Option (List Byte)) (order : List (List Byte))
    (k : List Byte) :
    FactsMap.get (order.map fun k => (k, h k)) k = if k ∈ order then h k else none := by
  induction order with
  | nil => rfl
  | cons a as ih =>
    unfold FactsMap.get at ih ⊢
    rw [List.map_cons, List.find?_cons]
    by_cases hak : a = k
    · subst hak
      simp
    · have : decide (a = k) = false := decide_eq_false hak
      simp only [this]
      rw [ih]
      have hka : ¬ k = a := fun h => hak h.symm
      simp [hka]

/-- In a map, the read of the key of an entry is the value of the entry. -/
theorem FactsMap_get_of_mem (m : FactsMap) (hm : (m.map Prod.fst).Nodup)
    (e : List Byte × Option (List Byte)) (he : e ∈ m) : FactsMap.get m e.1 = e.2 := by
  induction m with
  | nil => cases he
  | cons a as ih =>
    rw [List.map_cons, List.nodup_cons] at hm
    unfold FactsMap.get at ih ⊢
    rw [List.find?_cons]
    by_cases hae : a.1 = e.1
    · have : decide (a.1 = e.1) = true := decide_eq_true hae
      simp only [this]
      rcases List.mem_cons.mp he with h | h
      · rw [h]
      · exact absurd (List.mem_map.mpr ⟨e, h, hae.symm⟩) hm.1
    · have : decide (a.1 = e.1) = false := decide_eq_false hae
      simp only [this]
      rcases List.mem_cons.mp he with h | h
      · exact absurd (by rw [h]) hae
      · exact ih hm.2 h

/-- The read of a key that no entry has is the nil slice. -/
theorem FactsMap_get_of_not_mem (m : FactsMap) (k : List Byte) (hk : k ∉ m.map Prod.fst) :
    FactsMap.get m k = none := by
  unfold FactsMap.get
  rw [List.find?_eq_none.mpr]
  intro e he hek
  exact hk (List.mem_map.mpr ⟨e, he, of_decide_eq_true hek⟩)

theorem NodeInfo_MarshalTo_length (m : NodeInfo) (order : List (List Byte))
    (hm : (m.entries.map Prod.fst).Nodup) (hperm : order.Perm (m.entries.map Prod.fst)) :
    (m.MarshalTo order).length = m.Size := by
  unfold NodeInfo.MarshalTo NodeInfo.Size
  have h1 : (order.flatMap fun k => marshalEntry k (m.entries.get k)).length =
      (m.entries.map fun e =>
        mapEntrySize e.1 e.2 + 1 + sovCommon (uint64 (mapEntrySize e.1 e.2))).sum := by
    rw [List.length_flatMap]
    have h2 := (hperm.map (List.length ∘ fun k => marshalEntry k (m.entries.get k))).sum_eq
    rw [h2, List.map_map]
    congr 1
    apply List.map_congr_left
    intro e he
    simp only [Function.comp]
    rw [FactsMap_get_of_mem m.entries hm e he, marshalEntry_length]
  rw [List.length_append, h1]
  congr 1
  split_ifs
  · simp only [List.length_append, List.length_cons, encodeVarintCommon_length]
    omega
  · rfl

theorem NodeInfo_Marshal_eq (m : NodeInfo) (order : List (List Byte))
    (hm : (m.entries.map Prod.fst).Nodup) (hperm : order.Perm (m.entries.map Prod.fst)) :
    m.Marshal order = Outcome.ok (m.MarshalTo order) := by
  unfold NodeInfo.Marshal marshalInto
  rw [if_pos (le_of_eq (NodeInfo_MarshalTo_length m order hm hperm))]

theorem length_flatMap_marshalEntry_ge (g : List Byte → Option (List Byte))
    (order : List (List Byte)) :
    order.length ≤ (order.flatMap fun k => marshalEntry k (g k)).length := by
  induction order with
  | nil => simp
  | cons k ks ih =>
    have := marshalEntry_length k (g k)
    simp only [List.flatMap_cons, List.length_append, List.length_cons]
    omega

/-- Decoding what `NodeInfo.MarshalTo` wrote for the iteration order `order`, into
a fresh `NodeInfo`: the entries are stored in the order written. -/
theorem NodeInfo_Unmarshal_MarshalTo (m : NodeInfo) (order : List (List Byte))
    (hl : (m.MarshalTo order).length < 2 ^ 63) :
    NodeInfo.Unmarshal NodeInfo.zero (m.MarshalTo order) =
      Outcome.ok
        { Facts := storeEntries none
            (order.map fun k => (k, storedValue (m.entries.get k))),
          Definition := m.Definition } := by
  unfold NodeInfo.Unmarshal
  generalize hd : m.MarshalTo order = dAtA at hl ⊢
  unfold NodeInfo.MarshalTo at hd
  have hge := length_flatMap_marshalEntry_ge (fun k => m.entries.get k) order
  have hsD := sovCommon_pos m.Definition.length
  by_cases hdef : m.Definition.length > 0
  · rw [if_pos hdef] at hd
    have hlen : dAtA.length = (order.flatMap fun k => marshalEntry k (m.entries.get k)).length +
        (1 + sovCommon (uint64 m.Definition.length) + m.Definition.length) := by
      rw [← hd]
      simp only [List.length_append, List.length_cons, encodeVarintCommon_length]
      omega
    have hD : uint64 (m.Definition.length : Int) = m.Definition.length := by
      apply uint64_natCast
      norm_num at hl ⊢
      omega
    rw [hD] at hd hlen
    obtain ⟨f, hf⟩ : ∃ f, dAtA.length + 1 = f + 1 + 1 + order.length :=
      ⟨dAtA.length - 1 - order.length, by omega⟩
    rw [hf]
    have s1 := NodeInfo_unmarshalLoop_entries dAtA (fun k => m.entries.get k) hl order []
      ((0x2a : Byte) :: encodeVarintCommon m.Definition.length ++ m.Definition) 0 NodeInfo.zero
      (f + 1 + 1) (by rw [← hd]; simp) (by simp)
    have s2 := NodeInfo_unmarshalLoop_field5 dAtA
      (order.flatMap fun k => marshalEntry k (m.entries.get k)) m.Definition []
      (0 + (((order.flatMap fun k => marshalEntry k (m.entries.get k)).length : Nat) : Int))
      (by rw [← hd]; simp) (by simp) hl
      { Facts := storeEntries NodeInfo.zero.Facts
          (order.map fun k => (k, storedValue (m.entries.get k))),
        Definition := NodeInfo.zero.Definition } (f + 1)
    have e : (0 + (((order.flatMap fun k => marshalEntry k (m.entries.get k)).length : Nat) : Int))
        + 1 + (sovCommon m.Definition.length : Int) + (m.Definition.length : Int) =
        (dAtA.length : Int) := by
      rw [hlen]
      push_cast
      ring
    rw [e] at s2
    rw [s1, s2, NodeInfo_unmarshalLoop_end]
    rfl
  · rw [if_neg hdef] at hd
    have hlen : dAtA.length = (order.flatMap fun k => marshalEntry k (m.entries.get k)).length := by
      rw [← hd]
      simp
    obtain ⟨f, hf⟩ : ∃ f, dAtA.length + 1 = f + 1 + order.length :=
      ⟨dAtA.length - order.length, by omega⟩
    rw [hf]
    have s1 := NodeInfo_unmarshalLoop_entries dAtA (fun k => m.entries.get k) hl order []
      [] 0 NodeInfo.zero (f + 1) (by rw [← hd]; simp) (by simp)
    have e : (0 + (((order.flatMap fun k => marshalEntry k (m.entries.get k)).length : Nat) : Int))
        = (dAtA.length : Int) := by
      rw [hlen]
      simp
    rw [e] at s1
    rw [s1, NodeInfo_unmarshalLoop_end]
    have h0 : m.Definition = [] := List.length_eq_zero.mp (by omega)
    rw [h0]
    rfl

/-- A varint can only be read at an index inside the input. -/
theorem readVarint_ok_lt (bits : Nat) (dAtA : List Byte) (i : Int) (r : Nat × Int)
    (h : readVarint bits dAtA i = Outcome.ok r) : 0 ≤ i ∧ i < (dAtA.length : Int) := by
  unfold readVarint at h
  by_cases hi : i < 0
  · rw [if_pos hi] at h
    cases h
  · rw [if_neg hi] at h
    refine ⟨by omega, ?_⟩
    by_contra hge
    have hnone : dAtA[i.toNat]? = none := List.getElem?_eq_none (by omega)
    rw [readVarintLoop, if_neg (by decide), hnone] at h
    cases h

theorem readLength_negative (dAtA : List Byte) (i : Int) (length : Nat) (i₁ : Int)
    (hlen : readVarint 64 dAtA i = Outcome.ok (length, i₁)) (hneg : int64 length < 0) :
    readLength dAtA i = Outcome.error WireError.ErrInvalidLengthCommon := by
  unfold readLength
  rw [hlen]
  simp only
  rw [if_pos hneg]

theorem readField_negative (dAtA : List Byte) (i : Int) (length : Nat) (i₁ : Int)
    (hlen : readVarint 64 dAtA i = Outcome.ok (length, i₁)) (hneg : int64 length < 0) :
    readField dAtA i = Outcome.error WireError.ErrInvalidLengthCommon := by
  unfold readField
  rw [readLength_negative dAtA i length i₁ hlen hneg]

theorem NodeInfo_unmarshalEntry_negative (dAtA : List Byte) (i : Int) (length : Nat) (i₁ : Int)
    (hlen : readVarint 64 dAtA i = Outcome.ok (length, i₁)) (hneg : int64 length < 0) :
    NodeInfo.unmarshalEntry dAtA i = Outcome.error WireError.ErrInvalidLengthCommon := by
  unfold NodeInfo.unmarshalEntry
  rw [readLength_negative dAtA i length i₁ hlen hneg]

theorem Span_unmarshalPoint_negative (dAtA : List Byte) (i : Int) (field : Option Point)
    (length : Nat) (i₁ : Int)
    (hlen : readVarint 64 dAtA i = Outcome.ok (length, i₁)) (hneg : int64 length < 0) :
    Span.unmarshalPoint dAtA i field = Outcome.error WireError.ErrInvalidLengthCommon := by
  unfold Span.unmarshalPoint
  rw [hlen]
  simp only
  rw [if_pos hneg]

theorem height_le_heightOfTokens (c : List Token) (t : Token) (ht : t ∈ c) :
    t.height ≤ heightOfTokens c := by
  induction c with
  | nil => cases ht
  | cons a as ih =>
    rw [heightOfTokens]
    rcases List.mem_cons.mp ht with h | h
    · rw [h]
      exact le_max_left _ _
    · exact le_trans (ih h) (le_max_right _ _)

theorem height_pos_of_isElement (t : Token) (ht : t.isElement = true) : 1 ≤ t.height := by
  cases t with
  | element s tag c =>
    rw [Token.height]
    omega
  | charData d => cases ht
  | other x => cases ht

/-- A child element is an element of smaller height. -/
theorem height_childElements (e t : Token) (ht : t ∈ e.childElements) :
    t.isElement = true ∧ t.height + 1 ≤ e.height := by
  unfold Token.childElements at ht
  rw [List.mem_filter] at ht
  refine ⟨ht.2, ?_⟩
  cases e with
  | element s tag c =>
    have := height_le_heightOfTokens c t ht.1
    rw [Token.height]
    omega
  | charData d => cases ht.1
  | other x => cases ht.1

theorem levelOrder_nil (n : Nat) : levelOrder n [] = [] := by
  induction n with
  | zero => rfl
  | succ n ih =>
    rw [levelOrder]
    simpa using ih

/-- Levels beyond the height of the elements of a level are empty. -/
theorem levelOrder_add (n : Nat) : ∀ (level : List Token),
    (∀ t ∈ level, t.isElement = true ∧ t.height ≤ n) →
    ∀ k, levelOrder (n + k) level = levelOrder n level := by
  induction n with
  | zero =>
    intro level h k
    have hnil : level = [] := by
      cases level with
      | nil => rfl
      | cons a as =>
        have h1 := h a (List.mem_cons_self _ _)
        have h2 := height_pos_of_isElement a h1.1
        omega
    rw [hnil, levelOrder_nil, levelOrder_nil]
  | succ n ih =>
    intro level h k
    have hnext : ∀ t ∈ level.flatMap Token.childElements, t.isElement = true ∧ t.height ≤ n := by
      intro t ht
      obtain ⟨e, he, hte⟩ := List.mem_flatMap.mp ht
      have h1 := height_childElements e t hte
      have h2 := (h e he).2
      exact ⟨h1.1, by omega⟩
    have e1 : n + 1 + k = (n + k) + 1 := by omega
    rw [e1, levelOrder, levelOrder, ih _ hnext k]

/-- The number of levels that `Segment.apply` allows for the descendants of an
element reaches all of them: more levels add nothing. -/
theorem levelOrder_enough (e : Token) (he : e.isElement = true) (k : Nat) :
    levelOrder (e.height + 1 + k) [e] = levelOrder (e.height + 1) [e] := by
  apply levelOrder_add
  intro t ht
  rw [List.mem_singleton] at ht
  rw [ht]
  exact ⟨he, by omega⟩

theorem mem_levelOrder_self (e : Token) (n : Nat) : e ∈ levelOrder (n + 1) [e] := by
  rw [levelOrder]
  simp

theorem compilePath_artifactId :
    compilePath "//project/build/plugins/plugin/artifactId" =
      [Segment.selectRoot, Segment.selectDescendants, Segment.selectChildrenByTag "project",
       Segment.selectChildrenByTag "build", Segment.selectChildrenByTag "plugins",
       Segment.selectChildrenByTag "plugin", Segment.selectChildrenByTag "artifactId"] := by
  decide

theorem isElementNamed_element (s tag : String) (c : List Token) :
    Token.isElementNamed tag (Token.element s tag c) = true := by
  simp [Token.isElementNamed]

/-- What `SelectElement` returns is a child element of the tag. -/
theorem SelectElement_some (tag : String) (child : List Token) (t : Token)
    (h : SelectElement tag child = some t) :
    t ∈ child ∧ ∃ s c, t = Token.element s tag c := by
  unfold SelectElement at h
  refine ⟨List.mem_of_find?_eq_some h, ?_⟩
  have hp := List.find?_some h
  cases t with
  | element s tg c =>
    have : tg = tag := of_decide_eq_true hp
    exact ⟨s, c, by rw [this]⟩
  | charData d => cases hp
  | other x => cases hp

/-- `SelectElement` returns `nil` exactly when no child is an element of the tag. -/
theorem SelectElement_none (tag : String) (child : List Token) :
    SelectElement tag child = none ↔ ¬ ∃ s c, Token.element s tag c ∈ child := by
  unfold SelectElement
  rw [List.find?_eq_none]
  constructor
  · rintro h ⟨s, c, hm⟩
    exact h _ hm (isElementNamed_element _ _ _)
  · intro h t ht hp
    cases t with
    | element s tg c =>
      have : tg = tag := of_decide_eq_true hp
      exact h ⟨s, c, by rw [← this]; exact ht⟩
    | charData d => cases hp
    | other x => cases hp

/-- After the calls on the selected element, an element of the tag whose children
are the result of the calls is among the children. -/
theorem onSelected_mem (tag : String) (calls : List Token → List Token) (child : List Token)
    (h : (SelectElement tag child).isSome = true) :
    ∃ s c, Token.element s tag (calls c) ∈ onSelected tag calls child := by
  induction child with
  | nil => cases h
  | cons t ts ih =>
    cases t with
    | element s tg c =>
      rw [onSelected]
      by_cases htg : tg = tag
      · rw [if_pos htg, htg]
        exact ⟨s, c, List.mem_cons_self _ _⟩
      · rw [if_neg htg]
        have h2 : (SelectElement tag ts).isSome = true := by
          unfold SelectElement at h ⊢
          rw [List.find?_cons] at h
          have : Token.isElementNamed tag (Token.element s tg c) = false := by
            unfold Token.isElementNamed
            exact decide_eq_false htg
          rw [this] at h
          exact h
        obtain ⟨s2, c2, hm⟩ := ih h2
        exact ⟨s2, c2, List.mem_cons_of_mem _ hm⟩
    | charData d =>
      have e : onSelected tag calls (Token.charData d :: ts) =
          Token.charData d :: onSelected tag calls ts := rfl
      rw [e]
      have h2 : (SelectElement tag ts).isSome = true := by
        unfold SelectElement at h ⊢
        rw [List.find?_cons] at h
        exact h
      obtain ⟨s2, c2, hm⟩ := ih h2
      exact ⟨s2, c2, List.mem_cons_of_mem _ hm⟩
    | other x =>
      have e : onSelected tag calls (Token.other x :: ts) =
          Token.other x :: onSelected tag calls ts := rfl
      rw [e]
      have h2 : (SelectElement tag ts).isSome = true := by
        unfold SelectElement at h ⊢
        rw [List.find?_cons] at h
        exact h
      obtain ⟨s2, c2, hm⟩ := ih h2
      exact ⟨s2, c2, List.mem_cons_of_mem _ hm⟩

theorem selectOrCreate_mem (tag : String) (calls : List Token → List Token)
    (child : List Token) :
    ∃ s c, Token.element s tag (calls c) ∈ selectOrCreate tag calls child := by
  unfold selectOrCreate
  cases h : SelectElement tag child with
  | none =>
    simp only
    exact ⟨"", [], by unfold CreateElement; simp⟩
  | some t =>
    simp only
    exact onSelected_mem tag calls child (by rw [h]; rfl)

/-- A chain of elements `project`, `build`, `plugins`, `plugin`, `artifactId` from
the top of the document is found by the path of `hasCompilerPlugin`. -/
theorem mem_FindElements (doc : Document) (s₁ s₂ s₃ s₄ s₅ : String)
    (c₁ c₂ c₃ c₄ c₅ : List Token)
    (h₁ : Token.element s₁ "project" c₁ ∈ doc.Child)
    (h₂ : Token.element s₂ "build" c₂ ∈ c₁)
    (h₃ : Token.element s₃ "plugins" c₃ ∈ c₂)
    (h₄ : Token.element s₄ "plugin" c₄ ∈ c₃)
    (h₅ : Token.element s₅ "artifactId" c₅ ∈ c₄) :
    Token.element s₅ "artifactId" c₅ ∈
      FindElements doc "//project/build/plugins/plugin/artifactId" := by
  unfold FindElements
  rw [compilePath_artifactId]
  simp only [List.foldl]
  refine List.mem_flatMap.mpr ⟨Token.element s₄ "plugin" c₄, ?_,
    List.mem_filter.mpr ⟨h₅, isElementNamed_element _ _ _⟩⟩
  refine List.mem_flatMap.mpr ⟨Token.element s₃ "plugins" c₃, ?_,
    List.mem_filter.mpr ⟨h₄, isElementNamed_element _ _ _⟩⟩
  refine List.mem_flatMap.mpr ⟨Token.element s₂ "build" c₂, ?_,
    List.mem_filter.mpr ⟨h₃, isElementNamed_element _ _ _⟩⟩
  refine List.mem_flatMap.mpr ⟨Token.element s₁ "project" c₁, ?_,
    List.mem_filter.mpr ⟨h₂, isElementNamed_element _ _ _⟩⟩
  refine List.mem_flatMap.mpr ⟨doc.root, ?_, List.mem_filter.mpr ⟨h₁, isElementNamed_element _ _ _⟩⟩
  refine List.mem_flatMap.mpr ⟨doc.root, ?_, mem_levelOrder_self _ _⟩
  simp [Segment.apply]

/-- The element `plugin` that `insertPlugin` adds has an `artifactId` of text
`maven-compiler-plugin`. -/
theorem insertPlugin_mem (plugins : List Token) :
    ∃ c₄ c₅, Token.element "" "plugin" c₄ ∈ insertPlugin plugins ∧
      Token.element "" "artifactId" c₅ ∈ c₄ ∧ Text c₅ = "maven-compiler-plugin" := by
  refine ⟨[Token.element "" "groupId" [Token.charData "org.apache.maven.plugins"],
      Token.element "" "artifactId" [Token.charData "maven-compiler-plugin"],
      Token.element "" "version" [Token.charData "3.7.0"],
      Token.element "" "configuration"
        [Token.element "" "source" [Token.charData "1.8"],
         Token.element "" "target" [Token.charData "1.8"]]],
    [Token.charData "maven-compiler-plugin"], ?_, ?_, rfl⟩
  · unfold insertPlugin
    rw [CreateElement]
    exact List.mem_append_right _ (List.mem_singleton_self _)
  · simp

/-- `insertCompilerPlugin` on a document with a top-level `project` element returns
no error and leaves a document in which `hasCompilerPlugin` holds. -/
theorem insertCompilerPlugin_ok (doc : Document)
    (h : (SelectElement "project" doc.Child).isSome = true) :
    (insertCompilerPlugin doc).2 = none ∧
      hasCompilerPlugin (insertCompilerPlugin doc).1 = true := by
  obtain ⟨s₁, c₁, h₁⟩ := onSelected_mem "project"
    (selectOrCreate "build" (selectOrCreate "plugins" insertPlugin)) doc.Child h
  obtain ⟨s₂, c₂, h₂⟩ := selectOrCreate_mem "build" (selectOrCreate "plugins" insertPlugin) c₁
  obtain ⟨s₃, c₃, h₃⟩ := selectOrCreate_mem "plugins" insertPlugin c₂
  obtain ⟨c₄, c₅, h₄, h₅, htext⟩ := insertPlugin_mem c₃
  unfold insertCompilerPlugin
  cases hsel : SelectElement "project" doc.Child with
  | none =>
    rw [hsel] at h
    cases h
  | some t =>
    simp only
    refine ⟨trivial, ?_⟩
    unfold hasCompilerPlugin
    rw [List.any_eq_true]
    exact ⟨_, mem_FindElements _ s₁ s₂ s₃ "" "" _ _ _ _ _ h₁ h₂ h₃ h₄ h₅,
      decide_eq_true htext⟩

/-- `insertCompilerPlugin` on a document without a top-level `project` element
returns its error and the document as it was. -/
theorem insertCompilerPlugin_error (doc : Document)
    (h : SelectElement "project" doc.Child = none) :
    insertCompilerPlugin doc = (doc, some "no top level <project> element") := by
  unfold insertCompilerPlugin
  rw [h]

/-- The definition ticket of a record depends on the `definition` bucket only up to
the order of its anchors. -/
theorem definitionTicket_perm : ∀ (l' l : List XAnchor), l'.Perm l →
    (match l' with
      | [d] => some d.anchorTicket
      | _ => none) =
    (match l with
      | [d] => some d.anchorTicket
      | _ => none) := by
  intro l' l h
  have hlen := h.length_eq
  cases l with
  | nil =>
    have h0 := List.Perm.eq_nil h
    subst h0
    rfl
  | cons d rest =>
    cases rest with
    | nil =>
      have h1 := List.perm_singleton.mp h
      subst h1
      rfl
    | cons d₂ rest₂ =>
      cases l' with
      | nil => simp at hlen
      | cons x xs =>
        cases xs with
        | nil => simp at hlen
        | cons x₂ xs₂ => rfl

theorem find?_identity_perm {nodes nodes' : List GraphNode} (h : nodes'.Perm nodes)
    (huniq : ∀ a ∈ nodes, ∀ b ∈ nodes, a.identity = b.identity → a = b) (t : Ticket) :
    (nodes'.find? fun n => decide (n.identity = t)) =
      nodes.find? fun n => decide (n.identity = t) := by
  apply find?_perm_of_unique h
  intro a ha b hb hpa hpb
  simp only [decide_eq_true_eq] at hpa hpb
  exact huniq a ha b hb (hpa.trans hpb.symm)

/-- A cross-reference record exists exactly when the ticket names a node or is the
target of an edge of one of the two relations. -/
theorem crossReferenceRecord_isSome_iff (nodes : List GraphNode) (t : Ticket) :
    (crossReferenceRecord nodes t).isSome = true ↔
      ((nodes.find? fun n => decide (n.identity = t)) ≠ none ∨
        bucket nodes Relation.reference t ≠ [] ∨ bucket nodes Relation.definition t ≠ []) := by
  constructor
  · intro h
    obtain ⟨r, hr⟩ := Option.isSome_iff_exists.mp h
    exact (crossReferenceRecord_some hr).2
  · intro h
    obtain ⟨r, hr⟩ := crossReferenceRecord_isSome nodes t h
    rw [hr]
    rfl

/-! ## Verification of the claims -/

/-- C1. Span normalization: for every file text and every byte offset `b` with
`b ≤ len(text)`, normalizing `b` against the table of line-start offsets of the text
succeeds without a normalization error and yields the point with `byte_offset = b`,
`line_number = i + 1` and `column_offset = b - lineStart[i]`, where `i` is the index
of the last line start that is `≤ b`. -/
theorem C1_normalize_within_text (text : List Byte) (b : Nat) (hb : b ≤ text.length) :
    ∃ i s : Nat, (lineStarts text)[i]? = some s ∧ s ≤ b ∧
      (∀ j t, (lineStarts text)[j]? = some t → t ≤ b → j ≤ i) ∧
      (NewNormalizer text).normalize b =
        some ({ ByteOffset := (b : Int), LineNumber := (i : Int) + 1,
                ColumnOffset := (b : Int) - (s : Int) }, false) := by
  obtain ⟨i, s, h1, h2, h3, h4⟩ :=
    normalize_spec (NewNormalizer text) (lineStarts_pairwise text) (lineStarts_zero text) b
  have hmin : min b (NewNormalizer text).textLen = b := by
    simp only [NewNormalizer]
    omega
  rw [hmin] at h2 h3 h4
  refine ⟨i, s, h1, h2, h3, ?_⟩
  rw [h4]
  simp only [NewNormalizer]
  simp
  omega

/-- C1, at the text `"some text\n"` of the integration test: offset 4 satisfies the
hypothesis, and offsets 0, 4, 5 and 9 normalize to line 1, columns 0, 4, 5 and 9. -/
theorem C1_normalize_within_text_witness :
    (∃ i s : Nat, (lineStarts (ascii "some text\n"))[i]? = some s ∧ s ≤ 4 ∧
      (∀ j t, (lineStarts (ascii "some text\n"))[j]? = some t → t ≤ 4 → j ≤ i) ∧
      (NewNormalizer (ascii "some text\n")).normalize 4 =
        some ({ ByteOffset := ((4 : Nat) : Int), LineNumber := (i : Int) + 1,
                ColumnOffset := ((4 : Nat) : Int) - (s : Int) }, false)) ∧
    (NewNormalizer (ascii "some text\n")).normalize 0 = some (⟨0, 1, 0⟩, false) ∧
    (NewNormalizer (ascii "some text\n")).normalize 4 = some (⟨4, 1, 4⟩, false) ∧
    (NewNormalizer (ascii "some text\n")).normalize 5 = some (⟨5, 1, 5⟩, false) ∧
    (NewNormalizer (ascii "some text\n")).normalize 9 = some (⟨9, 1, 9⟩, false) :=
  ⟨C1_normalize_within_text (ascii "some text\n") 4 (by decide),
    by decide, by decide, by decide, by decide⟩

/-- C2. Definition resolution: for every reference that `Decorations` returns for
a request with `targetDefinitions` set, when exactly one `defines` edge targets the
reference's target, `TargetDefinition` is the ticket of the anchor that edge
leaves and `DefinitionLocations` holds that anchor (its ticket, parent file and
span); when zero or more than one `defines` edges target it, `TargetDefinition` is
left unset. -/
theorem C2_definition_resolution (nodes : List GraphNode) (req : DecorationsRequest)
    (reply : DecorationsReply) (hreq : req.targetDefinitions = true)
    (h : Decorations (servingStore nodes) req = Except.ok reply) :
    ∀ r ∈ reply.reference,
      (∀ a ed, relationEdges nodes Relation.definition r.targetTicket = [(a, ed)] →
        r.targetDefinition = some a.identity ∧
        ∃ loc, (a.identity, loc) ∈ reply.definitionLocations ∧
          loc.ticket = some a.identity ∧ loc.parent = fileOf a.identity ∧
          loc.span = anchorSpan nodes a) ∧
      ((relationEdges nodes Relation.definition r.targetTicket).length ≠ 1 →
        r.targetDefinition = none) := by
  unfold Decorations at h
  rw [servingStore_marker] at h
  simp only at h
  cases hrec : (servingStore nodes).decorationOf req.ticket with
  | none => rw [hrec] at h; cases h
  | some rec =>
    rw [hrec] at h
    simp only [Except.ok.injEq] at h
    subst h
    intro r hr
    simp only [List.mem_map, hreq, if_true] at hr
    obtain ⟨e, he, rfl⟩ := hr
    simp only
    constructor
    · intro a ed hone
      have hb := bucket_singleton hone
      obtain ⟨x, hx⟩ := crossReferenceRecord_isSome nodes e.targetTicket
        (Or.inr (Or.inr (by rw [hb]; simp)))
      obtain ⟨hxeq, -⟩ := crossReferenceRecord_some hx
      rw [hb] at hxeq
      simp only at hxeq
      have hdef : (servingStore nodes).definitionOf e.targetTicket =
          some { anchorTicket := a.identity, parentFileTicket := fileOf a.identity,
                 span := anchorSpan nodes a } := by
        unfold Store.definitionOf
        rw [servingStore_crossReferenceOf, hx]
        simp only
        rw [hxeq]
        simp
      constructor
      · rw [servingStore_crossReferenceOf, hx, hxeq]
        rfl
      · refine ⟨mkAnchor (servingStore nodes) true
            { anchorTicket := a.identity, parentFileTicket := fileOf a.identity,
              span := anchorSpan nodes a }, ?_, ?_, ?_, ?_⟩
        · simp only [hreq, if_true, List.mem_dedup, List.mem_filterMap, List.mem_map,
            Option.map_eq_some']
          exact ⟨e.targetTicket, ⟨e, he, rfl⟩, _, hdef, rfl⟩
        · unfold mkAnchor
          split <;> rfl
        · unfold mkAnchor
          split <;> rfl
        · unfold mkAnchor
          split <;> rfl
    · intro hlen
      rw [servingStore_crossReferenceOf]
      cases hx : crossReferenceRecord nodes e.targetTicket with
      | none => rfl
      | some x =>
        obtain ⟨hxeq, -⟩ := crossReferenceRecord_some hx
        rw [← bucket_length] at hlen
        rw [hxeq]
        show (match bucket nodes Relation.definition e.targetTicket with
          | [d] => some d.anchorTicket
          | _ => none) = none
        split
        · rename_i d hd
          rw [hd] at hlen
          simp at hlen
        · rfl

/-- C2, on the nodes of `TestServingSimpleDecorations` and the request of its
`target_definitions` case: the hypotheses hold for the reply the test expects. -/
theorem C2_definition_resolution_witness :
    ({ ticket := vnamePath "path", sourceText := false, references := true, filter := [],
       targetDefinitions := true } : DecorationsRequest).targetDefinitions = true ∧
    (∀ r ∈ ([ { span := { Start := some ⟨0, 1, 0⟩, End := some ⟨4, 1, 4⟩ }
                kind := "/kythe/edge/ref", targetTicket := vnameSig "" "simpleDecor"
                targetDefinition := none },
              { span := { Start := some ⟨5, 1, 5⟩, End := some ⟨9, 1, 9⟩ }
                kind := "/kythe/edge/ref", targetTicket := vnameSig "" "decorWithDef"
                targetDefinition := some (vnameSig "" "def1") } ] : List ReplyReference),
      (∀ a ed, relationEdges decorTestNodes Relation.definition r.targetTicket = [(a, ed)] →
        r.targetDefinition = some a.identity ∧
        ∃ loc, (a.identity, loc) ∈
            [ (vnameSig "" "def1",
                ({ ticket := some (vnameSig "" "def1"), parent := vnamePath ""
                   span := { Start := some ⟨0, 1, 0⟩, End := some ⟨3, 1, 3⟩ }
                   snippet := some (ascii "def")
                   snippetSpan := some { Start := some ⟨0, 1, 0⟩, End := some ⟨3, 1, 3⟩ } } :
                  Anchor)) ] ∧
          loc.ticket = some a.identity ∧ loc.parent = fileOf a.identity ∧
          loc.span = anchorSpan decorTestNodes a) ∧
      ((relationEdges decorTestNodes Relation.definition r.targetTicket).length ≠ 1 →
        r.targetDefinition = none)) :=
  ⟨rfl,
    C2_definition_resolution decorTestNodes
      { ticket := vnamePath "path", sourceText := false, references := true, filter := [],
        targetDefinitions := true }
      { location := vnamePath "path", sourceText := none, encoding := none
        reference :=
          [ { span := { Start := some ⟨0, 1, 0⟩, End := some ⟨4, 1, 4⟩ }
              kind := "/kythe/edge/ref", targetTicket := vnameSig "" "simpleDecor"
              targetDefinition := none },
            { span := { Start := some ⟨5, 1, 5⟩, End := some ⟨9, 1, 9⟩ }
              kind := "/kythe/edge/ref", targetTicket := vnameSig "" "decorWithDef"
              targetDefinition := some (vnameSig "" "def1") } ]
        nodes := []
        definitionLocations :=
          [ (vnameSig "" "def1",
              { ticket := some (vnameSig "" "def1"), parent := vnamePath ""
                span := { Start := some ⟨0, 1, 0⟩, End := some ⟨3, 1, 3⟩ }
                snippet := some (ascii "def")
                snippetSpan := some { Start := some ⟨0, 1, 0⟩, End := some ⟨3, 1, 3⟩ } }) ] }
      rfl (by decide)⟩

/-- C3. Decoration ordering: in every decoration record the pipeline builds, and
in every `Decorations` reply built from one, the reference entries are sorted
ascending by `span.start.byteOffset`, ties broken by ascending
`span.end.byteOffset` and then by edge kind in lexicographic order, for every list
of input nodes, in whatever order the anchors appear in it. -/
theorem C3_decoration_ordering (nodes : List GraphNode) :
    (∀ file rec, decorationRecord nodes file = some rec →
      rec.references.Pairwise fun a b =>
        documentedOrder (Point.GetByteOffset a.span.Start) (Point.GetByteOffset a.span.End)
          a.edgeKind (Point.GetByteOffset b.span.Start) (Point.GetByteOffset b.span.End)
          b.edgeKind) ∧
    (∀ req reply, Decorations (servingStore nodes) req = Except.ok reply →
      reply.reference.Pairwise fun a b =>
        documentedOrder (Point.GetByteOffset a.span.Start) (Point.GetByteOffset a.span.End)
          a.kind (Point.GetByteOffset b.span.Start) (Point.GetByteOffset b.span.End) b.kind) := by
  constructor
  · intro file rec h
    exact (decorationRecord_references_sorted h).imp Reference.key_le_documentedOrder
  · intro req reply h
    unfold Decorations at h
    rw [servingStore_marker] at h
    simp only at h
    cases hrec : (servingStore nodes).decorationOf req.ticket with
    | none => rw [hrec] at h; cases h
    | some rec =>
      rw [hrec] at h
      simp only [Except.ok.injEq] at h
      subst h
      rw [servingStore_decorationOf] at hrec
      simp only [List.pairwise_map]
      have hsel : (selectedReferences req rec).Pairwise fun a b => a.key ≤ b.key := by
        unfold selectedReferences
        split
        · exact (decorationRecord_references_sorted hrec).sublist (List.filter_sublist _)
        · exact List.Pairwise.nil
      exact hsel.imp Reference.key_le_documentedOrder

/-- C3, on the nodes of `TestServingSimpleDecorations` listed in the opposite
order: the record of the file `path` and the reply to the `references` request
exist and are ordered, the anchor at `[0,4)` before the anchor at `[5,9)`. -/
theorem C3_decoration_ordering_witness :
    (decorationRecord decorTestNodes.reverse (vnamePath "path")).map
        (fun rec => rec.references.map fun e =>
          (Point.GetByteOffset e.span.Start, Point.GetByteOffset e.span.End, e.edgeKind)) =
      some [(0, 4, "/kythe/edge/ref"), (5, 9, "/kythe/edge/ref")] ∧
    ((∀ file rec, decorationRecord decorTestNodes.reverse file = some rec →
      rec.references.Pairwise fun a b =>
        documentedOrder (Point.GetByteOffset a.span.Start) (Point.GetByteOffset a.span.End)
          a.edgeKind (Point.GetByteOffset b.span.Start) (Point.GetByteOffset b.span.End)
          b.edgeKind) ∧
    (∀ req reply, Decorations (servingStore decorTestNodes.reverse) req = Except.ok reply →
      reply.reference.Pairwise fun a b =>
        documentedOrder (Point.GetByteOffset a.span.Start) (Point.GetByteOffset a.span.End)
          a.kind (Point.GetByteOffset b.span.Start) (Point.GetByteOffset b.span.End) b.kind)) :=
  ⟨by decide, C3_decoration_ordering decorTestNodes.reverse⟩

/-- C4. Snippets: for every anchor emitted by `CrossReferences` whose parent file
has source text, `Snippet` is the full text of the source line that contains the
anchor (the line `i` of the text on which the start offset of the anchor's span
lies) and `SnippetSpan` covers exactly that line: it runs from the start of the
line (column 0) to its end (column `length(line)`), both on line `i + 1`. -/
theorem C4_snippets (nodes : List GraphNode) (req : CrossReferencesRequest)
    (reply : CrossReferencesReply)
    (h : CrossReferences (servingStore nodes) req = Except.ok reply) :
    ∀ e ∈ reply.crossReferences, ∀ anchor ∈ e.2.reference, ∀ text,
      fileText nodes anchor.parent = some text →
      ∃ (i s : Nat) (line : List Byte),
        (splitLines text)[i]? = some line ∧ (lineStarts text)[i]? = some s ∧
        (s : Int) ≤ Point.GetByteOffset anchor.span.Start ∧
        Point.GetByteOffset anchor.span.Start ≤ (s : Int) + (line.length : Int) ∧
        anchor.snippet = some line ∧
        anchor.snippetSpan =
          some { Start := some { ByteOffset := (s : Int), LineNumber := (i : Int) + 1,
                                 ColumnOffset := 0 },
                 End := some { ByteOffset := ((s + line.length : Nat) : Int),
                               LineNumber := (i : Int) + 1,
                               ColumnOffset := (line.length : Int) } } := by
  intro e he anchor ha text ht
  obtain ⟨a, -, rfl⟩ := mem_crossReferences_reply h he ha
  have hparent : (mkAnchor (servingStore nodes) false
      { anchorTicket := a.identity, parentFileTicket := fileOf a.identity,
        span := anchorSpan nodes a }).parent = fileOf a.identity := by
    unfold mkAnchor
    split <;> rfl
  rw [hparent] at ht
  rw [mkAnchor_with_text nodes false _ text ht]
  simp only
  obtain ⟨b, hb, hble⟩ := anchorSpan_start_le nodes a text ht
  rw [hb]
  obtain ⟨i, s, line, h1, h2, h3, h4, hsn⟩ := snippetOf_spec text b
  have hmin : min b text.length = b := by omega
  rw [hmin] at h3 h4
  refine ⟨i, s, line, h1, h2, by omega, by omega, ?_, ?_⟩
  · rw [Int.toNat_ofNat, hsn]
  · rw [Int.toNat_ofNat, hsn]

/-- C4, on the nodes of `TestServingSimpleCrossReferences` and the request of its
`refs` case: text `"blah blah\n"`, anchor `[5,9)`, snippet `"blah blah"` and
snippet span from (line 1, column 0, byte 0) to (line 1, column 9, byte 9). -/
theorem C4_snippets_witness :
    CrossReferences (servingStore xrefTestNodes)
        { ticket := [vnameSig "path" "signature"], filter := [],
          referenceKind := ReferenceKind.ALL_REFERENCES, relatedNodeKind := [] } =
      Except.ok
        { crossReferences :=
            [ (vnameSig "path" "signature",
                { ticket := vnameSig "path" "signature"
                  markedSource := some (decodeMarkedSource testMarkedSource)
                  reference :=
                    [ { ticket := none, parent := vnamePath "path"
                        span := { Start := some ⟨5, 1, 5⟩, End := some ⟨9, 1, 9⟩ }
                        snippet := some (ascii "blah blah")
                        snippetSpan := some { Start := some ⟨0, 1, 0⟩, End := some ⟨9, 1, 9⟩ } } ] }) ]
          nodes := [] } ∧
    fileText xrefTestNodes (vnamePath "path") = some (ascii "blah blah\n") ∧
    ∃ (i s : Nat) (line : List Byte),
      (splitLines (ascii "blah blah\n"))[i]? = some line ∧
      (lineStarts (ascii "blah blah\n"))[i]? = some s ∧
      (s : Int) ≤ 5 ∧ (5 : Int) ≤ (s : Int) + (line.length : Int) ∧
      some (ascii "blah blah") = some line ∧
      some ({ Start := some ⟨0, 1, 0⟩, End := some ⟨9, 1, 9⟩ } : Span) =
        some { Start := some { ByteOffset := (s : Int), LineNumber := (i : Int) + 1,
                               ColumnOffset := 0 },
               End := some { ByteOffset := ((s + line.length : Nat) : Int),
                             LineNumber := (i : Int) + 1,
                             ColumnOffset := (line.length : Int) } } :=
  ⟨by decide, by decide,
    C4_snippets xrefTestNodes
      { ticket := [vnameSig "path" "signature"], filter := [],
        referenceKind := ReferenceKind.ALL_REFERENCES, relatedNodeKind := [] }
      { crossReferences :=
          [ (vnameSig "path" "signature",
              { ticket := vnameSig "path" "signature"
                markedSource := some (decodeMarkedSource testMarkedSource)
                reference :=
                  [ { ticket := none, parent := vnamePath "path"
                      span := { Start := some ⟨5, 1, 5⟩, End := some ⟨9, 1, 9⟩ }
                      snippet := some (ascii "blah blah")
                      snippetSpan := some { Start := some ⟨0, 1, 0⟩, End := some ⟨9, 1, 9⟩ } } ] }) ]
        nodes := [] }
      (by decide) _ (List.mem_cons_self _ _) _ (List.mem_cons_self _ _) _ (by decide)⟩

/-- C5. Source text round trip: for every FILE node with `TEXT` and
`TEXT_ENCODING` facts (the only FILE node of the input with its ticket) that is run
through the pipeline and written to the store, `Decorations` for that file's
ticket with `sourceText = true` succeeds and returns exactly the `TEXT` bytes as
`SourceText` and the `TEXT_ENCODING` value as `Encoding`. -/
theorem C5_source_text_round_trip (nodes : List GraphNode) (f : GraphNode)
    (text enc : List Byte) (req : DecorationsRequest)
    (hmem : f ∈ nodes) (hkind : f.kind = NodeKind.FILE)
    (htext : f.fact factText = some text) (henc : f.fact factTextEncoding = some enc)
    (huniq : ∀ g ∈ nodes, g.kind = NodeKind.FILE → g.identity = f.identity → g = f)
    (hticket : req.ticket = f.identity) (hsource : req.sourceText = true) :
    ∃ reply, Decorations (servingStore nodes) req = Except.ok reply ∧
      reply.sourceText = some text ∧ reply.encoding = some enc := by
  have hfile : fileNode nodes f.identity = some f := by
    unfold fileNode
    cases hfind : nodes.find? fun n => decide (n.kind = NodeKind.FILE ∧ n.identity = f.identity) with
    | none =>
      rw [List.find?_eq_none] at hfind
      have := hfind f hmem
      simp [hkind] at this
    | some g =>
      have hg := List.find?_some hfind
      have hgm := List.mem_of_find?_eq_some hfind
      simp only [decide_eq_true_eq] at hg
      rw [huniq g hgm hg.1 hg.2]
  unfold Decorations
  rw [servingStore_marker]
  simp only
  rw [servingStore_decorationOf, hticket]
  unfold decorationRecord
  rw [hfile]
  simp only
  refine ⟨_, rfl, ?_, ?_⟩
  · simp only [hsource, if_true, htext]
  · simp only [hsource, if_true, henc]

/-- C5, on the nodes of `TestServingSimpleDecorations`: the FILE node `path` with
text `"some text\n"` and encoding `"ascii"`. -/
theorem C5_source_text_round_trip_witness :
    ∃ reply, Decorations (servingStore decorTestNodes)
        { ticket := vnamePath "path", sourceText := true, references := false, filter := [],
          targetDefinitions := false } = Except.ok reply ∧
      reply.sourceText = some (ascii "some text\n") ∧ reply.encoding = some (ascii "ascii") :=
  C5_source_text_round_trip decorTestNodes
    { identity := vnamePath "path", kind := NodeKind.FILE
      facts := [(factText, ascii "some text\n"), (factTextEncoding, ascii "ascii")], edges := [] }
    (ascii "some text\n") (ascii "ascii")
    { ticket := vnamePath "path", sourceText := true, references := false, filter := [],
      targetDefinitions := false }
    (by decide) rfl (by decide) (by decide) (by decide) rfl rfl


/-- C6, as stated, fails on three inputs and their reversals.  With two FILE nodes
of the same ticket the decoration record takes the text of the node that comes
first.  With nodes of distinct identities, two reference entries that agree on
start offset, end offset and edge kind appear in the decoration record in the
order of their anchors in the input, and two anchors that agree on parent file
and start offset appear in the bucket of the cross-reference record in the order
of the input. -/
theorem C6_order_dependence :
    (duplicateFileNodes.reverse.Perm duplicateFileNodes ∧
      decorationRecord duplicateFileNodes.reverse (vnamePath "path") ≠
        decorationRecord duplicateFileNodes (vnamePath "path")) ∧
    (tiedReferenceNodes.reverse.Perm tiedReferenceNodes ∧
      (∀ a ∈ tiedReferenceNodes, ∀ b ∈ tiedReferenceNodes, a.identity = b.identity → a = b) ∧
      decorationRecord tiedReferenceNodes.reverse (vnamePath "path") ≠
        decorationRecord tiedReferenceNodes (vnamePath "path")) ∧
    (tiedAnchorNodes.reverse.Perm tiedAnchorNodes ∧
      (∀ a ∈ tiedAnchorNodes, ∀ b ∈ tiedAnchorNodes, a.identity = b.identity → a = b) ∧
      crossReferenceRecord tiedAnchorNodes.reverse (vnameSig "" "target") ≠
        crossReferenceRecord tiedAnchorNodes (vnameSig "" "target")) :=
  ⟨⟨List.reverse_perm _, by decide⟩, ⟨List.reverse_perm _, by decide, by decide⟩,
    ⟨List.reverse_perm _, by decide, by decide⟩⟩

/-- C6, amended.  Order independence of grouping: for every list of input nodes in
which nodes of the same identity are the same node, and every permutation of it,
a decoration record is produced for the same file keys and a cross-reference
record for the same target keys; the two decoration records of a file have the
same source text and encoding and the same reference entries, in both in the
order of §4.2, so that they differ at most in the order of entries that tie in
it, and are the same record when no two entries tie; the two cross-reference
records of a target have the same marked source, facts and definition ticket and
the same anchors in each bucket, in both in the order of §4.3, and are the same
record when no two anchors of a bucket tie. -/
theorem C6_order_independence (nodes nodes' : List GraphNode) (hperm : nodes'.Perm nodes)
    (huniq : ∀ a ∈ nodes, ∀ b ∈ nodes, a.identity = b.identity → a = b) :
    (∀ file,
      (decorationRecord nodes' file).isSome = (decorationRecord nodes file).isSome ∧
      ∀ r' r, decorationRecord nodes' file = some r' → decorationRecord nodes file = some r →
        r'.sourceText = r.sourceText ∧ r'.encoding = r.encoding ∧
        r'.references.Perm r.references ∧
        r'.references.Pairwise (fun a b => a.key ≤ b.key) ∧
        r.references.Pairwise (fun a b => a.key ≤ b.key) ∧
        (r.references.Pairwise (fun a b => a.key ≠ b.key) → r' = r)) ∧
    (∀ t,
      (crossReferenceRecord nodes' t).isSome = (crossReferenceRecord nodes t).isSome ∧
      ∀ r' r, crossReferenceRecord nodes' t = some r' → crossReferenceRecord nodes t = some r →
        r'.markedSource = r.markedSource ∧ r'.facts = r.facts ∧
        r'.definitionTicket = r.definitionTicket ∧
        r'.reference.Perm r.reference ∧ r'.definition.Perm r.definition ∧
        r'.reference.Pairwise (fun a b => a.key ≤ b.key) ∧
        r.reference.Pairwise (fun a b => a.key ≤ b.key) ∧
        r'.definition.Pairwise (fun a b => a.key ≤ b.key) ∧
        r.definition.Pairwise (fun a b => a.key ≤ b.key) ∧
        (r.reference.Pairwise (fun a b => a.key ≠ b.key) →
          r.definition.Pairwise (fun a b => a.key ≠ b.key) → r' = r)) := by
  constructor
  · intro file
    unfold decorationRecord
    rw [fileNode_perm hperm huniq]
    cases fileNode nodes file with
    | none =>
      refine ⟨rfl, ?_⟩
      intro r' r h
      cases h
    | some f =>
      refine ⟨rfl, ?_⟩
      intro r' r h' h
      simp only [Option.some.injEq] at h' h
      subst h' h
      have hs := sortReferences_perm_perm
        (((hperm.filter fun n =>
            decide (n.kind = NodeKind.ANCHOR ∧ fileOf n.identity = file)).flatMap_right
          (anchorReferences ((f.fact factText).map NewNormalizer))))
      refine ⟨rfl, rfl, hs.1, sortReferences_sorted _, sortReferences_sorted _, ?_⟩
      intro hd
      simp only at hd
      simp only [DecorationRecord.mk.injEq, true_and]
      exact hs.2 hd
  · intro t
    have hfind := find?_identity_perm hperm huniq t
    have hrefs := bucket_perm hperm huniq Relation.reference t
    have hdefs := bucket_perm hperm huniq Relation.definition t
    have hnil : ∀ {l' l : List XAnchor}, l'.Perm l → (l' ≠ [] ↔ l ≠ []) := by
      intro l' l h
      constructor
      · intro h1 h2
        rw [h2] at h
        exact h1 (List.Perm.eq_nil h)
      · intro h1 h2
        rw [h2] at h
        exact h1 (List.Perm.eq_nil h.symm)
    constructor
    · rw [Bool.eq_iff_iff, crossReferenceRecord_isSome_iff, crossReferenceRecord_isSome_iff,
        hfind, hnil hrefs.1, hnil hdefs.1]
    · intro r' r h' h
      have e' := (crossReferenceRecord_some h').1
      have e := (crossReferenceRecord_some h).1
      rw [hfind] at e'
      have hdt := definitionTicket_perm _ _ hdefs.1
      rw [e', e]
      refine ⟨rfl, rfl, hdt, hrefs.1, hdefs.1, sortAnchors_sorted _, sortAnchors_sorted _,
        sortAnchors_sorted _, sortAnchors_sorted _, ?_⟩
      intro hd1 hd2
      simp only at hd1 hd2
      simp only [CrossReferenceRecord.mk.injEq, true_and]
      rw [hrefs.2 hd1, hdefs.2 hd2]
      exact ⟨rfl, rfl, rfl⟩

/-- C6, amended, on the nodes of `TestServingSimpleDecorations` and their reversal:
no two entries tie, and the records of the file `path` and of the target
`decorWithDef` are the same. -/
theorem C6_order_independence_witness :
    (decorTestNodes.reverse.Perm decorTestNodes ∧
      ∀ a ∈ decorTestNodes, ∀ b ∈ decorTestNodes, a.identity = b.identity → a = b) ∧
    decorationRecord decorTestNodes.reverse (vnamePath "path") =
      decorationRecord decorTestNodes (vnamePath "path") ∧
    crossReferenceRecord decorTestNodes.reverse (vnameSig "" "decorWithDef") =
      crossReferenceRecord decorTestNodes (vnameSig "" "decorWithDef") ∧
    ((∀ file,
      (decorationRecord decorTestNodes.reverse file).isSome =
        (decorationRecord decorTestNodes file).isSome ∧
      ∀ r' r, decorationRecord decorTestNodes.reverse file = some r' →
        decorationRecord decorTestNodes file = some r →
        r'.sourceText = r.sourceText ∧ r'.encoding = r.encoding ∧
        r'.references.Perm r.references ∧
        r'.references.Pairwise (fun a b => a.key ≤ b.key) ∧
        r.references.Pairwise (fun a b => a.key ≤ b.key) ∧
        (r.references.Pairwise (fun a b => a.key ≠ b.key) → r' = r)) ∧
    (∀ t,
      (crossReferenceRecord decorTestNodes.reverse t).isSome =
        (crossReferenceRecord decorTestNodes t).isSome ∧
      ∀ r' r, crossReferenceRecord decorTestNodes.reverse t = some r' →
        crossReferenceRecord decorTestNodes t = some r →
        r'.markedSource = r.markedSource ∧ r'.facts = r.facts ∧
        r'.definitionTicket = r.definitionTicket ∧
        r'.reference.Perm r.reference ∧ r'.definition.Perm r.definition ∧
        r'.reference.Pairwise (fun a b => a.key ≤ b.key) ∧
        r.reference.Pairwise (fun a b => a.key ≤ b.key) ∧
        r'.definition.Pairwise (fun a b => a.key ≤ b.key) ∧
        r.definition.Pairwise (fun a b => a.key ≤ b.key) ∧
        (r.reference.Pairwise (fun a b => a.key ≠ b.key) →
          r.definition.Pairwise (fun a b => a.key ≠ b.key) → r' = r))) :=
  ⟨⟨List.reverse_perm _, by decide⟩, by decide, by decide,
    C6_order_independence decorTestNodes decorTestNodes.reverse (List.reverse_perm _) (by decide)⟩

/-- C7. Span normalization boundary: for every file text, the byte offset
`len(text)` normalizes, without a normalization error, to the last line with
`column_offset` equal to the length of that last line; and for every byte offset
`b`, beyond the end of the text or not, normalization returns a result (no table
access is out of range): the point of the offset clamped to `len(text)`, with the
normalization error marked exactly when `b > len(text)`. -/
theorem C7_normalize_boundary (text : List Byte) (b : Nat) :
    ∃ (last : List Byte) (p : Point),
      (splitLines text).getLast? = some last ∧
      (NewNormalizer text).normalize text.length =
        some ({ ByteOffset := (text.length : Int), LineNumber := ((splitLines text).length : Int),
                ColumnOffset := (last.length : Int) }, false) ∧
      (NewNormalizer text).normalize b = some (p, decide (text.length < b)) ∧
      (NewNormalizer text).normalize (min b text.length) = some (p, false) := by
  obtain ⟨i, s, line, hline, hs, -, -, -, hlast, hmax, hnorm⟩ := normalize_lines text text.length
  obtain ⟨i', s', line', -, -, -, -, -, -, -, hnorm'⟩ := normalize_lines text b
  have hn : 0 < (splitLines text).length := List.length_pos.mpr (splitLines_ne_nil text)
  have hi : i < (splitLines text).length := (List.getElem?_eq_some.mp hline).1
  have hidx : (splitLines text).length - 1 < (lineStarts text).length := by
    rw [lineStarts_length]
    omega
  have hge := hmax ((splitLines text).length - 1) _ (List.getElem?_eq_getElem hidx)
    (by
      rw [Nat.min_self]
      exact lineStarts_le text _ (List.getElem_mem _))
  have hi1 : i + 1 = (splitLines text).length := by omega
  have hcol := hlast hi1
  refine ⟨line, _, ?_, ?_, hnorm', ?_⟩
  · rw [List.getLast?_eq_getElem?, ← hline]
    congr 1
    omega
  · rw [hnorm]
    simp only [Nat.min_self, lt_irrefl, decide_False, Option.some.injEq, Prod.mk.injEq,
      Point.mk.injEq, and_true, true_and]
    constructor
    · rw [← hi1]
      simp
    · omega
  · have h := normalize_clamp (NewNormalizer text) b
    simp only [NewNormalizer] at h hnorm'
    simp only [NewNormalizer]
    rw [h, hnorm']
    rfl

/-- C8. Point invariant: every point that the pipeline and the service emit in a
span (in the reference entries of a decoration record, in the anchors of a
cross-reference record, in the references and definition locations of a
`Decorations` reply, in the anchors of a `CrossReferences` reply, snippet spans
included) satisfies: with `line_number > 0` it is normalized, i.e. the file it
refers to has text, line `line_number` of that text exists and
`0 ≤ column_offset ≤` the byte length of that line; with `line_number ≤ 0` it
carries no line or column information (both are 0). -/
theorem C8_point_invariant (nodes : List GraphNode) :
    (∀ file rec, decorationRecord nodes file = some rec →
      ∀ e ∈ rec.references, spanInvariant (fileText nodes file) e.span) ∧
    (∀ t rec, crossReferenceRecord nodes t = some rec →
      ∀ x, x ∈ rec.reference ∨ x ∈ rec.definition →
        spanInvariant (fileText nodes x.parentFileTicket) x.span) ∧
    (∀ req reply, Decorations (servingStore nodes) req = Except.ok reply →
      (∀ e ∈ reply.reference, spanInvariant (fileText nodes req.ticket) e.span) ∧
      (∀ d ∈ reply.definitionLocations,
        spanInvariant (fileText nodes d.2.parent) d.2.span ∧
        ∀ ss, d.2.snippetSpan = some ss → spanInvariant (fileText nodes d.2.parent) ss)) ∧
    (∀ req reply, CrossReferences (servingStore nodes) req = Except.ok reply →
      ∀ e ∈ reply.crossReferences, ∀ anchor ∈ e.2.reference,
        spanInvariant (fileText nodes anchor.parent) anchor.span ∧
        ∀ ss, anchor.snippetSpan = some ss → spanInvariant (fileText nodes anchor.parent) ss) := by
  refine ⟨fun file rec h => decorationRecord_span_invariant h, ?_, ?_, ?_⟩
  · intro t rec h x hx
    obtain ⟨a, -, rfl⟩ := mem_record_reference h hx
    exact anchorSpan_invariant nodes a
  · intro req reply h
    unfold Decorations at h
    rw [servingStore_marker] at h
    simp only at h
    cases hrec : (servingStore nodes).decorationOf req.ticket with
    | none => rw [hrec] at h; cases h
    | some rec =>
      rw [hrec] at h
      simp only [Except.ok.injEq] at h
      subst h
      rw [servingStore_decorationOf] at hrec
      constructor
      · intro e he
        simp only [List.mem_map] at he
        obtain ⟨e', he', rfl⟩ := he
        have hmem : e' ∈ rec.references := by
          unfold selectedReferences at he'
          split at he'
          · exact (List.mem_filter.mp he').1
          · cases he'
        exact decorationRecord_span_invariant hrec e' hmem
      · intro d hd
        simp only at hd
        split at hd
        swap
        · cases hd
        simp only [List.mem_dedup, List.mem_filterMap, Option.map_eq_some'] at hd
        obtain ⟨t, -, x, hx, rfl⟩ := hd
        unfold Store.definitionOf at hx
        rw [servingStore_crossReferenceOf] at hx
        cases hxr : crossReferenceRecord nodes t with
        | none => rw [hxr] at hx; cases hx
        | some r =>
          rw [hxr] at hx
          simp only at hx
          cases hdt : r.definitionTicket with
          | none => rw [hdt] at hx; cases hx
          | some dt =>
            rw [hdt] at hx
            simp only at hx
            have hxm := List.mem_of_find?_eq_some hx
            obtain ⟨a, -, rfl⟩ := mem_record_reference hxr (Or.inr hxm)
            simp only [mkAnchor_parent]
            exact mkAnchor_invariant nodes true a
  · intro req reply h e he anchor ha
    obtain ⟨a, -, rfl⟩ := mem_crossReferences_reply h he ha
    simp only [mkAnchor_parent]
    exact mkAnchor_invariant nodes false a

/-- C8, on the nodes of `TestServingSimpleDecorations`: the record of the file
`path` exists, and the invariant holds of everything emitted for these nodes. -/
theorem C8_point_invariant_witness :
    (decorationRecord decorTestNodes (vnamePath "path")).isSome = true ∧
    ((∀ file rec, decorationRecord decorTestNodes file = some rec →
      ∀ e ∈ rec.references, spanInvariant (fileText decorTestNodes file) e.span) ∧
    (∀ t rec, crossReferenceRecord decorTestNodes t = some rec →
      ∀ x, x ∈ rec.reference ∨ x ∈ rec.definition →
        spanInvariant (fileText decorTestNodes x.parentFileTicket) x.span) ∧
    (∀ req reply, Decorations (servingStore decorTestNodes) req = Except.ok reply →
      (∀ e ∈ reply.reference, spanInvariant (fileText decorTestNodes req.ticket) e.span) ∧
      (∀ d ∈ reply.definitionLocations,
        spanInvariant (fileText decorTestNodes d.2.parent) d.2.span ∧
        ∀ ss, d.2.snippetSpan = some ss →
          spanInvariant (fileText decorTestNodes d.2.parent) ss)) ∧
    (∀ req reply, CrossReferences (servingStore decorTestNodes) req = Except.ok reply →
      ∀ e ∈ reply.crossReferences, ∀ anchor ∈ e.2.reference,
        spanInvariant (fileText decorTestNodes anchor.parent) anchor.span ∧
        ∀ ss, anchor.snippetSpan = some ss →
          spanInvariant (fileText decorTestNodes anchor.parent) ss)) :=
  ⟨by decide, C8_point_invariant decorTestNodes⟩


/-- C9. `CODE` is not served as a raw fact: for every list of input nodes and every
target, the facts of the cross-reference record of the target do not contain the
raw `/kythe/code` fact, and neither do the `Nodes` facts that `CrossReferences`
returns from the store the pipeline wrote, whatever the filter (`"**"` included);
the `CODE` fact of the target node is served as the decoded `MarkedSource` of the
record. -/
theorem C9_code_not_served (nodes : List GraphNode) :
    (∀ t r, crossReferenceRecord nodes t = some r →
      (∀ f ∈ r.facts, f.1 ≠ factCode) ∧
      r.markedSource =
        ((nodes.find? fun n => decide (n.identity = t)).bind fun n => n.fact factCode).map
          decodeMarkedSource) ∧
    (∀ req reply, CrossReferences (servingStore nodes) req = Except.ok reply →
      ∀ e ∈ reply.nodes, ∀ f ∈ e.2, f.1 ≠ factCode) := by
  have hrec : ∀ t r, crossReferenceRecord nodes t = some r → ∀ f ∈ r.facts, f.1 ≠ factCode := by
    intro t r hr f hf
    have h := (crossReferenceRecord_some hr).1
    rw [h] at hf
    simp only at hf
    cases hfind : nodes.find? fun n => decide (n.identity = t) with
    | none =>
      rw [hfind] at hf
      cases hf
    | some n =>
      rw [hfind] at hf
      simp only [nodeFacts, List.mem_cons, List.mem_filter, decide_eq_true_eq] at hf
      rcases hf with hf | hf
      · rw [hf]
        show factNodeKind ≠ factCode
        decide
      · exact hf.2
  refine ⟨fun t r hr => ⟨hrec t r hr, ?_⟩, ?_⟩
  · rw [(crossReferenceRecord_some hr).1]
  · intro req reply h e he f hf
    unfold CrossReferences at h
    rw [servingStore_marker] at h
    simp only [Except.ok.injEq] at h
    subst h
    simp only [replyNodes] at he
    split at he
    · cases he
    · rw [List.mem_filterMap] at he
      obtain ⟨t, -, ht⟩ := he
      rw [servingStore_crossReferenceOf] at ht
      cases hr : crossReferenceRecord nodes t with
      | none =>
        rw [hr] at ht
        cases ht
      | some r =>
        rw [hr] at ht
        simp only at ht
        split at ht
        · cases ht
        · simp only [Option.some.injEq] at ht
          subst ht
          simp only [projectFacts, List.mem_filter] at hf
          exact hrec t r hr f hf.1

/-- C9 on the nodes of `TestServingSimpleCrossReferences`, whose target
`path#signature` has a `CODE` fact, and the request of the `requested_node` case:
the record and the reply carry the decoded `MarkedSource`, and the facts hold
`/kythe/node/kind` only. -/
theorem C9_code_not_served_witness :
    (xrefTestNodes.find? fun n => decide (n.identity = vnameSig "path" "signature")).map
        (fun n => n.fact factCode) = some (some testMarkedSource) ∧
    crossReferenceRecord xrefTestNodes (vnameSig "path" "signature") =
      some { markedSource := some (decodeMarkedSource testMarkedSource)
             facts := [("/kythe/node/kind", ascii "record")]
             definitionTicket := none
             reference :=
               [ { anchorTicket := vnameSig "path" "anchor1", parentFileTicket := vnamePath "path"
                   span := { Start := some ⟨5, 1, 5⟩, End := some ⟨9, 1, 9⟩ } } ]
             definition := [] } ∧
    ((∀ f ∈ [("/kythe/node/kind", ascii "record")], f.1 ≠ factCode) ∧
      some (decodeMarkedSource testMarkedSource) =
        ((xrefTestNodes.find? fun n => decide (n.identity = vnameSig "path" "signature")).bind
          fun n => n.fact factCode).map decodeMarkedSource) ∧
    (∀ e ∈ [(vnameSig "path" "signature", [("/kythe/node/kind", ascii "record")])],
      ∀ f ∈ e.2, f.1 ≠ factCode) :=
  ⟨by decide, by decide,
    (C9_code_not_served xrefTestNodes).1 (vnameSig "path" "signature")
      { markedSource := some (decodeMarkedSource testMarkedSource)
        facts := [("/kythe/node/kind", ascii "record")]
        definitionTicket := none
        reference :=
          [ { anchorTicket := vnameSig "path" "anchor1", parentFileTicket := vnamePath "path"
              span := { Start := some ⟨5, 1, 5⟩, End := some ⟨9, 1, 9⟩ } } ]
        definition := [] } (by decide),
    (C9_code_not_served xrefTestNodes).2
      { ticket := [vnameSig "path" "signature"], filter := ["**"],
        referenceKind := ReferenceKind.NONE, relatedNodeKind := ["NONE"] }
      { crossReferences :=
          [ (vnameSig "path" "signature",
              { ticket := vnameSig "path" "signature"
                markedSource := some (decodeMarkedSource testMarkedSource), reference := [] }) ]
        nodes := [ (vnameSig "path" "signature", [("/kythe/node/kind", ascii "record")]) ] }
      (by decide)⟩

/-- C10. Span wire round trip: for every span `s` whose `Start` and `End` are each
nil or a point with arbitrary `int32` fields, `Span.Marshal(s)` succeeds, and
`Span.Unmarshal` applied to its result on a fresh span returns no error and yields
a span equal to `s`.  Presence is preserved by the equality: a nil `Start` or `End`
stays nil, and a non-nil point whose fields are all zero stays non-nil and zero. -/
theorem C10_span_round_trip (s : Span) (hs : s.isInt32) :
    ∃ dAtA, s.Marshal = Outcome.ok dAtA ∧ Span.Unmarshal Span.zero dAtA = Outcome.ok s :=
  ⟨s.MarshalTo, Span_Marshal_eq s, Span_Unmarshal_MarshalTo s hs⟩

/-- C10, at the span of the integration test, `Start = {LineNumber: 1}` and
`End = {ByteOffset: 4, LineNumber: 1, ColumnOffset: 4}`, with its wire bytes, and at
a span with a non-nil all-zero `Start` and a nil `End`. -/
theorem C10_span_round_trip_witness :
    (({ Start := some ⟨0, 1, 0⟩, End := some ⟨4, 1, 4⟩ } : Span).isInt32 ∧
      ∃ dAtA, ({ Start := some ⟨0, 1, 0⟩, End := some ⟨4, 1, 4⟩ } : Span).Marshal =
          Outcome.ok dAtA ∧
        Span.Unmarshal Span.zero dAtA =
          Outcome.ok { Start := some ⟨0, 1, 0⟩, End := some ⟨4, 1, 4⟩ }) ∧
    ({ Start := some ⟨0, 1, 0⟩, End := some ⟨4, 1, 4⟩ } : Span).Marshal =
      Outcome.ok [0x0a, 0x02, 0x10, 0x01, 0x12, 0x06, 0x08, 0x04, 0x10, 0x01, 0x18, 0x04] ∧
    (∃ dAtA, ({ Start := some ⟨0, 0, 0⟩, End := none } : Span).Marshal = Outcome.ok dAtA ∧
      Span.Unmarshal Span.zero dAtA = Outcome.ok { Start := some ⟨0, 0, 0⟩, End := none }) :=
  ⟨⟨by simp [Span.isInt32, Point.isInt32, fitsInt32],
      C10_span_round_trip { Start := some ⟨0, 1, 0⟩, End := some ⟨4, 1, 4⟩ }
        (by simp [Span.isInt32, Point.isInt32, fitsInt32])⟩,
    by decide,
    C10_span_round_trip { Start := some ⟨0, 0, 0⟩, End := none }
      (by simp [Span.isInt32, Point.isInt32, fitsInt32])⟩

/-- C11. Point wire round trip over the whole `int32` range: for every point `p`
whose `ByteOffset`, `LineNumber` and `ColumnOffset` are arbitrary `int32` values,
negative ones included, `Point.Marshal(p)` succeeds and `Point.Unmarshal` applied
to its result on a fresh point returns no error and yields exactly `p`. -/
theorem C11_point_round_trip (p : Point) (hp : p.isInt32) :
    ∃ dAtA, p.Marshal = Outcome.ok dAtA ∧ Point.Unmarshal Point.zero dAtA = Outcome.ok p :=
  ⟨p.MarshalTo, Point_Marshal_eq p, Point_Unmarshal_MarshalTo p hp⟩

/-- C11, at the point `{ByteOffset: -1, LineNumber: -2147483648, ColumnOffset:
2147483647}`: the negative fields are written as 10-byte varints. -/
theorem C11_point_round_trip_witness :
    (({ ByteOffset := -1, LineNumber := -2147483648, ColumnOffset := 2147483647 } : Point).isInt32 ∧
      ∃ dAtA, ({ ByteOffset := -1, LineNumber := -2147483648,
                 ColumnOffset := 2147483647 } : Point).Marshal = Outcome.ok dAtA ∧
        Point.Unmarshal Point.zero dAtA =
          Outcome.ok { ByteOffset := -1, LineNumber := -2147483648, ColumnOffset := 2147483647 }) ∧
    ({ ByteOffset := -1, LineNumber := -2147483648, ColumnOffset := 2147483647 } : Point).Marshal =
      Outcome.ok
        [0x08, 0xff, 0xff, 0xff, 0xff, 0xff, 0xff, 0xff, 0xff, 0xff, 0x01,
         0x10, 0x80, 0x80, 0x80, 0x80, 0xf8, 0xff, 0xff, 0xff, 0xff, 0x01,
         0x18, 0xff, 0xff, 0xff, 0xff, 0x07] :=
  ⟨⟨by simp [Point.isInt32, fitsInt32],
      C11_point_round_trip { ByteOffset := -1, LineNumber := -2147483648, ColumnOffset := 2147483647 }
        (by simp [Point.isInt32, fitsInt32])⟩,
    by decide⟩


/-- C12. Fact wire round trip: for every `Fact` whose encoding has a size that is
a Go `int`, `Marshal` returns bytes, and `Unmarshal` of these bytes on a fresh
`Fact` returns no error and yields the same `Name` and a `Value` with the same
bytes.  An empty `Name` or `Value` is omitted on the wire; an omitted `Value` is
read back as the nil slice, a written one as a non-nil slice. -/
theorem C12_fact_round_trip (f : Fact) (hf : f.Size < 2 ^ 63) :
    ∃ dAtA m, f.Marshal = Outcome.ok dAtA ∧ Fact.Unmarshal Fact.zero dAtA = Outcome.ok m ∧
      m.Name = f.Name ∧ bytesOf m.Value = bytesOf f.Value ∧
      (m.Value = none ↔ bytesOf f.Value = []) ∧
      (f.Name = [] ∧ bytesOf f.Value = [] ↔ dAtA = []) := by
  refine ⟨f.MarshalTo, _, Fact_Marshal_eq f, Fact_Unmarshal_MarshalTo f Fact.zero hf, ?_, ?_, ?_, ?_⟩
  · by_cases hn : f.Name.length > 0
    · simp only [if_pos hn]
    · simp only [if_neg hn, Fact.zero]
      exact (List.length_eq_zero.mp (by omega)).symm
  · by_cases hv : (bytesOf f.Value).length > 0
    · simp only [if_pos hv]
      rfl
    · simp only [if_neg hv, Fact.zero]
      exact (List.length_eq_zero.mp (by omega)).symm
  · by_cases hv : (bytesOf f.Value).length > 0
    · simp only [if_pos hv]
      constructor
      · intro h
        cases h
      · intro h
        rw [h] at hv
        simp at hv
    · simp only [if_neg hv, Fact.zero]
      constructor
      · intro _
        exact List.length_eq_zero.mp (by omega)
      · intro _
        trivial
  · unfold Fact.MarshalTo
    constructor
    · rintro ⟨h1, h2⟩
      rw [h1, h2]
      rfl
    · intro h
      by_cases hn : f.Name.length > 0
      · rw [if_pos hn] at h
        simp at h
      · by_cases hv : (bytesOf f.Value).length > 0
        · rw [if_pos hv] at h
          simp at h
        · exact ⟨List.length_eq_zero.mp (by omega), List.length_eq_zero.mp (by omega)⟩

/-- C12 at the fact of name `"abc"` and value `[7]`, whose encoding is
`0a 03 61 62 63 12 01 07`. -/
theorem C12_fact_round_trip_witness :
    ((Fact.mk [97, 98, 99] (some [7])).Size < 2 ^ 63 ∧
      ∃ dAtA m, (Fact.mk [97, 98, 99] (some [7])).Marshal = Outcome.ok dAtA ∧
        Fact.Unmarshal Fact.zero dAtA = Outcome.ok m ∧
        m.Name = (Fact.mk [97, 98, 99] (some [7])).Name ∧
        bytesOf m.Value = bytesOf (Fact.mk [97, 98, 99] (some [7])).Value ∧
        (m.Value = none ↔ bytesOf (Fact.mk [97, 98, 99] (some [7])).Value = []) ∧
        ((Fact.mk [97, 98, 99] (some [7])).Name = [] ∧
          bytesOf (Fact.mk [97, 98, 99] (some [7])).Value = [] ↔ dAtA = [])) ∧
    (Fact.mk [97, 98, 99] (some [7])).Marshal =
      Outcome.ok [0x0a, 0x03, 0x61, 0x62, 0x63, 0x12, 0x01, 0x07] :=
  ⟨⟨by decide, C12_fact_round_trip (Fact.mk [97, 98, 99] (some [7])) (by decide)⟩, by decide⟩


/-- C13. NodeInfo wire round trip: for every `NodeInfo` whose map has distinct keys
(the empty key and empty values included) and whose encoding has a size that is a
Go `int`, and for every order in which `Marshal` visits the keys of the map,
`Marshal` returns bytes, and `Unmarshal` of these bytes on a fresh `NodeInfo`
returns no error and yields the same `Definition` and a map with exactly the same
keys, each mapped to the same bytes. -/
theorem C13_nodeinfo_round_trip (n : NodeInfo) (order : List (List Byte))
    (hkeys : (n.entries.map Prod.fst).Nodup) (horder : order.Perm (n.entries.map Prod.fst))
    (hsize : n.Size < 2 ^ 63) :
    ∃ dAtA m, n.Marshal order = Outcome.ok dAtA ∧
      NodeInfo.Unmarshal NodeInfo.zero dAtA = Outcome.ok m ∧
      m.Definition = n.Definition ∧
      (m.entries.map Prod.fst).Nodup ∧
      (m.entries.map Prod.fst).Perm (n.entries.map Prod.fst) ∧
      ∀ k, bytesOf (m.entries.get k) = bytesOf (n.entries.get k) := by
  have hnd : order.Nodup := horder.nodup_iff.mpr hkeys
  have hl : (n.MarshalTo order).length < 2 ^ 63 := by
    rw [NodeInfo_MarshalTo_length n order hkeys horder]
    exact hsize
  have hfst : (order.map fun k => (k, storedValue (n.entries.get k))).map Prod.fst = order := by
    rw [List.map_map]
    exact List.map_id order
  have hstore : (storeEntries none
      (order.map fun k => (k, storedValue (n.entries.get k)))).getD [] =
      order.map fun k => (k, storedValue (n.entries.get k)) := by
    have := storeEntries_fresh (order.map fun k => (k, storedValue (n.entries.get k))) none
      (by rw [hfst]; simpa using hnd)
    simpa using this
  refine ⟨n.MarshalTo order, _, NodeInfo_Marshal_eq n order hkeys horder,
    NodeInfo_Unmarshal_MarshalTo n order hl, rfl, ?_, ?_, ?_⟩
  · show ((storeEntries none _).getD []).map Prod.fst |>.Nodup
    rw [hstore, hfst]
    exact hnd
  · show (((storeEntries none _).getD []).map Prod.fst).Perm _
    rw [hstore, hfst]
    exact horder
  · intro k
    show bytesOf (FactsMap.get ((storeEntries none _).getD []) k) = _
    rw [hstore, FactsMap_get_map (fun k => storedValue (n.entries.get k)) order k]
    by_cases hk : k ∈ order
    · rw [if_pos hk, bytesOf_storedValue]
    · rw [if_neg hk, FactsMap_get_of_not_mem n.entries k (fun h => hk (horder.mem_iff.mpr h))]

/-- C13 at the node of definition `"d"` and facts `"k" ↦ "v"`, `"" ↦ nil`, written
with the empty key first: the bytes are `12 02 0a 00`, `12 06 0a 01 6b 12 01 76`,
`2a 01 64`. -/
theorem C13_nodeinfo_round_trip_witness :
    (((NodeInfo.mk (some [([107], some [118]), ([], none)]) [100]).entries.map Prod.fst).Nodup ∧
      List.Perm [[], [107]]
        ((NodeInfo.mk (some [([107], some [118]), ([], none)]) [100]).entries.map Prod.fst) ∧
      (NodeInfo.mk (some [([107], some [118]), ([], none)]) [100]).Size < 2 ^ 63 ∧
      ∃ dAtA m,
        (NodeInfo.mk (some [([107], some [118]), ([], none)]) [100]).Marshal [[], [107]] =
          Outcome.ok dAtA ∧
        NodeInfo.Unmarshal NodeInfo.zero dAtA = Outcome.ok m ∧
        m.Definition = (NodeInfo.mk (some [([107], some [118]), ([], none)]) [100]).Definition ∧
        (m.entries.map Prod.fst).Nodup ∧
        (m.entries.map Prod.fst).Perm
          ((NodeInfo.mk (some [([107], some [118]), ([], none)]) [100]).entries.map Prod.fst) ∧
        ∀ k, bytesOf (m.entries.get k) =
          bytesOf ((NodeInfo.mk (some [([107], some [118]), ([], none)]) [100]).entries.get k)) ∧
    (NodeInfo.mk (some [([107], some [118]), ([], none)]) [100]).Marshal [[], [107]] =
      Outcome.ok [0x12, 0x02, 0x0a, 0x00, 0x12, 0x06, 0x0a, 0x01, 0x6b, 0x12, 0x01, 0x76,
        0x2a, 0x01, 0x64] ∧
    NodeInfo.Unmarshal NodeInfo.zero
        [0x12, 0x02, 0x0a, 0x00, 0x12, 0x06, 0x0a, 0x01, 0x6b, 0x12, 0x01, 0x76,
          0x2a, 0x01, 0x64] =
      Outcome.ok (NodeInfo.mk (some [([], none), ([107], some [118])]) [100]) :=
  ⟨⟨by decide, by decide, by decide,
      C13_nodeinfo_round_trip (NodeInfo.mk (some [([107], some [118]), ([], none)]) [100])
        [[], [107]] (by decide) (by decide) (by decide)⟩,
    by decide, by decide⟩

/-- C14. Point wire format as declared by its field tags: for every point `p`
(with `int32` fields), `Point.Marshal(p)` is the concatenation, in the order
`ByteOffset`, `LineNumber`, `ColumnOffset`, of one entry per non-zero field, each
entry being the tag byte of field number 1, 2 or 3 with wire type 0, which is
`0x08`, `0x10` or `0x18`, followed by the base-128 varint of the field value
sign-extended to 64 bits; a field equal to 0 contributes no bytes, so the
all-zero point marshals to the empty byte sequence. -/
theorem C14_point_wire_format (p : Point) (hp : p.isInt32) :
    p.Marshal =
        Outcome.ok (varintField 1 p.ByteOffset ++ varintField 2 p.LineNumber ++
          varintField 3 p.ColumnOffset) ∧
      tagOf 1 0 = 0x08 ∧ tagOf 2 0 = 0x10 ∧ tagOf 3 0 = 0x18 ∧
      (∀ n, varintField n 0 = []) ∧
      Point.zero.Marshal = Outcome.ok [] := by
  obtain ⟨h1, h2, h3⟩ := hp
  refine ⟨?_, by decide, by decide, by decide, fun n => rfl, by decide⟩
  rw [Point_Marshal_eq]
  unfold Point.MarshalTo varintField
  rw [encodeVarintCommon_eq_varintOf _ (uint64_lt _), encodeVarintCommon_eq_varintOf _ (uint64_lt _),
    encodeVarintCommon_eq_varintOf _ (uint64_lt _), uint64_eq_signExtend64 _ h1,
    uint64_eq_signExtend64 _ h2, uint64_eq_signExtend64 _ h3]
  have t1 : tagOf 1 0 = 0x08 := by decide
  have t2 : tagOf 2 0 = 0x10 := by decide
  have t3 : tagOf 3 0 = 0x18 := by decide
  rw [t1, t2, t3]
  congr 2
  · congr 1
    · by_cases h : p.ByteOffset = 0 <;> simp [h]
    · by_cases h : p.LineNumber = 0 <;> simp [h]
  · by_cases h : p.ColumnOffset = 0 <;> simp [h]

/-- C14, at the point `{ByteOffset: 300, LineNumber: 0, ColumnOffset: -1}`: the
varint of 300 is `0xac 0x02`, the zero field is absent, and -1 is written as the
10-byte varint of `2 ^ 64 - 1`. -/
theorem C14_point_wire_format_witness :
    ({ ByteOffset := 300, LineNumber := 0, ColumnOffset := -1 } : Point).isInt32 ∧
    (({ ByteOffset := 300, LineNumber := 0, ColumnOffset := -1 } : Point).Marshal =
        Outcome.ok (varintField 1 300 ++ varintField 2 0 ++ varintField 3 (-1)) ∧
      tagOf 1 0 = 0x08 ∧ tagOf 2 0 = 0x10 ∧ tagOf 3 0 = 0x18 ∧
      (∀ n, varintField n 0 = []) ∧
      Point.zero.Marshal = Outcome.ok []) ∧
    ({ ByteOffset := 300, LineNumber := 0, ColumnOffset := -1 } : Point).Marshal =
      Outcome.ok [0x08, 0xac, 0x02,
        0x18, 0xff, 0xff, 0xff, 0xff, 0xff, 0xff, 0xff, 0xff, 0xff, 0x01] :=
  ⟨by simp [Point.isInt32, fitsInt32],
    C14_point_wire_format { ByteOffset := 300, LineNumber := 0, ColumnOffset := -1 }
      (by simp [Point.isInt32, fitsInt32]),
    by decide⟩


/-- C15. Wrong wire type is rejected.  `Unmarshal` is its loop, started at index 0
with one turn more than there are bytes.  At every turn of the loop of each of
`Fact`, `Point`, `Span` and `NodeInfo`, when the tag read at the current index
carries the field number of a known field of the message and a wire type other
than the declared one (varint, 0, for the three fields of `Point`;
length-delimited, 2, for the fields of `Fact`, `Span` and `NodeInfo`), the loop,
and with it `Unmarshal`, returns an error. -/
theorem C15_wrong_wire_type (dAtA : List Byte) (fuel : Nat) (iNdEx : Int) (wire : Nat)
    (iNdEx₁ : Int) (htag : readVarint 64 dAtA iNdEx = Outcome.ok (wire, iNdEx₁)) :
    (∀ m : Fact, int32 (wire >>> 3) = 1 ∨ int32 (wire >>> 3) = 2 → wire &&& 0x7 ≠ 2 →
      ∃ e, Fact.unmarshalLoop dAtA (fuel + 1) iNdEx m = Outcome.error e) ∧
    (∀ m : Point,
      int32 (wire >>> 3) = 1 ∨ int32 (wire >>> 3) = 2 ∨ int32 (wire >>> 3) = 3 →
      wire &&& 0x7 ≠ 0 →
      ∃ e, Point.unmarshalLoop dAtA (fuel + 1) iNdEx m = Outcome.error e) ∧
    (∀ m : Span, int32 (wire >>> 3) = 1 ∨ int32 (wire >>> 3) = 2 → wire &&& 0x7 ≠ 2 →
      ∃ e, Span.unmarshalLoop dAtA (fuel + 1) iNdEx m = Outcome.error e) ∧
    (∀ m : NodeInfo, int32 (wire >>> 3) = 2 ∨ int32 (wire >>> 3) = 5 → wire &&& 0x7 ≠ 2 →
      ∃ e, NodeInfo.unmarshalLoop dAtA (fuel + 1) iNdEx m = Outcome.error e) := by
  have hlt := (readVarint_ok_lt 64 dAtA iNdEx _ htag).2
  refine ⟨?_, ?_, ?_, ?_⟩
  · intro m hf hw
    rw [Fact.unmarshalLoop, if_pos hlt, htag]
    simp only
    split_ifs <;> first | exact ⟨_, rfl⟩ | omega
  · intro m hf hw
    rw [Point.unmarshalLoop, if_pos hlt, htag]
    simp only
    split_ifs <;> first | exact ⟨_, rfl⟩ | omega
  · intro m hf hw
    rw [Span.unmarshalLoop, if_pos hlt, htag]
    simp only
    split_ifs <;> first | exact ⟨_, rfl⟩ | omega
  · intro m hf hw
    rw [NodeInfo.unmarshalLoop, if_pos hlt, htag]
    simp only
    split_ifs <;> first | exact ⟨_, rfl⟩ | omega

/-- C15 at the input `11`, the tag of field 2 with the wire type 1 (64-bit): each
of the four messages has a field 2, none of them with this wire type. -/
theorem C15_wrong_wire_type_witness :
    readVarint 64 [0x11] 0 = Outcome.ok (17, 1) ∧
    (int32 (17 >>> 3) = 1 ∨ int32 (17 >>> 3) = 2) ∧ 17 &&& 0x7 ≠ 2 ∧ 17 &&& 0x7 ≠ 0 ∧
    (∃ e, Fact.Unmarshal Fact.zero [0x11] = Outcome.error e) ∧
    (∃ e, Point.Unmarshal Point.zero [0x11] = Outcome.error e) ∧
    (∃ e, Span.Unmarshal Span.zero [0x11] = Outcome.error e) ∧
    (∃ e, NodeInfo.Unmarshal NodeInfo.zero [0x11] = Outcome.error e) ∧
    Fact.Unmarshal Fact.zero [0x11] =
      Outcome.error (WireError.Errorf "proto: wrong wireType = %d for field Value") ∧
    Point.Unmarshal Point.zero [0x11] =
      Outcome.error (WireError.Errorf "proto: wrong wireType = %d for field LineNumber") :=
  ⟨by decide, by decide, by decide, by decide,
    (C15_wrong_wire_type [0x11] 1 0 17 1 (by decide)).1 Fact.zero (Or.inr (by decide))
      (by decide),
    (C15_wrong_wire_type [0x11] 1 0 17 1 (by decide)).2.1 Point.zero
      (Or.inr (Or.inl (by decide))) (by decide),
    (C15_wrong_wire_type [0x11] 1 0 17 1 (by decide)).2.2.1 Span.zero (Or.inr (by decide))
      (by decide),
    (C15_wrong_wire_type [0x11] 1 0 17 1 (by decide)).2.2.2 NodeInfo.zero (Or.inl (by decide))
      (by decide),
    by decide, by decide⟩


/-- C16. Integer overflow in the tenth byte of a varint is truncated, not
reported.  The ten bytes `88 80 80 80 80 80 80 80 80 02` denote `2^64 + 8`; read as
a tag they are taken for the tag 8 of the field `ByteOffset`, and
`Point.Unmarshal` returns no error.  The ten bytes `80 80 80 80 80 80 80 80 80 02`
denote `2^64`; read as a length after the tag of `Fact.Name`, `Span.Start` or
`NodeInfo.Definition` they are taken for the length 0, and `Unmarshal` returns no
error.  `ErrIntOverflowCommon` is returned when a varint goes on after its tenth
byte. -/
theorem C16_overflow_is_truncated :
    varintDenotes [0x88, 0x80, 0x80, 0x80, 0x80, 0x80, 0x80, 0x80, 0x80, 0x02] = 2 ^ 64 + 8 ∧
    Point.Unmarshal Point.zero
        [0x88, 0x80, 0x80, 0x80, 0x80, 0x80, 0x80, 0x80, 0x80, 0x02, 0x01] =
      Outcome.ok { ByteOffset := 1, LineNumber := 0, ColumnOffset := 0 } ∧
    varintDenotes [0x80, 0x80, 0x80, 0x80, 0x80, 0x80, 0x80, 0x80, 0x80, 0x02] = 2 ^ 64 ∧
    Fact.Unmarshal Fact.zero
        [0x0a, 0x80, 0x80, 0x80, 0x80, 0x80, 0x80, 0x80, 0x80, 0x80, 0x02] =
      Outcome.ok { Name := [], Value := none } ∧
    Span.Unmarshal Span.zero
        [0x0a, 0x80, 0x80, 0x80, 0x80, 0x80, 0x80, 0x80, 0x80, 0x80, 0x02] =
      Outcome.ok { Start := some Point.zero, End := none } ∧
    NodeInfo.Unmarshal NodeInfo.zero
        [0x2a, 0x80, 0x80, 0x80, 0x80, 0x80, 0x80, 0x80, 0x80, 0x80, 0x02] =
      Outcome.ok { Facts := none, Definition := [] } ∧
    Point.Unmarshal Point.zero
        [0x88, 0x80, 0x80, 0x80, 0x80, 0x80, 0x80, 0x80, 0x80, 0x80, 0x01] =
      Outcome.error WireError.ErrIntOverflowCommon := by
  decide


/-- C17. Negative length is rejected.  `Unmarshal` is its loop, started at index 0
with one turn more than there are bytes.  At every turn of the loop of `Fact`,
`Span` and `NodeInfo`, when the tag read at the current index is that of a known
field with the wire type 2 (`Fact.Name`, `Fact.Value`, `Span.Start`, `Span.End`, an
entry of `NodeInfo.Facts`, `NodeInfo.Definition`) and the length prefix read after
it is negative as a signed 64-bit integer, the loop, and with it `Unmarshal`,
returns `ErrInvalidLengthCommon`. -/
theorem C17_negative_length (dAtA : List Byte) (fuel : Nat) (iNdEx : Int) (wire : Nat)
    (iNdEx₁ : Int) (length : Nat) (iNdEx₂ : Int)
    (htag : readVarint 64 dAtA iNdEx = Outcome.ok (wire, iNdEx₁)) (hwt : wire &&& 0x7 = 2)
    (hlen : readVarint 64 dAtA iNdEx₁ = Outcome.ok (length, iNdEx₂))
    (hneg : int64 length < 0) :
    (∀ m : Fact, int32 (wire >>> 3) = 1 ∨ int32 (wire >>> 3) = 2 →
      Fact.unmarshalLoop dAtA (fuel + 1) iNdEx m =
        Outcome.error WireError.ErrInvalidLengthCommon) ∧
    (∀ m : Span, int32 (wire >>> 3) = 1 ∨ int32 (wire >>> 3) = 2 →
      Span.unmarshalLoop dAtA (fuel + 1) iNdEx m =
        Outcome.error WireError.ErrInvalidLengthCommon) ∧
    (∀ m : NodeInfo, int32 (wire >>> 3) = 2 ∨ int32 (wire >>> 3) = 5 →
      NodeInfo.unmarshalLoop dAtA (fuel + 1) iNdEx m =
        Outcome.error WireError.ErrInvalidLengthCommon) := by
  have hlt := (readVarint_ok_lt 64 dAtA iNdEx _ htag).2
  have hfield := readField_negative dAtA iNdEx₁ length iNdEx₂ hlen hneg
  have hentry := NodeInfo_unmarshalEntry_negative dAtA iNdEx₁ length iNdEx₂ hlen hneg
  refine ⟨?_, ?_, ?_⟩
  · intro m hf
    rw [Fact.unmarshalLoop, if_pos hlt, htag]
    simp only [hfield]
    split_ifs <;> first | rfl | omega
  · intro m hf
    have hstart := Span_unmarshalPoint_negative dAtA iNdEx₁ m.Start length iNdEx₂ hlen hneg
    have hend := Span_unmarshalPoint_negative dAtA iNdEx₁ m.End length iNdEx₂ hlen hneg
    rw [Span.unmarshalLoop, if_pos hlt, htag]
    simp only [hstart, hend]
    split_ifs <;> first | rfl | omega
  · intro m hf
    rw [NodeInfo.unmarshalLoop, if_pos hlt, htag]
    simp only [hfield, hentry]
    split_ifs <;> first | rfl | omega

/-- C17 at the input `0a ff ff ff ff ff ff ff ff ff 01`: the tag of field 1 with
the wire type 2 and the length prefix of bit pattern `2^64 - 1`, which is -1 as an
`int`.  The same length after the tags `12` and `2a` of `NodeInfo`. -/
theorem C17_negative_length_witness :
    readVarint 64 [0x0a, 0xff, 0xff, 0xff, 0xff, 0xff, 0xff, 0xff, 0xff, 0xff, 0x01] 0 =
      Outcome.ok (10, 1) ∧
    10 &&& 0x7 = 2 ∧
    readVarint 64 [0x0a, 0xff, 0xff, 0xff, 0xff, 0xff, 0xff, 0xff, 0xff, 0xff, 0x01] 1 =
      Outcome.ok (18446744073709551615, 11) ∧
    int64 18446744073709551615 < 0 ∧
    Fact.Unmarshal Fact.zero [0x0a, 0xff, 0xff, 0xff, 0xff, 0xff, 0xff, 0xff, 0xff, 0xff, 0x01] =
      Outcome.error WireError.ErrInvalidLengthCommon ∧
    Span.Unmarshal Span.zero [0x0a, 0xff, 0xff, 0xff, 0xff, 0xff, 0xff, 0xff, 0xff, 0xff, 0x01] =
      Outcome.error WireError.ErrInvalidLengthCommon ∧
    NodeInfo.Unmarshal NodeInfo.zero
        [0x12, 0xff, 0xff, 0xff, 0xff, 0xff, 0xff, 0xff, 0xff, 0xff, 0x01] =
      Outcome.error WireError.ErrInvalidLengthCommon ∧
    NodeInfo.Unmarshal NodeInfo.zero
        [0x2a, 0xff, 0xff, 0xff, 0xff, 0xff, 0xff, 0xff, 0xff, 0xff, 0x01] =
      Outcome.error WireError.ErrInvalidLengthCommon :=
  ⟨by decide, by decide, by decide, by decide,
    (C17_negative_length [0x0a, 0xff, 0xff, 0xff, 0xff, 0xff, 0xff, 0xff, 0xff, 0xff, 0x01]
      11 0 10 1 18446744073709551615 11 (by decide) (by decide) (by decide) (by decide)).1
      Fact.zero (Or.inl (by decide)),
    (C17_negative_length [0x0a, 0xff, 0xff, 0xff, 0xff, 0xff, 0xff, 0xff, 0xff, 0xff, 0x01]
      11 0 10 1 18446744073709551615 11 (by decide) (by decide) (by decide) (by decide)).2.1
      Span.zero (Or.inl (by decide)),
    by decide, by decide⟩


/-- C18. Illegal tags are rejected.  `Unmarshal` is its loop, started at index 0
with one turn more than there are bytes.  At every turn of the loop of each of
`Fact`, `Point`, `Span` and `NodeInfo`, when the tag read at the current index has
the field number 0 or the wire type 4 (end group), the loop, and with it
`Unmarshal`, returns an error at this turn, without decoding or skipping a field:
the error of the end group when the wire type is 4, the error of the illegal tag
otherwise. -/
theorem C18_illegal_tag (dAtA : List Byte) (fuel : Nat) (iNdEx : Int) (wire : Nat)
    (iNdEx₁ : Int) (htag : readVarint 64 dAtA iNdEx = Outcome.ok (wire, iNdEx₁))
    (hbad : wire >>> 3 = 0 ∨ wire &&& 0x7 = 4) :
    (∀ m : Fact, Fact.unmarshalLoop dAtA (fuel + 1) iNdEx m =
      Outcome.error (WireError.Errorf
        (if wire &&& 0x7 = 4 then "proto: Fact: wiretype end group for non-group"
         else "proto: Fact: illegal tag %d (wire type %d)"))) ∧
    (∀ m : Point, Point.unmarshalLoop dAtA (fuel + 1) iNdEx m =
      Outcome.error (WireError.Errorf
        (if wire &&& 0x7 = 4 then "proto: Point: wiretype end group for non-group"
         else "proto: Point: illegal tag %d (wire type %d)"))) ∧
    (∀ m : Span, Span.unmarshalLoop dAtA (fuel + 1) iNdEx m =
      Outcome.error (WireError.Errorf
        (if wire &&& 0x7 = 4 then "proto: Span: wiretype end group for non-group"
         else "proto: Span: illegal tag %d (wire type %d)"))) ∧
    (∀ m : NodeInfo, NodeInfo.unmarshalLoop dAtA (fuel + 1) iNdEx m =
      Outcome.error (WireError.Errorf
        (if wire &&& 0x7 = 4 then "proto: NodeInfo: wiretype end group for non-group"
         else "proto: NodeInfo: illegal tag %d (wire type %d)"))) := by
  have hlt := (readVarint_ok_lt 64 dAtA iNdEx _ htag).2
  have h0 : ¬ wire &&& 0x7 = 4 → int32 (wire >>> 3) ≤ 0 := by
    intro h4
    rcases hbad with h | h
    · rw [h]
      decide
    · exact absurd h h4
  refine ⟨?_, ?_, ?_, ?_⟩
  · intro m
    rw [Fact.unmarshalLoop, if_pos hlt, htag]
    simp only
    by_cases h4 : wire &&& 0x7 = 4
    · rw [if_pos h4, if_pos h4]
    · rw [if_neg h4, if_neg h4, if_pos (h0 h4)]
  · intro m
    rw [Point.unmarshalLoop, if_pos hlt, htag]
    simp only
    by_cases h4 : wire &&& 0x7 = 4
    · rw [if_pos h4, if_pos h4]
    · rw [if_neg h4, if_neg h4, if_pos (h0 h4)]
  · intro m
    rw [Span.unmarshalLoop, if_pos hlt, htag]
    simp only
    by_cases h4 : wire &&& 0x7 = 4
    · rw [if_pos h4, if_pos h4]
    · rw [if_neg h4, if_neg h4, if_pos (h0 h4)]
  · intro m
    rw [NodeInfo.unmarshalLoop, if_pos hlt, htag]
    simp only
    by_cases h4 : wire &&& 0x7 = 4
    · rw [if_pos h4, if_pos h4]
    · rw [if_neg h4, if_neg h4, if_pos (h0 h4)]

/-- C18 at the input `02 00`, a tag of field number 0 with the wire type 2 followed
by a length of 0: each `Unmarshal` returns the error of the illegal tag.  At the
input `0c`, the tag of field 1 with the wire type 4, `Fact.Unmarshal` returns the
error of the end group. -/
theorem C18_illegal_tag_witness :
    readVarint 64 [0x02, 0x00] 0 = Outcome.ok (2, 1) ∧
    (2 >>> 3 = 0 ∨ 2 &&& 0x7 = 4) ∧
    Fact.Unmarshal Fact.zero [0x02, 0x00] =
      Outcome.error (WireError.Errorf "proto: Fact: illegal tag %d (wire type %d)") ∧
    Point.Unmarshal Point.zero [0x02, 0x00] =
      Outcome.error (WireError.Errorf "proto: Point: illegal tag %d (wire type %d)") ∧
    Span.Unmarshal Span.zero [0x02, 0x00] =
      Outcome.error (WireError.Errorf "proto: Span: illegal tag %d (wire type %d)") ∧
    NodeInfo.Unmarshal NodeInfo.zero [0x02, 0x00] =
      Outcome.error (WireError.Errorf "proto: NodeInfo: illegal tag %d (wire type %d)") ∧
    Fact.Unmarshal Fact.zero [0x0c] =
      Outcome.error (WireError.Errorf "proto: Fact: wiretype end group for non-group") :=
  ⟨by decide, by decide,
    (C18_illegal_tag [0x02, 0x00] 2 0 2 1 (by decide) (by decide)).1 Fact.zero,
    (C18_illegal_tag [0x02, 0x00] 2 0 2 1 (by decide) (by decide)).2.1 Point.zero,
    (C18_illegal_tag [0x02, 0x00] 2 0 2 1 (by decide) (by decide)).2.2.1 Span.zero,
    (C18_illegal_tag [0x02, 0x00] 2 0 2 1 (by decide) (by decide)).2.2.2 NodeInfo.zero,
    by decide⟩


/-- C19. Pre-processing establishes the compiler plugin: for every pom document
that has a top-level `project` element, `insertCompilerPlugin` returns no error
and `hasCompilerPlugin` holds of the resulting document; whenever
`insertCompilerPlugin` returns no error, `hasCompilerPlugin` holds of the
resulting document; and whenever the document step of `preProcessPomXML` returns
no error, `hasCompilerPlugin` holds of the document it leaves. -/
theorem C19_plugin_established (doc : Document) :
    ((∃ s c, Token.element s "project" c ∈ doc.Child) →
      (insertCompilerPlugin doc).2 = none ∧
        hasCompilerPlugin (insertCompilerPlugin doc).1 = true) ∧
    (∀ d, insertCompilerPlugin doc = (d, none) → hasCompilerPlugin d = true) ∧
    (∀ d, preProcessDocument doc = (d, none) → hasCompilerPlugin d = true) := by
  have hins : ∀ d, insertCompilerPlugin doc = (d, none) → hasCompilerPlugin d = true := by
    intro d hd
    cases hsel : SelectElement "project" doc.Child with
    | none =>
      rw [insertCompilerPlugin_error doc hsel] at hd
      cases hd
    | some t =>
      have h := insertCompilerPlugin_ok doc (by rw [hsel]; rfl)
      rw [hd] at h
      exact h.2
  refine ⟨?_, hins, ?_⟩
  · intro hp
    apply insertCompilerPlugin_ok
    cases hsel : SelectElement "project" doc.Child with
    | none => exact absurd hp ((SelectElement_none "project" doc.Child).mp hsel)
    | some t => rfl
  · intro d hd
    unfold preProcessDocument at hd
    by_cases hhas : hasCompilerPlugin doc = true
    · rw [if_pos hhas] at hd
      cases hd
      exact hhas
    · rw [if_neg hhas] at hd
      exact hins d hd

/-- C19 at the document `<project><build/></project>`: the `build` element is
selected, the elements `plugins` and `plugin` are created in it, and the path of
`hasCompilerPlugin` finds the `artifactId`. -/
theorem C19_plugin_established_witness :
    (∃ s c, Token.element s "project" c ∈
      (Document.mk [Token.element "" "project" [Token.element "" "build" []]]).Child) ∧
    hasCompilerPlugin (Document.mk [Token.element "" "project" [Token.element "" "build" []]]) =
      false ∧
    preProcessDocument (Document.mk [Token.element "" "project" [Token.element "" "build" []]]) =
      (Document.mk [Token.element "" "project" [Token.element "" "build"
        [Token.element "" "plugins" [Token.element "" "plugin"
          [Token.element "" "groupId" [Token.charData "org.apache.maven.plugins"],
           Token.element "" "artifactId" [Token.charData "maven-compiler-plugin"],
           Token.element "" "version" [Token.charData "3.7.0"],
           Token.element "" "configuration"
             [Token.element "" "source" [Token.charData "1.8"],
              Token.element "" "target" [Token.charData "1.8"]]]]]]], none) ∧
    ((insertCompilerPlugin
        (Document.mk [Token.element "" "project" [Token.element "" "build" []]])).2 = none ∧
      hasCompilerPlugin (insertCompilerPlugin
        (Document.mk [Token.element "" "project" [Token.element "" "build" []]])).1 = true) ∧
    hasCompilerPlugin
      (Document.mk [Token.element "" "project" [Token.element "" "build"
        [Token.element "" "plugins" [Token.element "" "plugin"
          [Token.element "" "groupId" [Token.charData "org.apache.maven.plugins"],
           Token.element "" "artifactId" [Token.charData "maven-compiler-plugin"],
           Token.element "" "version" [Token.charData "3.7.0"],
           Token.element "" "configuration"
             [Token.element "" "source" [Token.charData "1.8"],
              Token.element "" "target" [Token.charData "1.8"]]]]]]]) = true :=
  ⟨⟨"", [Token.element "" "build" []], List.mem_singleton_self _⟩, by decide, by rfl,
    (C19_plugin_established
      (Document.mk [Token.element "" "project" [Token.element "" "build" []]])).1
      ⟨"", [Token.element "" "build" []], List.mem_singleton_self _⟩,
    (C19_plugin_established
      (Document.mk [Token.element "" "project" [Token.element "" "build" []]])).2.2 _ (by rfl)⟩


/-- C20. `insertCompilerPlugin` returns an error if and only if the document has no
top-level child element named `project`; the error is then `no top level
<project> element`, and the document is left unchanged. -/
theorem C20_no_project_error (doc : Document) :
    ((insertCompilerPlugin doc).2 ≠ none ↔ ¬ ∃ s c, Token.element s "project" c ∈ doc.Child) ∧
    ((¬ ∃ s c, Token.element s "project" c ∈ doc.Child) →
      insertCompilerPlugin doc = (doc, some "no top level <project> element")) := by
  constructor
  · constructor
    · intro herr hp
      have hsome : (SelectElement "project" doc.Child).isSome = true := by
        cases hsel : SelectElement "project" doc.Child with
        | none => exact absurd hp ((SelectElement_none "project" doc.Child).mp hsel)
        | some t => rfl
      exact herr (insertCompilerPlugin_ok doc hsome).1
    · intro hp
      rw [insertCompilerPlugin_error doc ((SelectElement_none "project" doc.Child).mpr hp)]
      simp
  · intro hp
    exact insertCompilerPlugin_error doc ((SelectElement_none "project" doc.Child).mpr hp)

/-- C20 at the document whose only top-level element is `<build><project/></build>`,
after a comment: its `project` element is not at the top level, the error is
returned and the document is as it was. -/
theorem C20_no_project_error_witness :
    (¬ ∃ s c, Token.element s "project" c ∈
      (Document.mk [Token.other "comment",
        Token.element "" "build" [Token.element "" "project" []]]).Child) ∧
    insertCompilerPlugin
        (Document.mk [Token.other "comment",
          Token.element "" "build" [Token.element "" "project" []]]) =
      (Document.mk [Token.other "comment",
        Token.element "" "build" [Token.element "" "project" []]],
        some "no top level <project> element") ∧
    (insertCompilerPlugin (Document.mk [Token.element "m" "project" []])).2 = none :=
  ⟨(SelectElement_none "project" _).mp (by rfl),
    (C20_no_project_error
      (Document.mk [Token.other "comment",
        Token.element "" "build" [Token.element "" "project" []]])).2
      ((SelectElement_none "project" _).mp (by rfl)),
    by rfl⟩

end Kythe
